import Mathlib

/-!
Verification development for the multi-strategy exploration engine
(Tree-of-Thought, Graph-of-Thought, Beam Search, MCTS pattern handlers).

The four handlers are shallowly embedded from the TypeScript sources:

* JavaScript `Map` objects become insertion-ordered association lists
  (`jget` / `jset` / `jdel` mirror `get` / `set` / `delete`); iteration
  (`forEach`) is iteration over the underlying list.
* The uuid v4 id supply becomes a counter threaded through each session
  (`ctr`); ids are modelled as naturals standing for the uuid strings
  (the only property the code relies on is freshness / distinctness).
* JavaScript numbers become exact rationals (`ℚ`); the special values
  `Infinity` / `-Infinity` used as sentinels in comparisons are modelled
  by the three-valued type `JsVal`.
* `Math.random()` draws become explicit streams of rationals threaded
  through the operations; theorems quantify over all streams.
* `Math.sqrt` / `Math.log` (used only inside UCB scores, never branched
  on) become oracle parameters `ℚ → ℚ`; theorems hold for every oracle.
* Wall-clock fields (timestamps, `createdAt`, `updatedAt`, `totalTime`
  accounting, time-limit checks) and the opaque session ids are
  environment interactions that no verified claim observes; they are
  omitted from the embedded records, as are debug-only metadata blobs
  (`stateRepresentation`) that the code writes but never reads.
* Unbounded JS recursion (depth-first searches, parent-chain walks)
  becomes fuel-indexed recursion; each call site supplies fuel large
  enough that exhaustion is unreachable, and theorems carry the
  corresponding well-formedness hypotheses.
-/

namespace ClearThought

/-! ## JavaScript Map model -/

/-- `Map.prototype.get`: first binding of the key, if any. -/
def jget {κ α : Type} [DecidableEq κ] (m : List (κ × α)) (k : κ) : Option α :=
  match m with
  | [] => none
  | (k₂, v) :: rest => if k₂ = k then some v else jget rest k

/-- `Map.prototype.set`: replace the binding in place, else append. -/
def jset {κ α : Type} [DecidableEq κ] (m : List (κ × α)) (k : κ) (v : α) : List (κ × α) :=
  match m with
  | [] => [(k, v)]
  | (k₂, v₂) :: rest => if k₂ = k then (k, v) :: rest else (k₂, v₂) :: jset rest k v

/-- `Map.prototype.delete`: remove the binding, if present. -/
def jdel {κ α : Type} [DecidableEq κ] (m : List (κ × α)) (k : κ) : List (κ × α) :=
  match m with
  | [] => []
  | (k₂, v₂) :: rest => if k₂ = k then rest else (k₂, v₂) :: jdel rest k

/-- Keys of a map, in insertion order. -/
def jkeys {κ α : Type} (m : List (κ × α)) : List κ := m.map Prod.fst

theorem jget_jset_self {κ α : Type} [DecidableEq κ] (m : List (κ × α)) (k : κ) (v : α) :
    jget (jset m k v) k = some v := by
  induction m with
  | nil => simp [jget, jset]
  | cons p rest ih =>
    obtain ⟨k₂, v₂⟩ := p
    by_cases h : k₂ = k <;> simp [jget, jset, h, ih]

theorem jkeys_cons {κ α : Type} (k : κ) (v : α) (rest : List (κ × α)) :
    jkeys ((k, v) :: rest) = k :: jkeys rest := rfl

theorem jget_jset_ne {κ α : Type} [DecidableEq κ] (m : List (κ × α)) (k k₁ : κ) (v : α)
    (h : k₁ ≠ k) : jget (jset m k v) k₁ = jget m k₁ := by
  induction m with
  | nil => simp [jget, jset, h, Ne.symm h]
  | cons p rest ih =>
    obtain ⟨k₂, v₂⟩ := p
    by_cases h₂ : k₂ = k
    · subst h₂
      simp [jget, jset, h, Ne.symm h]
    · by_cases h₃ : k₂ = k₁
      · subst h₃
        simp [jget, jset, h₂, h]
      · simp [jget, jset, h₂, h₃, ih]

theorem jkeys_jset_mem {κ α : Type} [DecidableEq κ] (m : List (κ × α)) (k : κ) (v : α)
    (h : k ∈ jkeys m) : jkeys (jset m k v) = jkeys m := by
  induction m with
  | nil => simp [jkeys] at h
  | cons p rest ih =>
    obtain ⟨k₂, v₂⟩ := p
    by_cases h₂ : k₂ = k
    · simp [jkeys, jset, h₂]
    · rw [jkeys_cons] at h
      rcases List.mem_cons.mp h with h | h
      · exact absurd h.symm h₂
      · simp [jkeys_cons, jset, h₂, ih h]

theorem jkeys_jset_not_mem {κ α : Type} [DecidableEq κ] (m : List (κ × α)) (k : κ) (v : α)
    (h : k ∉ jkeys m) : jkeys (jset m k v) = jkeys m ++ [k] := by
  induction m with
  | nil => simp [jkeys, jset]
  | cons p rest ih =>
    obtain ⟨k₂, v₂⟩ := p
    rw [jkeys_cons] at h
    have h₁ : k₂ ≠ k := fun hk => h (hk ▸ List.mem_cons_self _ _)
    have h₂ : k ∉ jkeys rest := fun hk => h (List.mem_cons_of_mem _ hk)
    simp [jkeys_cons, jset, h₁, ih h₂]

theorem jget_eq_none_of_not_mem {κ α : Type} [DecidableEq κ] (m : List (κ × α)) (k : κ)
    (h : k ∉ jkeys m) : jget m k = none := by
  induction m with
  | nil => simp [jget]
  | cons p rest ih =>
    obtain ⟨k₂, v₂⟩ := p
    rw [jkeys_cons] at h
    have h₁ : k₂ ≠ k := fun hk => h (hk ▸ List.mem_cons_self _ _)
    have h₂ : k ∉ jkeys rest := fun hk => h (List.mem_cons_of_mem _ hk)
    simp [jget, h₁, ih h₂]

theorem jget_mem_keys {κ α : Type} [DecidableEq κ] (m : List (κ × α)) (k : κ) (v : α)
    (h : jget m k = some v) : k ∈ jkeys m := by
  induction m with
  | nil => simp [jget] at h
  | cons p rest ih =>
    obtain ⟨k₂, v₂⟩ := p
    by_cases h₂ : k₂ = k
    · rw [jkeys_cons, h₂]
      exact List.mem_cons_self _ _
    · simp [jget, h₂] at h
      rw [jkeys_cons]
      exact List.mem_cons_of_mem _ (ih h)

/-! ## JavaScript number sentinels -/

/-- A JavaScript number that may be one of the infinities used as
comparison sentinels (`-Infinity` accumulator seeds, `Infinity` for
unvisited UCB nodes). Finite values are exact rationals. -/
inductive JsVal where
  | ninf
  | fin (q : ℚ)
  | inf
deriving DecidableEq, Repr

/-- JavaScript `>` on `JsVal` (`NaN` never arises in the modelled code paths). -/
def JsVal.gtJs : JsVal → JsVal → Bool
  | .inf, .inf => false
  | .inf, _ => true
  | .fin _, .inf => false
  | .fin a, .fin b => decide (b < a)
  | .fin _, .ninf => true
  | .ninf, _ => false

/-! ## Shared thought interchange format -/

/-- One record of the sequential-thinking interchange format. -/
structure ThoughtData where
  thought : String
  thoughtNumber : Nat
  totalThoughts : Nat
  nextThoughtNeeded : Bool
deriving DecidableEq, Repr

/-- A stream of `Math.random()` draws; an exhausted stream yields `0`
(theorems quantify over all streams, so this default is never load-bearing). -/
def popR (r : List ℚ) : ℚ × List ℚ :=
  match r with
  | [] => (0, [])
  | q :: rest => (q, rest)

/-! ## Beam Search pattern handler (beam-search.js) -/

namespace Beam

inductive PathStatus where
  | active
  | completed
  | pruned
  | merged
deriving DecidableEq, Repr

/-- `BeamSearchNode`. `cumulativeScore` is optional because
`importFromSequentialFormat` builds nodes without it. -/
structure BeamNode where
  id : Nat
  content : String
  pathIds : List Nat
  generationNumber : Nat
  localScore : ℚ
  cumulativeScore : Option ℚ := none
  mergedFrom : Option (List Nat) := none
deriving DecidableEq, Repr

/-- `BeamSearchPath` (metadata fields inlined). -/
structure BeamPath where
  id : Nat
  nodeIds : List Nat
  currentScore : ℚ
  status : PathStatus
  scoreHistory : List ℚ
  pruningGeneration : Option Nat := none
  pruningReason : Option String := none
  mergedIntoPathId : Option Nat := none
deriving DecidableEq, Repr

inductive ScoreAggregation where
  | sum
  | average
  | maxAgg
  | weighted
deriving DecidableEq, Repr

inductive PruningStrategy where
  | absolute
  | relative
  | adaptive
deriving DecidableEq, Repr

/-- `BeamSearchConfig`, pre-merged with `defaultConfig`. -/
structure BeamConfig where
  branchingFactor : Nat := 3
  scoreAggregation : ScoreAggregation := .average
  allowMerging : Bool := true
  mergeThreshold : ℚ := 4/5
  pruningStrategy : PruningStrategy := .relative
  keepPrunedPaths : Bool := true
  diversityBonus : ℚ := 1/10
deriving DecidableEq, Repr

structure ConvergenceCriteria where
  maxGenerations : Nat := 10
  minScoreImprovement : ℚ := 1/100
  consensusThreshold : ℚ := 7/10
  targetScore : ℚ := 9/10
deriving DecidableEq, Repr

/-- `BeamSearchSession`. Stats counters are inlined; `statsActivePaths`
is an `Int` because the code decrements it before re-incrementing. -/
structure BeamSession where
  iteration : Nat
  nextStepNeeded : Bool
  beamWidth : Nat
  currentGeneration : Nat
  nodes : List (Nat × BeamNode)
  paths : List (Nat × BeamPath)
  activePaths : List Nat
  convergenceCriteria : ConvergenceCriteria
  config : BeamConfig
  totalPaths : Nat
  statsActivePaths : Int
  completedPaths : Nat
  prunedPaths : Nat
  mergedPaths : Nat
  nodesExplored : Nat
  averagePathLength : ℚ
  bestScore : ℚ
  bestScoreGeneration : Nat
  scoreVariance : Option ℚ := none
  ctr : Nat
deriving DecidableEq, Repr

/-- `initializeSession(beamWidth = 5, config?)`. -/
def initializeSession (beamWidth : Nat := 5) (config : BeamConfig := {}) : BeamSession :=
  let initialPathId := 0
  let initialPath : BeamPath :=
    { id := initialPathId, nodeIds := [], currentScore := 0, status := .active,
      scoreHistory := [0] }
  { iteration := 0, nextStepNeeded := true, beamWidth, currentGeneration := 0,
    nodes := [], paths := [(initialPathId, initialPath)], activePaths := [initialPathId],
    convergenceCriteria := {}, config,
    totalPaths := 1, statsActivePaths := 1, completedPaths := 0, prunedPaths := 0,
    mergedPaths := 0, nodesExplored := 0, averagePathLength := 0, bestScore := 0,
    bestScoreGeneration := 0, ctr := 1 }

/-- The `for (let i = 0; i < branchingFactor; i++)` body of `expandPath`:
returns created node ids, created path ids, the session and the remaining
randomness stream.  `path` is the expanded path as read at entry (its
fields are never mutated during the loop). -/
def expandIter (path : BeamPath) : Nat → Nat → BeamSession → List ℚ →
    List Nat × List Nat × BeamSession × List ℚ
  | _, 0, s, rng => ([], [], s, rng)
  | i, c + 1, s, rng =>
    let nodeId := s.ctr
    let (u, rng₁) := popR rng
    let newPathId := s.ctr + 1
    let node : BeamNode :=
      { id := nodeId,
        content := "Generation " ++ toString s.currentGeneration ++ ", Branch " ++ toString (i+1),
        pathIds := [newPathId],
        generationNumber := s.currentGeneration,
        localScore := u,
        cumulativeScore := some path.currentScore }
    let newPath : BeamPath :=
      { id := newPathId, nodeIds := path.nodeIds ++ [nodeId], currentScore := 0,
        status := .active, scoreHistory := path.scoreHistory ++ [0] }
    let s₁ := { s with nodes := jset s.nodes nodeId node,
                       paths := jset s.paths newPathId newPath,
                       ctr := s.ctr + 2 }
    let (ns, ps, s₂, rng₂) := expandIter path (i+1) c s₁ rng₁
    (nodeId :: ns, newPathId :: ps, s₂, rng₂)

/-- `expandPath(pathId, session)`. -/
def expandPath (pathId : Nat) (s : BeamSession) (rng : List ℚ) :
    List Nat × BeamSession × List ℚ :=
  match jget s.paths pathId with
  | none => ([], s, rng)
  | some path =>
    let (newNodes, newPaths, s₁, rng₁) := expandIter path 0 s.config.branchingFactor s rng
    let s₂ :=
      if newPaths.length > 0 then
        { s₁ with paths := jset s₁.paths pathId { path with status := .completed },
                  completedPaths := s₁.completedPaths + 1,
                  statsActivePaths := s₁.statsActivePaths - 1 }
      else s₁
    let s₃ := { s₂ with activePaths := s₂.activePaths ++ newPaths,
                        totalPaths := s₂.totalPaths + newPaths.length,
                        statsActivePaths := s₂.statsActivePaths + newPaths.length }
    (newNodes, s₃, rng₁)

/-- `generateNextGeneration(session)`. -/
def generateNextGeneration (s : BeamSession) (rng : List ℚ) :
    List Nat × BeamSession × List ℚ :=
  let s₀ := { s with currentGeneration := s.currentGeneration + 1 }
  let step := fun (acc : List Nat × BeamSession × List ℚ) (pathId : Nat) =>
    let (ns, st, r) := acc
    match jget st.paths pathId with
    | some path =>
      if path.status = .active then
        let (newNodes, st₁, r₁) := expandPath pathId st r
        (ns ++ newNodes, st₁, r₁)
      else (ns, st, r)
    | none => (ns, st, r)
  let (newNodes, s₁, rng₁) := s₀.activePaths.foldl step ([], s₀, rng)
  (newNodes, { s₁ with nodesExplored := s₁.nodesExplored + newNodes.length }, rng₁)

/-- `calculatePathSimilarity(path1, path2)`: Jaccard similarity of node-id sets. -/
def calculatePathSimilarity (p₁ p₂ : BeamPath) : ℚ :=
  let s₁ := p₁.nodeIds.toFinset
  let s₂ := p₂.nodeIds.toFinset
  let inter := s₁ ∩ s₂
  let uni := s₁ ∪ s₂
  if uni.card > 0 then (inter.card : ℚ) / uni.card else 0

/-- `calculatePathDiversity(path, session)`. -/
def calculatePathDiversity (path : BeamPath) (s : BeamSession) : ℚ :=
  if s.activePaths.length ≤ 1 then 1
  else
    let step := fun (acc : ℚ × Nat) (otherPathId : Nat) =>
      if otherPathId ≠ path.id then
        match jget s.paths otherPathId with
        | some otherPath => (acc.1 + calculatePathSimilarity path otherPath, acc.2 + 1)
        | none => acc
      else acc
    let (totalSimilarity, comparisons) := s.activePaths.foldl step (0, 0)
    if comparisons > 0 then 1 - totalSimilarity / comparisons else 1

/-- `calculatePathScore(path, session)`. -/
def calculatePathScore (path : BeamPath) (s : BeamSession) : ℚ :=
  let found := path.nodeIds.filterMap (jget s.nodes)
  let totalScore := (found.map (·.localScore)).sum
  let count := found.length
  let baseScore : ℚ :=
    match s.config.scoreAggregation with
    | .sum => totalScore
    | .average => if count > 0 then totalScore / count else 0
    | .maxAgg => found.foldl (fun m n => max m n.localScore) 0
    | .weighted =>
      let step := fun (acc : ℚ × ℚ) (p : Nat × Nat) =>
        match jget s.nodes p.2 with
        | some node =>
          let weight : ℚ := (9/10) ^ (path.nodeIds.length - p.1 - 1)
          (acc.1 + node.localScore * weight, acc.2 + weight)
        | none => acc
      let (weightedSum, weightSum) := path.nodeIds.enum.foldl step (0, 0)
      if weightSum > 0 then weightedSum / weightSum else 0
  let diversityTerm : ℚ :=
    if s.config.diversityBonus ≠ 0 then
      calculatePathDiversity path s * s.config.diversityBonus
    else 0
  let lengthPenalty : ℚ := max 0 (1 - (path.nodeIds.length : ℚ) / 20)
  let lengthAdjustment := lengthPenalty * (1/10)
  baseScore + diversityTerm + lengthAdjustment

/-- The `session.activePaths.forEach` body of `evaluatePaths`. -/
def evalStep (acc : List (Nat × ℚ) × BeamSession) (pathId : Nat) :
    List (Nat × ℚ) × BeamSession :=
  let (scores, st) := acc
  match jget st.paths pathId with
  | some path =>
    if path.status = .active then
      let score := calculatePathScore path st
      let scores₁ := jset scores pathId score
      let path₁ := { path with
        currentScore := score,
        scoreHistory := path.scoreHistory ++ [score] }
      let st₁ := { st with paths := jset st.paths pathId path₁ }
      let st₂ :=
        if score > st₁.bestScore then
          { st₁ with bestScore := score, bestScoreGeneration := st₁.currentGeneration }
        else st₁
      (scores₁, st₂)
    else acc
  | none => acc

/-- `evaluatePaths(session)`: returns the score map and the updated session. -/
def evaluatePaths (s : BeamSession) : List (Nat × ℚ) × BeamSession :=
  s.activePaths.foldl evalStep ([], s)

/-- The `sortedPaths.forEach((pathData, index) => ...)` loop of `prunePaths`:
returns surviving path ids, pruned path ids, and the session. -/
def pruneFold (bw : Nat) (threshold : ℚ) (keepPruned : Bool) (g : Nat) :
    List (Nat × ℚ) → Nat → BeamSession → List Nat × List Nat × BeamSession
  | [], _, s => ([], [], s)
  | (pid, sc) :: rest, idx, s =>
    if idx < bw ∧ threshold ≤ sc then
      let (kept, prunedIds, s₂) := pruneFold bw threshold keepPruned g rest (idx+1) s
      (pid :: kept, prunedIds, s₂)
    else
      match jget s.paths pid with
      | some path =>
        let path₁ := { path with
          status := PathStatus.pruned,
          pruningGeneration := some g,
          pruningReason := some ("Score " ++ toString sc ++ " below threshold " ++ toString threshold) }
        let s₁ := { s with paths := jset s.paths pid path₁ }
        let s₂ := if keepPruned then s₁ else { s₁ with paths := jdel s₁.paths pid }
        let (kept, prunedIds, s₃) := pruneFold bw threshold keepPruned g rest (idx+1) s₂
        (kept, pid :: prunedIds, s₃)
      | none =>
        let (kept, prunedIds, s₃) := pruneFold bw threshold keepPruned g rest (idx+1) s
        (kept, prunedIds, s₃)

/-- The strategy-dependent pruning threshold switch of `prunePaths`. -/
def pruneThreshold (s₁ : BeamSession) (sorted : List (Nat × ℚ)) : ℚ :=
  match s₁.config.pruningStrategy with
  | .absolute => 3/10
  | .relative =>
    match sorted.drop s₁.beamWidth with
    | [] => 0
    | p :: _ => p.2
  | .adaptive =>
    let avgScore := (sorted.map (·.2)).sum / sorted.length
    avgScore * (4/5)

/-- `prunePaths(session)`. -/
def prunePaths (s : BeamSession) : List Nat × BeamSession :=
  if s.activePaths.length ≤ s.beamWidth then ([], s)
  else
    let (scores, s₁) := evaluatePaths s
    let sorted := List.mergeSort
      (s₁.activePaths.map (fun pid => (pid, (jget scores pid).getD 0)))
      (fun a b => b.2 ≤ a.2)
    let threshold : ℚ := pruneThreshold s₁ sorted
    let (kept, prunedIds, s₂) :=
      pruneFold s₁.beamWidth threshold s₁.config.keepPrunedPaths s₁.currentGeneration sorted 0 s₁
    let s₃ := { s₂ with activePaths := kept,
                        prunedPaths := s₂.prunedPaths + prunedIds.length,
                        statsActivePaths := (kept.length : Int) }
    (prunedIds, s₃)

/-- The per-position consensus pick of `mergeNodeSequences`: most frequent
node id, ties broken by first insertion into the counts map. -/
def mostCommonAt (nodesAtPosition : List Nat) : Nat :=
  let counts := nodesAtPosition.foldl (fun cs n => jset cs n ((jget cs n).getD 0 + 1)) []
  let start := (nodesAtPosition.headD 0, (0 : Nat))
  (counts.foldl (fun acc (p : Nat × Nat) =>
    if p.2 > acc.2 then (p.1, p.2) else acc) start).1

/-- `mergeNodeSequences(sequences)`. -/
def mergeNodeSequences (sequences : List (List Nat)) : List Nat :=
  match sequences with
  | [] => []
  | [s₀] => s₀
  | _ =>
    let maxLength := (sequences.map List.length).foldl max 0
    (List.range maxLength).filterMap (fun i =>
      let nodesAtPosition := (sequences.filter (fun seq => seq.length > i)).map (fun seq => seq.getD i 0)
      if nodesAtPosition.isEmpty then none else some (mostCommonAt nodesAtPosition))

/-- The `mergedNodeIds.forEach` body of `mergePaths`: record the merged
path on each participating node. -/
def mergeNodeUpd (mergedPathId : Nat) (st : BeamSession) (nid : Nat) : BeamSession :=
  match jget st.nodes nid with
  | some n =>
    { st with nodes := jset st.nodes nid { n with pathIds := n.pathIds ++ [mergedPathId] } }
  | none => st

/-- The `pathIds.forEach` body of `mergePaths`: mark an input path merged
and drop it from the active list. -/
def mergeMarkStep (mergedPathId : Nat) (st : BeamSession) (pid : Nat) : BeamSession :=
  match jget st.paths pid with
  | some p =>
    let p₁ := { p with status := PathStatus.merged, mergedIntoPathId := some mergedPathId }
    let st₁ := { st with paths := jset st.paths pid p₁ }
    { st₁ with activePaths := st₁.activePaths.erase pid }
  | none => st

/-- `mergePaths(pathIds, session)`. -/
def mergePaths (pathIds : List Nat) (s : BeamSession) : Except String (Nat × BeamSession) :=
  if pathIds.length < 2 then .error "Need at least 2 paths to merge"
  else
    let paths := pathIds.filterMap (jget s.paths)
    if paths.length ≠ pathIds.length then .error "Some paths not found"
    else
      let mergedPathId := s.ctr
      let mergedNodeIds := mergeNodeSequences (paths.map (·.nodeIds))
      let avgScore := (paths.map (·.currentScore)).sum / (paths.length : ℚ)
      let mergedPath : BeamPath :=
        { id := mergedPathId, nodeIds := mergedNodeIds, currentScore := avgScore,
          status := .active, scoreHistory := [avgScore] }
      let s₁ := { s with ctr := s.ctr + 1 }
      let s₂ := mergedNodeIds.foldl (mergeNodeUpd mergedPathId) s₁
      let s₃ := pathIds.foldl (mergeMarkStep mergedPathId) s₂
      let s₄ := { s₃ with paths := jset s₃.paths mergedPathId mergedPath,
                          activePaths := s₃.activePaths ++ [mergedPathId],
                          mergedPaths := s₃.mergedPaths + pathIds.length }
      .ok (mergedPathId, s₄)

/-- `getBestPath(session)`: path with maximal `currentScore`, accumulator
seeded with `-Infinity`, map iteration order breaking ties. -/
def getBestPath (s : BeamSession) : Option BeamPath :=
  if s.paths.length = 0 then none
  else
    (s.paths.foldl (fun (acc : Option BeamPath × JsVal) kv =>
      if JsVal.gtJs (.fin kv.2.currentScore) acc.2 then (some kv.2, .fin kv.2.currentScore)
      else acc) (none, JsVal.ninf)).1

/-- `exportToSequentialFormat(session)`. -/
def exportToSequentialFormat (s : BeamSession) : List ThoughtData :=
  match getBestPath s with
  | none => []
  | some bestPath =>
    bestPath.nodeIds.enum.filterMap (fun (p : Nat × Nat) =>
      match jget s.nodes p.2 with
      | some node => some
          { thought := node.content,
            thoughtNumber := p.1 + 1,
            totalThoughts := bestPath.nodeIds.length,
            nextThoughtNeeded := decide (p.1 < bestPath.nodeIds.length - 1) }
      | none => none)

/-- `importFromSequentialFormat(thoughts)`. -/
def importFromSequentialFormat (thoughts : List ThoughtData) : BeamSession :=
  let s := initializeSession
  let pathId := s.ctr
  let step := fun (acc : BeamSession × List Nat) (p : Nat × ThoughtData) =>
    let (st, nodeIds) := acc
    let nodeId := st.ctr
    let node : BeamNode :=
      { id := nodeId, content := p.2.thought, pathIds := [pathId],
        generationNumber := p.1, localScore := 1/2 }
    ({ st with nodes := jset st.nodes nodeId node, ctr := st.ctr + 1 }, nodeIds ++ [nodeId])
  let (s₁, nodeIds) := thoughts.enum.foldl step ({ s with ctr := s.ctr + 1 }, [])
  let path : BeamPath :=
    { id := pathId, nodeIds := nodeIds, currentScore := 0, status := .active,
      scoreHistory := [] }
  { s₁ with paths := jset s₁.paths pathId path, activePaths := [pathId] }

end Beam

/-! ## Graph of Thought pattern handler (graph-of-thought.ts) -/

namespace Graph

inductive GraphNodeType where
  | hypothesis
  | evidence
  | conclusion
  | question
  | insight
  | assumption
  | counterargument
deriving DecidableEq, Repr

inductive GraphEdgeType where
  | supports
  | contradicts
  | refines
  | questions
  | leadsTo
  | dependsOn
  | alternatives
  | elaborates
deriving DecidableEq, Repr

structure GraphNode where
  id : Nat
  content : String
  nodeType : GraphNodeType
  strength : ℚ
  incomingEdges : List Nat
  outgoingEdges : List Nat
deriving DecidableEq, Repr

structure GraphEdge where
  id : Nat
  sourceId : Nat
  targetId : Nat
  edgeType : GraphEdgeType
  weight : ℚ
deriving DecidableEq, Repr

/-- `GraphOfThoughtConfig`, pre-merged with `defaultConfig`. -/
structure GraphConfig where
  maxNodes : Nat := 100
  maxEdges : Nat := 300
  allowCycles : Bool := true
  edgeWeightThreshold : ℚ := 1/10
  defaultNodeType : GraphNodeType := .hypothesis
  autoPruneWeakEdges : Bool := false
deriving DecidableEq, Repr

/-- `GraphOfThoughtSession` (stats inlined). -/
structure GraphSession where
  iteration : Nat
  nextStepNeeded : Bool
  nodes : List (Nat × GraphNode)
  edges : List (Nat × GraphEdge)
  entryNodeIds : List Nat
  explorationPath : List Nat
  config : GraphConfig
  totalNodes : Nat
  totalEdges : Nat
  nodesByType : List (GraphNodeType × Nat)
  edgesByType : List (GraphEdgeType × Nat)
  averageDegree : ℚ
  density : ℚ
  connectedComponents : Nat
  ctr : Nat
deriving DecidableEq, Repr

/-- `initializeSession(config?)`. -/
def initializeSession (config : GraphConfig := {}) : GraphSession :=
  { iteration := 0, nextStepNeeded := true, nodes := [], edges := [],
    entryNodeIds := [], explorationPath := [], config,
    totalNodes := 0, totalEdges := 0, nodesByType := [], edgesByType := [],
    averageDegree := 0, density := 0, connectedComponents := 0, ctr := 0 }

/-- `addNode(nodeData, session)`. -/
def addNode (content : String) (nodeType : GraphNodeType) (strength : ℚ)
    (s : GraphSession) : Except String (Nat × GraphSession) :=
  if s.config.maxNodes ≠ 0 ∧ s.nodes.length ≥ s.config.maxNodes then
    .error ("Maximum nodes limit " ++ toString s.config.maxNodes ++ " reached")
  else
    let nodeId := s.ctr
    let node : GraphNode :=
      { id := nodeId, content, nodeType, strength, incomingEdges := [], outgoingEdges := [] }
    let s₁ := { s with nodes := jset s.nodes nodeId node,
                       ctr := s.ctr + 1,
                       totalNodes := s.totalNodes + 1,
                       nodesByType := jset s.nodesByType nodeType
                         ((jget s.nodesByType nodeType).getD 0 + 1) }
    let s₂ :=
      if s₁.entryNodeIds.length = 0 then { s₁ with entryNodeIds := [nodeId] }
      else s₁
    .ok (nodeId, s₂)

/-- `updateGraphStats(session)`. -/
def updateGraphStats (s : GraphSession) : GraphSession :=
  let nodeCount := s.nodes.length
  let edgeCount := s.edges.length
  if nodeCount > 0 then
    let totalDegree := (s.nodes.map
      (fun kv => kv.2.incomingEdges.length + kv.2.outgoingEdges.length)).sum
    let maxPossibleEdges := nodeCount * (nodeCount - 1)
    { s with averageDegree := (totalDegree : ℚ) / nodeCount,
             density := if maxPossibleEdges > 0 then (edgeCount : ℚ) / maxPossibleEdges else 0 }
  else s

mutual

/-- The `canReach` closure of `wouldCreateCycle`: depth-first search with
a shared visited set (threaded explicitly). -/
def canReachF (s : GraphSession) (toId : Nat) (fuel : Nat) (vis : List Nat)
    (fromId : Nat) : Bool × List Nat :=
  match fuel with
  | 0 => (false, vis)
  | fuel₁ + 1 =>
    if fromId = toId then (true, vis)
    else if fromId ∈ vis then (false, vis)
    else
      let vis₁ := fromId :: vis
      match jget s.nodes fromId with
      | none => (false, vis₁)
      | some n => canReachList s toId fuel₁ vis₁ n.outgoingEdges
termination_by (fuel, 0, 0)

/-- The `for (const edgeId of node.outgoingEdges)` loop of `canReach`. -/
def canReachList (s : GraphSession) (toId : Nat) (fuel : Nat) (vis : List Nat)
    (es : List Nat) : Bool × List Nat :=
  match es with
  | [] => (false, vis)
  | eid :: rest =>
    match jget s.edges eid with
    | none => canReachList s toId fuel vis rest
    | some e =>
      let r := canReachF s toId fuel vis e.targetId
      if r.1 then (true, r.2) else canReachList s toId fuel r.2 rest
termination_by (fuel, 1, es.length)

end

/-- `wouldCreateCycle(sourceId, targetId, session)`: can `targetId` already
reach `sourceId`?  Fuel `edges + 2` dominates the recursion depth, which is
bounded by the distinct ids ever visited (the target plus edge targets). -/
def wouldCreateCycle (sourceId targetId : Nat) (s : GraphSession) : Bool :=
  (canReachF s sourceId (s.edges.length + 2) [] targetId).1

/-- `removeEdge(edgeId, session)`. -/
def removeEdge (edgeId : Nat) (s : GraphSession) : GraphSession :=
  match jget s.edges edgeId with
  | none => s
  | some edge =>
    let s₁ :=
      match jget s.nodes edge.sourceId with
      | some sn =>
        let sn₁ := { sn with outgoingEdges := sn.outgoingEdges.erase edgeId }
        { s with nodes := jset s.nodes edge.sourceId sn₁ }
      | none => s
    let s₂ :=
      match jget s₁.nodes edge.targetId with
      | some tn =>
        let tn₁ := { tn with incomingEdges := tn.incomingEdges.erase edgeId }
        { s₁ with nodes := jset s₁.nodes edge.targetId tn₁ }
      | none => s₁
    { s₂ with edges := jdel s₂.edges edgeId, totalEdges := s₂.totalEdges - 1 }

/-- `connectNodes(sourceId, targetId, edgeType, weight, session)`.  The
result keeps both the thrown-or-returned value and the session so that
partial mutation on failure (none on the rejection paths) stays visible. -/
def connectNodes (sourceId targetId : Nat) (edgeType : GraphEdgeType) (weight : ℚ)
    (s : GraphSession) : Except String Nat × GraphSession :=
  match jget s.nodes sourceId, jget s.nodes targetId with
  | some sourceNode, some _ =>
    if s.config.maxEdges ≠ 0 ∧ s.edges.length ≥ s.config.maxEdges then
      (.error ("Maximum edges limit " ++ toString s.config.maxEdges ++ " reached"), s)
    else if s.config.allowCycles = false ∧ wouldCreateCycle sourceId targetId s then
      (.error "Edge would create a cycle, which is not allowed", s)
    else
      let edgeId := s.ctr
      let edge : GraphEdge := { id := edgeId, sourceId, targetId, edgeType, weight }
      let s₁ := { s with edges := jset s.edges edgeId edge, ctr := s.ctr + 1 }
      let sourceNode₁ := { sourceNode with outgoingEdges := sourceNode.outgoingEdges ++ [edgeId] }
      let s₂ := { s₁ with nodes := jset s₁.nodes sourceId sourceNode₁ }
      let s₃ :=
        match jget s₂.nodes targetId with
        | some tn =>
          let tn₁ := { tn with incomingEdges := tn.incomingEdges ++ [edgeId] }
          { s₂ with nodes := jset s₂.nodes targetId tn₁ }
        | none => s₂
      let s₄ := { s₃ with totalEdges := s₃.totalEdges + 1,
                          edgesByType := jset s₃.edgesByType edgeType
                            ((jget s₃.edgesByType edgeType).getD 0 + 1) }
      let s₅ := updateGraphStats s₄
      if s₅.config.autoPruneWeakEdges ∧ s₅.config.edgeWeightThreshold ≠ 0 ∧
          weight < s₅.config.edgeWeightThreshold then
        (.error ("Edge weight " ++ toString weight ++ " below threshold " ++
          toString s₅.config.edgeWeightThreshold), removeEdge edgeId s₅)
      else
        (.ok edgeId, s₅)
  | _, _ => (.error "Source or target node not found", s)

mutual

/-- The `dfs` closure of `findPaths`; threads the accumulated simple paths
and the shared visited set. -/
def fpDfs (s : GraphSession) (endId : Nat) (maxPaths : Nat) (fuel : Nat)
    (paths : List (List Nat)) (vis : List Nat) (currentId : Nat) (path : List Nat) :
    List (List Nat) × List Nat :=
  match fuel with
  | 0 => (paths, vis)
  | fuel₁ + 1 =>
    if paths.length ≥ maxPaths then (paths, vis)
    else if currentId = endId then (paths ++ [path], vis)
    else
      let vis₁ := currentId :: vis
      let r :=
        match jget s.nodes currentId with
        | none => (paths, vis₁)
        | some n => fpEdges s endId maxPaths fuel₁ paths vis₁ path n.outgoingEdges
      (r.1, r.2.erase currentId)
termination_by (fuel, 0, 0)

/-- The `for (const edgeId of node.outgoingEdges)` loop of `findPaths`. -/
def fpEdges (s : GraphSession) (endId : Nat) (maxPaths : Nat) (fuel : Nat)
    (paths : List (List Nat)) (vis : List Nat) (path : List Nat) (es : List Nat) :
    List (List Nat) × List Nat :=
  match es with
  | [] => (paths, vis)
  | eid :: rest =>
    match jget s.edges eid with
    | none => fpEdges s endId maxPaths fuel paths vis path rest
    | some e =>
      if e.targetId ∈ vis then fpEdges s endId maxPaths fuel paths vis path rest
      else
        let r := fpDfs s endId maxPaths fuel paths vis e.targetId (path ++ [e.targetId])
        fpEdges s endId maxPaths fuel r.1 r.2 path rest
termination_by (fuel, 1, es.length)

end

/-- `findPaths(startId, endId, session, maxPaths = 10)`. -/
def findPaths (startId endId : Nat) (s : GraphSession) (maxPaths : Nat := 10) :
    List (List Nat) :=
  (fpDfs s endId maxPaths (s.nodes.length + s.edges.length + 2) [] [] startId [startId]).1

/-- The PageRank damping factor `0.85`. -/
def damping : ℚ := 17/20

/-- One incoming-edge contribution inside `calculateCentrality`. -/
def centContrib (s : GraphSession) (cent : List (Nat × ℚ)) (eid : Nat) : ℚ :=
  match jget s.edges eid with
  | none => 0
  | some edge =>
    match jget s.nodes edge.sourceId with
    | none => 0
    | some sourceNode =>
      let sourceRank := (jget cent edge.sourceId).getD 0
      let outDegree : ℚ :=
        if sourceNode.outgoingEdges.length = 0 then 1 else sourceNode.outgoingEdges.length
      damping * edge.weight * sourceRank / outDegree

/-- The per-node rank of one `calculateCentrality` power iteration. -/
def centRank (s : GraphSession) (cent : List (Nat × ℚ)) (n : GraphNode) : ℚ :=
  (1 - damping) / (s.nodes.length : ℚ) + (n.incomingEdges.map (centContrib s cent)).sum

/-- One power iteration of `calculateCentrality` (builds `newCentrality`). -/
def centStep (s : GraphSession) (cent : List (Nat × ℚ)) : List (Nat × ℚ) :=
  s.nodes.foldl (fun acc kv => jset acc kv.1 (centRank s cent kv.2)) []

/-- The initial uniform centrality assignment. -/
def centInit (s : GraphSession) : List (Nat × ℚ) :=
  s.nodes.foldl (fun acc kv => jset acc kv.1 (1 / (s.nodes.length : ℚ))) []

/-- `calculateCentrality(session)`: 100 damped power iterations. -/
def calculateCentrality (s : GraphSession) : List (Nat × ℚ) :=
  (centStep s)^[100] (centInit s)

def nodeTypeTag : GraphNodeType → String
  | .hypothesis => "hypothesis"
  | .evidence => "evidence"
  | .conclusion => "conclusion"
  | .question => "question"
  | .insight => "insight"
  | .assumption => "assumption"
  | .counterargument => "counterargument"

mutual

/-- The `visit` closure of `exportToSequentialFormat`; state is the visited
set together with `sortedNodes`. -/
def visitNode (s : GraphSession) (fuel : Nat) (st : List Nat × List GraphNode)
    (nodeId : Nat) : List Nat × List GraphNode :=
  match fuel with
  | 0 => st
  | fuel₁ + 1 =>
    if nodeId ∈ st.1 then st
    else
      let st₁ := (nodeId :: st.1, st.2)
      match jget s.nodes nodeId with
      | none => st₁
      | some node =>
        let st₂ := visitEdges s fuel₁ st₁ node.incomingEdges
        (st₂.1, st₂.2 ++ [node])
termination_by (fuel, 0, 0)

/-- The `node.incomingEdges.forEach` loop of the export `visit`. -/
def visitEdges (s : GraphSession) (fuel : Nat) (st : List Nat × List GraphNode)
    (es : List Nat) : List Nat × List GraphNode :=
  match es with
  | [] => st
  | eid :: rest =>
    let st₁ :=
      match jget s.edges eid with
      | some e => visitNode s fuel st e.sourceId
      | none => st
    visitEdges s fuel st₁ rest
termination_by (fuel, 1, es.length)

end

/-- `exportToSequentialFormat(session)`. -/
def exportToSequentialFormat (s : GraphSession) : List ThoughtData :=
  let st₀ := s.entryNodeIds.foldl (visitNode s (s.nodes.length + 1)) ([], [])
  let st₁ := s.nodes.foldl (fun st kv => visitNode s (s.nodes.length + 1) st kv.1) st₀
  let sortedNodes := st₁.2
  sortedNodes.enum.map (fun p =>
    { thought := "[" ++ nodeTypeTag p.2.nodeType ++ "] " ++ p.2.content,
      thoughtNumber := p.1 + 1,
      totalThoughts := sortedNodes.length,
      nextThoughtNeeded := decide (p.1 < sortedNodes.length - 1) })

/-- `importFromSequentialFormat(thoughts)` (thrown errors propagate). -/
def importFromSequentialFormat (thoughts : List ThoughtData) : Except String GraphSession := do
  let s := initializeSession {}
  let r ← thoughts.foldlM (fun (acc : GraphSession × Option Nat) t => do
    let (st, prevNodeId) := acc
    let (nodeId, st₁) ← addNode t.thought .hypothesis (1/2) st
    match prevNodeId with
    | some prev =>
      match connectNodes prev nodeId .leadsTo (4/5) st₁ with
      | (.ok _, st₂) => pure (st₂, some nodeId)
      | (.error e, _) => throw e
    | none => pure (st₁, some nodeId)) (s, none)
  pure r.1

end Graph

/-! ## Tree of Thought pattern handler (tree-of-thought.js) -/

namespace Tree

inductive TreeStatus where
  | active
  | explored
  | pruned
  | solution
deriving DecidableEq, Repr

inductive Strategy where
  | depthFirst
  | breadthFirst
  | bestFirst
deriving DecidableEq, Repr

/-- `TreeOfThoughtNode` (metadata fields inlined). -/
structure TreeNode where
  id : Nat
  content : String
  parentId : Option Nat := none
  childrenIds : List Nat
  depth : Nat
  status : TreeStatus
  score : Option ℚ := none
  explorationStrategy : Option Strategy := none
  confidenceScore : Option ℚ := none
  pruningReason : Option String := none
deriving DecidableEq, Repr

/-- `TreeOfThoughtConfig`, pre-merged with `defaultConfig`
(`allowRevisiting` is never read; `timeLimit` is wall clock). -/
structure TreeConfig where
  maxDepth : Nat := 10
  maxBranchingFactor : Nat := 3
  defaultStrategy : Strategy := .bestFirst
  pruningThreshold : ℚ := 1/5
deriving DecidableEq, Repr

/-- `TreeOfThoughtSession` (stats inlined). -/
structure TreeSession where
  iteration : Nat
  nextStepNeeded : Bool
  rootNodeId : Nat
  nodes : List (Nat × TreeNode)
  currentNodeId : Nat
  explorationBudget : Nat
  config : TreeConfig
  nodesCreated : Nat
  nodesExplored : Nat
  nodesPruned : Nat
  solutionsFound : Nat
  maxDepthReached : Nat
  bestPathIds : Option (List Nat) := none
  ctr : Nat
deriving DecidableEq, Repr

/-- `initializeSession(config?)`. -/
def initializeSession (config : TreeConfig := {}) : TreeSession :=
  let rootNodeId := 0
  let rootNode : TreeNode :=
    { id := rootNodeId, content := "Root: Problem Statement", childrenIds := [],
      depth := 0, status := .active,
      explorationStrategy := some config.defaultStrategy }
  { iteration := 0, nextStepNeeded := true, rootNodeId,
    nodes := [(rootNodeId, rootNode)], currentNodeId := rootNodeId,
    explorationBudget := 100, config,
    nodesCreated := 1, nodesExplored := 0, nodesPruned := 0, solutionsFound := 0,
    maxDepthReached := 0, ctr := 1 }

/-- `createNode(content, parentId, session)`. -/
def createNode (content : String) (parentId : Nat) (s : TreeSession) :
    Except String (Nat × TreeSession) :=
  match jget s.nodes parentId with
  | none => .error ("Parent node " ++ toString parentId ++ " not found")
  | some parentNode =>
    if parentNode.depth ≥ s.config.maxDepth then
      .error ("Maximum depth " ++ toString s.config.maxDepth ++ " reached")
    else if parentNode.childrenIds.length ≥ s.config.maxBranchingFactor then
      .error ("Maximum branching factor " ++ toString s.config.maxBranchingFactor ++ " reached")
    else
      let nodeId := s.ctr
      let node : TreeNode :=
        { id := nodeId, content, parentId := some parentId, childrenIds := [],
          depth := parentNode.depth + 1, status := .active }
      let s₁ := { s with nodes := jset s.nodes nodeId node, ctr := s.ctr + 1 }
      let parentNode₁ := { parentNode with childrenIds := parentNode.childrenIds ++ [nodeId] }
      let s₂ := { s₁ with nodes := jset s₁.nodes parentId parentNode₁ }
      .ok (nodeId, { s₂ with nodesCreated := s₂.nodesCreated + 1,
                             maxDepthReached := max s₂.maxDepthReached node.depth })

/-- The score formula of `evaluate` (depth penalty, content length,
random perturbation `u * 0.2` with `u = Math.random()`). -/
def evalScore (cfg : TreeConfig) (n : TreeNode) (u : ℚ) : ℚ :=
  let depthPenalty : ℚ := (n.depth : ℚ) / (cfg.maxDepth : ℚ)
  let contentScore : ℚ := min ((n.content.length : ℚ) / 100) 1
  let randomFactor := u * (1/5)
  (contentScore + randomFactor) * (1 - depthPenalty * (1/2))

/-- `evaluate(nodeId, session)`. -/
def evaluate (nodeId : Nat) (s : TreeSession) (rng : List ℚ) :
    Except String (ℚ × TreeSession × List ℚ) :=
  match jget s.nodes nodeId with
  | none => .error ("Node " ++ toString nodeId ++ " not found")
  | some node =>
    let (u, rng₁) := popR rng
    let score := evalScore s.config node u
    let node₁ := { node with score := some score, confidenceScore := some score }
    .ok (score, { s with nodes := jset s.nodes nodeId node₁ }, rng₁)

/-- The `for (let i = 0; i < numChildren; i++)` loop of `expand`. -/
def expandLoop (nodeContent : String) (nodeId : Nat) :
    Nat → Nat → TreeSession → Except String (List Nat × TreeSession)
  | _, 0, s => .ok ([], s)
  | i, c + 1, s => do
    let (cid, s₁) ← createNode (nodeContent ++ " -> Branch " ++ toString (i+1)) nodeId s
    let (rest, s₂) ← expandLoop nodeContent nodeId (i+1) c s₁
    .ok (cid :: rest, s₂)

/-- `expand(nodeId, session)`. -/
def expand (nodeId : Nat) (s : TreeSession) : Except String (List Nat × TreeSession) :=
  match jget s.nodes nodeId with
  | none => .error ("Node " ++ toString nodeId ++ " not found")
  | some node =>
    if node.status ≠ .active then .ok ([], s)
    else do
      let numChildren := min 3 (s.config.maxBranchingFactor - node.childrenIds.length)
      let (children, s₁) ← expandLoop node.content nodeId 0 numChildren s
      let s₂ :=
        match jget s₁.nodes nodeId with
        | some n₁ => { s₁ with nodes := jset s₁.nodes nodeId { n₁ with status := .explored } }
        | none => s₁
      .ok (children, { s₂ with nodesExplored := s₂.nodesExplored + 1 })

/-- First node of maximal depth (head of the stable descending sort). -/
def firstMaxDepth (l : List TreeNode) : Option TreeNode :=
  l.foldl (fun acc n =>
    match acc with
    | none => some n
    | some b => if n.depth > b.depth then some n else acc) none

/-- First node of minimal depth (head of the stable ascending sort). -/
def firstMinDepth (l : List TreeNode) : Option TreeNode :=
  l.foldl (fun acc n =>
    match acc with
    | none => some n
    | some b => if n.depth < b.depth then some n else acc) none

/-- First node of maximal `score || 0` (head of the stable descending sort). -/
def firstMaxScore (l : List TreeNode) : Option TreeNode :=
  l.foldl (fun acc n =>
    match acc with
    | none => some n
    | some b => if n.score.getD 0 > b.score.getD 0 then some n else acc) none

/-- `selectNext(session)`. -/
def selectNext (s : TreeSession) (rng : List ℚ) : Option Nat × TreeSession × List ℚ :=
  let activeIds := (s.nodes.filter (fun kv => kv.2.status = .active)).map (·.1)
  if activeIds.isEmpty then (none, s, rng)
  else
    match s.config.defaultStrategy with
    | .depthFirst =>
      (((activeIds.filterMap (jget s.nodes)) |> firstMaxDepth).map (·.id), s, rng)
    | .breadthFirst =>
      (((activeIds.filterMap (jget s.nodes)) |> firstMinDepth).map (·.id), s, rng)
    | .bestFirst =>
      let (s₁, rng₁) := activeIds.foldl (fun (acc : TreeSession × List ℚ) nid =>
        match jget acc.1.nodes nid with
        | some n =>
          if n.score = none then
            match evaluate nid acc.1 acc.2 with
            | .ok (_, st, r) => (st, r)
            | .error _ => acc
          else acc
        | none => acc) (s, rng)
      (((activeIds.filterMap (jget s₁.nodes)) |> firstMaxScore).map (·.id), s₁, rng₁)

/-- `prune(nodeId, reason, session)`, fuel-indexed; the recursion over
`childrenIds` prunes the whole subtree. -/
def pruneF : Nat → Nat → String → TreeSession → TreeSession
  | 0, _, _, s => s
  | fuel + 1, nodeId, reason, s =>
    match jget s.nodes nodeId with
    | none => s
    | some node =>
      let node₁ := { node with status := .pruned, pruningReason := some reason }
      let s₁ := { s with nodes := jset s.nodes nodeId node₁,
                         nodesPruned := s.nodesPruned + 1 }
      node.childrenIds.foldl
        (fun st cid => pruneF fuel cid ("Parent pruned: " ++ reason) st) s₁

/-- `prune` with fuel covering any well-formed subtree. -/
def prune (nodeId : Nat) (reason : String) (s : TreeSession) : TreeSession :=
  pruneF (s.nodes.length + 1) nodeId reason s

/-- `isSolution(nodeId, session)`. -/
def isSolution (nodeId : Nat) (s : TreeSession) (rng : List ℚ) :
    Bool × TreeSession × List ℚ :=
  match jget s.nodes nodeId with
  | none => (false, s, rng)
  | some node =>
    let r :=
      match node.score with
      | some sc => (sc, s, rng)
      | none =>
        match evaluate nodeId s rng with
        | .ok r₁ => r₁
        | .error _ => (0, s, rng)
    let (score, s₁, rng₁) := r
    if score > 4/5 then
      match jget s₁.nodes nodeId with
      | some n₁ =>
        (true, { s₁ with nodes := jset s₁.nodes nodeId { n₁ with status := .solution },
                         solutionsFound := s₁.solutionsFound + 1 }, rng₁)
      | none => (true, s₁, rng₁)
    else (false, s₁, rng₁)

/-- The `while (currentId)` upward walk of `getPath` (`unshift` builds the
root-first order). -/
def getPathF (s : TreeSession) : Nat → Option Nat → List Nat → List Nat
  | 0, _, acc => acc
  | _, none, acc => acc
  | fuel + 1, some k, acc =>
    let acc₁ := k :: acc
    match jget s.nodes k with
    | none => acc₁
    | some n => getPathF s fuel n.parentId acc₁

/-- `getPath(nodeId, session)`. -/
def getPath (nodeId : Nat) (s : TreeSession) : List Nat :=
  getPathF s (s.nodes.length + 1) (some nodeId) []

/-- Cumulative `score || 0` along a path. -/
def pathScore (s : TreeSession) (ids : List Nat) : ℚ :=
  (ids.map (fun id =>
    match jget s.nodes id with
    | some n => n.score.getD 0
    | none => 0)).sum

/-- `getBestPath(session)`: best-cumulative-score root-to-leaf path over
non-pruned leaves; records `bestPathIds`. -/
def getBestPath (s : TreeSession) : List Nat × TreeSession :=
  let best := s.nodes.foldl (fun (acc : JsVal × Option Nat) kv =>
    if kv.2.childrenIds.length = 0 ∧ kv.2.status ≠ .pruned then
      let pid := getPath kv.1 s
      let psc := pathScore s pid
      if JsVal.gtJs (.fin psc) acc.1 then (.fin psc, some kv.1) else acc
    else acc) (JsVal.ninf, none)
  match best.2 with
  | some bestNodeId =>
    let path := getPath bestNodeId s
    (path, { s with bestPathIds := some path })
  | none => ([], s)

/-- `exportToSequentialFormat(session)`. -/
def exportToSequentialFormat (s : TreeSession) : List ThoughtData :=
  let bestPath :=
    match s.bestPathIds with
    | some p => p
    | none => (getBestPath s).1
  bestPath.enum.filterMap (fun p =>
    match jget s.nodes p.2 with
    | some node => some
        { thought := node.content, thoughtNumber := p.1 + 1,
          totalThoughts := bestPath.length,
          nextThoughtNeeded := decide (p.1 < bestPath.length - 1) }
    | none => none)

/-- `importFromSequentialFormat(thoughts)` (thrown errors propagate). -/
def importFromSequentialFormat (thoughts : List ThoughtData) : Except String TreeSession := do
  let s := initializeSession
  let r ← thoughts.foldlM (fun (acc : TreeSession × Nat) t => do
    let (st, parentId) := acc
    let (nid, st₁) ← createNode t.thought parentId st
    pure (st₁, nid)) (s, s.rootNodeId)
  pure r.1

/-- `runIteration(session)` (wall-clock accounting and the time-limit
termination check are environment interactions, omitted). -/
def runIteration (s : TreeSession) (rng : List ℚ) :
    Except String (TreeSession × List ℚ) := do
  let (sel, s₁, rng₁) := selectNext s rng
  match sel with
  | none => pure ({ s₁ with nextStepNeeded := false }, rng₁)
  | some nodeId => do
    let (children, s₂) ← expand nodeId s₁
    let (s₃, rng₂) ← children.foldlM (fun (acc : TreeSession × List ℚ) cid => do
      let (score, st, r) ← evaluate cid acc.1 acc.2
      let st₁ :=
        if st.config.pruningThreshold ≠ 0 ∧ score < st.config.pruningThreshold then
          prune cid ("Score " ++ toString score ++ " below threshold") st
        else st
      let r₂ := isSolution cid st₁ r
      pure (r₂.2.1, r₂.2.2)) (s₂, rng₁)
    let s₄ := { s₃ with iteration := s₃.iteration + 1 }
    let s₅ :=
      if s₄.solutionsFound > 0 ∨ s₄.nodesExplored ≥ s₄.explorationBudget then
        { s₄ with nextStepNeeded := false }
      else s₄
    pure (s₅, rng₂)

end Tree

/-! ## MCTS pattern handler (mcts.ts)

Only the operations exercised by the verified claims are embedded
(`simulate`, `runIteration`, `getBestAction`, `getActionProbabilities`,
`getActionStatistics` and the derived-statistics updates are not needed
by any claim; `simulate` is pure `Math.random()` accumulation). -/

namespace MCTS

inductive UCBVariant where
  | ucb1
  | ucb1tuned
  | puct
deriving DecidableEq, Repr

/-- `MCTSNode` (metadata fields inlined; the write-only
`stateRepresentation` blob is omitted). -/
structure MCTSNode where
  id : Nat
  content : String
  parentId : Option Nat := none
  childrenIds : List Nat
  visits : Nat
  totalValue : ℚ
  averageValue : ℚ
  untriedActions : List String
  isTerminal : Bool
  ucbScore : Option JsVal := none
  action : Option String := none
  depth : Nat := 0
  priorProbability : Option ℚ := none
  outcomes : Option (Nat × Nat × Nat) := none
deriving DecidableEq, Repr

/-- `MCTSConfig`, pre-merged with `defaultConfig` (fields the handler
never reads — progressive widening, virtual loss, tree reuse,
transpositions — are omitted). -/
structure MCTSConfig where
  ucbVariant : UCBVariant := .ucb1
  useRAVE : Bool := false
  raveBias : ℚ := 1/2
deriving DecidableEq, Repr

/-- `MCTSSession` (stats inlined; only the stats the embedded operations
touch are kept). -/
structure MCTSSession where
  iteration : Nat
  nextStepNeeded : Bool
  rootNodeId : Nat
  nodes : List (Nat × MCTSNode)
  explorationConstant : ℚ
  simulationDepth : Nat
  totalSimulations : Nat
  config : MCTSConfig
  totalNodes : Nat
  maxDepth : Nat
  bestActionVisits : Nat
  bestActionValue : ℚ
  bestLeafNodeId : Option Nat := none
  ctr : Nat
deriving DecidableEq, Repr

/-- `generateInitialActions()`. -/
def generateInitialActions : List String :=
  ["action1", "action2", "action3", "action4", "action5"]

/-- `initializeSession(explorationConstant = 1.414, config?)`. -/
def initializeSession (explorationConstant : ℚ := 1414/1000)
    (config : MCTSConfig := {}) : MCTSSession :=
  let rootNodeId := 0
  let rootNode : MCTSNode :=
    { id := rootNodeId, content := "Root: Initial State", childrenIds := [],
      visits := 0, totalValue := 0, averageValue := 0,
      untriedActions := generateInitialActions, isTerminal := false, depth := 0 }
  { iteration := 0, nextStepNeeded := true, rootNodeId,
    nodes := [(rootNodeId, rootNode)], explorationConstant,
    simulationDepth := 10, totalSimulations := 0, config,
    totalNodes := 1, maxDepth := 0, bestActionVisits := 0, bestActionValue := 0,
    ctr := 1 }

/-- `calculateVariance(node)`: Bernoulli approximation. -/
def calculateVariance (node : MCTSNode) : ℚ :=
  if node.visits ≤ 1 then 0
  else node.averageValue * (1 - node.averageValue)

/-- `getRAVEStatistics(action, session)`: `(visits, averageValue)`. -/
def getRAVEStatistics (action : String) (s : MCTSSession) : Nat × ℚ :=
  let step := fun (acc : Nat × ℚ) (kv : Nat × MCTSNode) =>
    if kv.2.action = some action then (acc.1 + kv.2.visits, acc.2 + kv.2.totalValue)
    else acc
  let r := s.nodes.foldl step (0, 0)
  (r.1, if r.1 > 0 then r.2 / (r.1 : ℚ) else 0)

/-- The `prior` computation of the PUCT branch
(`metadata?.priorProbability || 1 / (parent ? parent children count || 1 : 1)`;
`||` treats `0` as absent). -/
def puctPrior (s : MCTSSession) (node : MCTSNode) : ℚ :=
  let fallback : ℚ :=
    match node.parentId with
    | some pid =>
      let len := ((jget s.nodes pid).map (fun p => p.childrenIds.length)).getD 0
      1 / (if len = 0 then (1 : ℚ) else len)
    | none => 1
  match node.priorProbability with
  | some p => if p = 0 then fallback else p
  | none => fallback

/-- `calculateUCB(nodeId, parentVisits, session)`, parameterised by the
`Math.sqrt` / `Math.log` oracles.  Returns `Infinity` for unvisited nodes
before any variant-specific arithmetic; otherwise a finite score, which is
also stored on the node (`node.ucbScore`). -/
def calculateUCB (sqrtO logO : ℚ → ℚ) (nodeId : Nat) (parentVisits : Nat)
    (s : MCTSSession) : JsVal × MCTSSession :=
  match jget s.nodes nodeId with
  | none => (.fin 0, s)
  | some node =>
    if node.visits = 0 then (.inf, s)
    else
      let r : ℚ × ℚ × Option ℚ :=
        match s.config.ucbVariant with
        | .ucb1 =>
          (node.averageValue,
           s.explorationConstant * sqrtO (logO (parentVisits : ℚ) / (node.visits : ℚ)),
           none)
        | .ucb1tuned =>
          let variance := calculateVariance node
          let V := variance + sqrtO (2 * logO (parentVisits : ℚ) / (node.visits : ℚ))
          (node.averageValue,
           sqrtO (logO (parentVisits : ℚ) / (node.visits : ℚ) * min (1/4) V),
           none)
        | .puct =>
          let prior := puctPrior s node
          (node.averageValue,
           s.explorationConstant * prior * sqrtO (parentVisits : ℚ) / (1 + (node.visits : ℚ)),
           some prior)
      let (exploit₀, explore, priorBias) := r
      let exploit :=
        if s.config.useRAVE then
          match node.action with
          | some act =>
            let rs := getRAVEStatistics act s
            if rs.1 > 0 then
              let beta := sqrtO (s.config.raveBias / (3 * (node.visits : ℚ) + s.config.raveBias))
              (1 - beta) * exploit₀ + beta * rs.2
            else exploit₀
          | none => exploit₀
        else exploit₀
      let score := exploit + explore + priorBias.getD 0
      let node₁ := { node with ucbScore := some (.fin score) }
      (.fin score, { s with nodes := jset s.nodes nodeId node₁ })

/-- The `node.childrenIds.forEach` body of `selectBestChild`. -/
def selBestStep (sqrtO logO : ℚ → ℚ) (parentVisits : Nat)
    (acc : Option MCTSNode × JsVal × MCTSSession) (childId : Nat) :
    Option MCTSNode × JsVal × MCTSSession :=
  let (best, bestUCB, st) := acc
  match jget st.nodes childId with
  | some _ =>
    let (ucb, st₁) := calculateUCB sqrtO logO childId parentVisits st
    match jget st₁.nodes childId with
    | some child₁ =>
      if JsVal.gtJs ucb bestUCB then (some child₁, ucb, st₁) else (best, bestUCB, st₁)
    | none => (best, bestUCB, st₁)
  | none => acc

/-- `selectBestChild(node, session)`: maximal UCB, accumulator seeded with
`-Infinity`; falls back to the first listed child. -/
def selectBestChild (sqrtO logO : ℚ → ℚ) (node : MCTSNode) (s : MCTSSession) :
    Option MCTSNode × MCTSSession :=
  let r := node.childrenIds.foldl (selBestStep sqrtO logO node.visits) (none, JsVal.ninf, s)
  match r.1 with
  | some b => (some b, r.2.2)
  | none => (node.childrenIds.head?.bind (jget r.2.2.nodes), r.2.2)

/-- `isLeaf(node)`. -/
def isLeaf (node : MCTSNode) : Bool :=
  node.untriedActions.length > 0 || node.childrenIds.length = 0

/-- The `while` descent of `selectLeaf`, fuel-indexed. -/
def selectLeafF (sqrtO logO : ℚ → ℚ) :
    Nat → MCTSNode → MCTSSession → MCTSNode × MCTSSession
  | 0, cur, s => (cur, s)
  | fuel + 1, cur, s =>
    if isLeaf cur = false ∧ cur.isTerminal = false then
      match selectBestChild sqrtO logO cur s with
      | (some nxt, s₁) => selectLeafF sqrtO logO fuel nxt s₁
      | (none, s₁) => (cur, s₁)
    else (cur, s)

/-- `selectLeaf(session)`. -/
def selectLeaf (sqrtO logO : ℚ → ℚ) (s : MCTSSession) :
    Option MCTSNode × MCTSSession :=
  match jget s.nodes s.rootNodeId with
  | none => (none, s)
  | some root =>
    let r := selectLeafF sqrtO logO (s.nodes.length + 1) root s
    (some r.1, r.2)

/-- `generateActionsForState(previousAction)`. -/
def generateActionsForState (previousAction : String) : List String :=
  (["continue", "branch_left", "branch_right", "backtrack", "terminate"]).filter
    (fun a => a ≠ previousAction)

/-- `isTerminalState(action, session)`. -/
def isTerminalState (action : String) (s : MCTSSession) : Bool :=
  action = "terminate" || decide (s.maxDepth ≥ s.simulationDepth)

/-- `expandNode(nodeId, session)`; `u` is the `Math.random()` draw that
selects the untried action (`Math.floor(u * length)`). -/
def expandNode (u : ℚ) (nodeId : Nat) (s : MCTSSession) :
    Except String (Nat × MCTSSession) :=
  match jget s.nodes nodeId with
  | none => .error "Cannot expand node: no untried actions"
  | some node =>
    if node.untriedActions.length = 0 then .error "Cannot expand node: no untried actions"
    else
      let actionIndex := (u * (node.untriedActions.length : ℚ)).floor.toNat
      let action := node.untriedActions.getD actionIndex ""
      let node₀ := { node with untriedActions := node.untriedActions.eraseIdx actionIndex }
      let s₁ := { s with nodes := jset s.nodes nodeId node₀ }
      let childId := s₁.ctr
      let childNode : MCTSNode :=
        { id := childId,
          content := node.content ++ " -> " ++ action,
          parentId := some nodeId,
          childrenIds := [], visits := 0, totalValue := 0, averageValue := 0,
          untriedActions := generateActionsForState action,
          isTerminal := isTerminalState action s₁,
          action := some action,
          depth := node.depth + 1 }
      let s₂ := { s₁ with nodes := jset s₁.nodes childId childNode, ctr := s₁.ctr + 1 }
      let s₃ :=
        match jget s₂.nodes nodeId with
        | some n₁ =>
          let n₂ := { n₁ with childrenIds := n₁.childrenIds ++ [childId] }
          { s₂ with nodes := jset s₂.nodes nodeId n₂ }
        | none => s₂
      .ok (childId, { s₃ with totalNodes := s₃.totalNodes + 1,
                              maxDepth := max s₃.maxDepth childNode.depth })

/-- The win/loss/draw bucket update of `backpropagate`
(thresholds `0.6` / `0.4`). -/
def updOutcomes (value : ℚ) (oc : Nat × Nat × Nat) : Nat × Nat × Nat :=
  if value > 3/5 then (oc.1 + 1, oc.2.1, oc.2.2)
  else if value < 2/5 then (oc.1, oc.2.1 + 1, oc.2.2)
  else (oc.1, oc.2.1, oc.2.2 + 1)

/-- The node statistics update of one `backpropagate` step. -/
def backpropNode (value : ℚ) (node : MCTSNode) : MCTSNode :=
  { node with visits := node.visits + 1,
              totalValue := node.totalValue + value,
              averageValue := (node.totalValue + value) / ((node.visits + 1 : Nat) : ℚ),
              outcomes := some (updOutcomes value (node.outcomes.getD (0, 0, 0))) }

/-- The `while (currentNodeId)` walk of `backpropagate`, fuel-indexed. -/
def backpropF (value : ℚ) : Nat → Option Nat → MCTSSession → MCTSSession
  | 0, _, s => s
  | _, none, s => s
  | fuel + 1, some k, s =>
    match jget s.nodes k with
    | none => s
    | some node =>
      backpropF value fuel node.parentId
        { s with nodes := jset s.nodes k (backpropNode value node) }

/-- `backpropagate(leafNodeId, value, session)`. -/
def backpropagate (leafNodeId : Nat) (value : ℚ) (s : MCTSSession) : MCTSSession :=
  backpropF value (s.nodes.length + 1) (some leafNodeId) s

/-- The most-visited child pick of `getBestPath` (`maxVisits` seeded `-1`). -/
def bestChildByVisits (s : MCTSSession) (childrenIds : List Nat) : Option Nat :=
  (childrenIds.foldl (fun (acc : Option Nat × Int) cid =>
    match jget s.nodes cid with
    | some child => if (child.visits : Int) > acc.2 then (some cid, (child.visits : Int)) else acc
    | none => acc) (none, -1)).1

/-- The `while (currentNodeId)` walk of `getBestPath`, fuel-indexed. -/
def getBestPathF (s : MCTSSession) : Nat → Option Nat → List Nat
  | 0, _ => []
  | _, none => []
  | fuel + 1, some k =>
    k :: (match jget s.nodes k with
      | none => []
      | some node =>
        if node.childrenIds.length = 0 then []
        else
          match bestChildByVisits s node.childrenIds with
          | some c => getBestPathF s fuel (some c)
          | none => [])

/-- `getBestPath(session)` (private helper of the export). -/
def getBestPath (s : MCTSSession) : List Nat :=
  getBestPathF s (s.nodes.length + 1) (some s.rootNodeId)

/-- `exportToSequentialFormat(session)`. -/
def exportToSequentialFormat (s : MCTSSession) : List ThoughtData :=
  let bestPath := getBestPath s
  bestPath.enum.filterMap (fun p =>
    match jget s.nodes p.2 with
    | some node => some
        { thought := node.content, thoughtNumber := p.1 + 1,
          totalThoughts := bestPath.length,
          nextThoughtNeeded := decide (p.1 < bestPath.length - 1) }
    | none => none)

/-- `importFromSequentialFormat(thoughts)`; the randomness stream feeds
the `expandNode` action draws. -/
def importFromSequentialFormat (thoughts : List ThoughtData) (rng : List ℚ) :
    Except String (MCTSSession × List ℚ) := do
  let s := initializeSession
  let r ← thoughts.enum.foldlM (fun (acc : MCTSSession × Nat × List ℚ) p => do
    let (st, currentNodeId, r₀) := acc
    if p.1 = 0 then
      match jget st.nodes currentNodeId with
      | some rootNode =>
        let rootNode₁ := { rootNode with content := p.2.thought }
        pure ({ st with nodes := jset st.nodes currentNodeId rootNode₁ }, currentNodeId, r₀)
      | none => pure acc
    else
      match jget st.nodes currentNodeId with
      | some _ => do
        let (u, r₁) := popR r₀
        let (childId, st₁) ← expandNode u currentNodeId st
        match jget st₁.nodes childId with
        | some child =>
          let child₁ := { child with content := p.2.thought }
          pure ({ st₁ with nodes := jset st₁.nodes childId child₁ }, childId, r₁)
        | none => pure (st₁, childId, r₁)
      | none => pure acc) (s, s.rootNodeId, rng)
  pure (r.1, r.2.2)

end MCTS

/-! ## Claim C10: `findPaths` with equal start and end -/

theorem fpDfs_self (gs : Graph.GraphSession) (startId maxPaths fuel : Nat)
    (h : 1 ≤ maxPaths) :
    Graph.fpDfs gs startId maxPaths (fuel + 1) [] [] startId [startId] =
      ([[startId]], []) := by
  unfold Graph.fpDfs
  have h₁ : ¬ (List.length ([] : List (List Nat)) ≥ maxPaths) := by
    simp
    omega
  simp [h₁]
  omega

/-- C10: For every Graph-of-Thought session, every node id `startId`
(ids model the uuid strings of the source), and every `maxPaths ≥ 1`,
`findPaths(startId, startId, maxPaths)` returns exactly the single path
`[[startId]]`, even when no node with that id exists in the session —
the start id is never validated against the node table. -/
theorem C10_findPaths_self_start (gs : Graph.GraphSession) (startId maxPaths : Nat)
    (h : 1 ≤ maxPaths) :
    Graph.findPaths startId startId gs maxPaths = [[startId]] := by
  unfold Graph.findPaths
  rw [show gs.nodes.length + gs.edges.length + 2 =
    (gs.nodes.length + gs.edges.length + 1) + 1 from rfl]
  rw [fpDfs_self gs startId maxPaths _ h]

/-- Witness for C10 at a concrete session without any node `42`. -/
theorem C10_findPaths_self_start_witness :
    1 ≤ 10 ∧ Graph.findPaths 42 42 (Graph.initializeSession {}) 10 = [[42]] :=
  ⟨by decide, C10_findPaths_self_start (Graph.initializeSession {}) 42 10 (by decide)⟩

/-! ## Claim C5: `prunePaths` maintains the beam width -/

theorem evalStep_skeleton (acc : List (Nat × ℚ) × Beam.BeamSession) (pathId : Nat) :
    (Beam.evalStep acc pathId).2.beamWidth = acc.2.beamWidth ∧
    (Beam.evalStep acc pathId).2.activePaths = acc.2.activePaths ∧
    (Beam.evalStep acc pathId).2.config = acc.2.config ∧
    (Beam.evalStep acc pathId).2.currentGeneration = acc.2.currentGeneration := by
  obtain ⟨scores, st⟩ := acc
  unfold Beam.evalStep
  repeat' split
  rotate_left
  all_goals simp_all
  refine ⟨?_, ?_, ?_, ?_⟩
  all_goals split
  all_goals simp_all

theorem foldl_evalStep_skeleton (l : List Nat) :
    ∀ acc : List (Nat × ℚ) × Beam.BeamSession,
      (l.foldl Beam.evalStep acc).2.beamWidth = acc.2.beamWidth ∧
      (l.foldl Beam.evalStep acc).2.activePaths = acc.2.activePaths ∧
      (l.foldl Beam.evalStep acc).2.config = acc.2.config ∧
      (l.foldl Beam.evalStep acc).2.currentGeneration = acc.2.currentGeneration := by
  induction l with
  | nil => intro acc; simp
  | cons x xs ih =>
    intro acc
    rw [List.foldl_cons]
    have h₁ := evalStep_skeleton acc x
    have h₂ := ih (Beam.evalStep acc x)
    exact ⟨h₂.1.trans h₁.1, h₂.2.1.trans h₁.2.1, h₂.2.2.1.trans h₁.2.2.1,
      h₂.2.2.2.trans h₁.2.2.2⟩

theorem pruneFold_kept_length (bw : Nat) (th : ℚ) (kp : Bool) (g : Nat) :
    ∀ (l : List (Nat × ℚ)) (idx : Nat) (s : Beam.BeamSession),
      (Beam.pruneFold bw th kp g l idx s).1.length ≤ bw - idx := by
  intro l
  induction l with
  | nil =>
    intro idx s
    simp [Beam.pruneFold]
  | cons p rest ih =>
    intro idx s
    obtain ⟨pid, sc⟩ := p
    unfold Beam.pruneFold
    by_cases h : idx < bw ∧ th ≤ sc
    · simp only [if_pos h]
      have hr := ih (idx + 1) s
      rcases hq : Beam.pruneFold bw th kp g rest (idx + 1) s with ⟨kept, prunedIds, s₂⟩
      rw [hq] at hr
      simp at hr ⊢
      omega
    · simp only [if_neg h]
      cases hj : jget s.paths pid with
      | some path =>
        simp only [hj]
        have hr := ih (idx + 1) (if kp then
          { s with paths := jset s.paths pid { path with
              status := Beam.PathStatus.pruned, pruningGeneration := some g,
              pruningReason := some ("Score " ++ toString sc ++ " below threshold " ++ toString th) } }
          else { s with paths := jdel (jset s.paths pid { path with
              status := Beam.PathStatus.pruned, pruningGeneration := some g,
              pruningReason := some ("Score " ++ toString sc ++ " below threshold " ++ toString th) }) pid })
        rcases hq : Beam.pruneFold bw th kp g rest (idx + 1) _ with ⟨kept, prunedIds, s₃⟩
        rw [hq] at hr
        simp only [hq]
        simp at hr ⊢
        omega
      | none =>
        simp only [hj]
        have hr := ih (idx + 1) s
        rcases hq : Beam.pruneFold bw th kp g rest (idx + 1) s with ⟨kept, prunedIds, s₃⟩
        rw [hq] at hr
        simp only [hq]
        simp at hr ⊢
        omega

/-- C5: after any call to `prunePaths` the session's active-path list has
at most `beamWidth` entries, and with at most `beamWidth` candidates the
call returns no pruned ids and leaves the session untouched. -/
theorem C5_prunePaths_beam_width (s : Beam.BeamSession) :
    (Beam.prunePaths s).2.activePaths.length ≤ s.beamWidth ∧
    (s.activePaths.length ≤ s.beamWidth → Beam.prunePaths s = ([], s)) := by
  constructor
  · by_cases h : s.activePaths.length ≤ s.beamWidth
    · unfold Beam.prunePaths
      simp [h]
    · have hske := foldl_evalStep_skeleton s.activePaths ([], s)
      unfold Beam.prunePaths
      simp only [if_neg h]
      rcases hE : Beam.evaluatePaths s with ⟨scores, s₁⟩
      unfold Beam.evaluatePaths at hE
      rw [hE] at hske
      have hbw : s₁.beamWidth = s.beamWidth := hske.1
      generalize (List.mergeSort
        (s₁.activePaths.map fun pid => (pid, (jget scores pid).getD 0))
        (fun a b => decide (b.2 ≤ a.2))) = sorted
      rcases hP : Beam.pruneFold s₁.beamWidth (Beam.pruneThreshold s₁ sorted)
        s₁.config.keepPrunedPaths s₁.currentGeneration sorted 0 s₁ with ⟨kept, prunedIds, s₂⟩
      have hk := pruneFold_kept_length s₁.beamWidth (Beam.pruneThreshold s₁ sorted)
        s₁.config.keepPrunedPaths s₁.currentGeneration sorted 0 s₁
      rw [hP] at hk
      simp only [hP]
      simp at hk ⊢
      omega
  · intro h
    unfold Beam.prunePaths
    simp [h]

/-! ## Claim C8: `mergePaths` majority vote -/

theorem mostCommonAt_pair (x y : Nat) : Beam.mostCommonAt [x, y] = x := by
  unfold Beam.mostCommonAt
  by_cases h : x = y
  · subst h
    simp [jset, jget]
  · simp [jset, jget, h, Ne.symm h]

theorem mergeNodeSequences_pair (A B : List Nat) (h : A.length = B.length) :
    Beam.mergeNodeSequences [A, B] = A := by
  unfold Beam.mergeNodeSequences
  simp only [List.map_cons, List.map_nil, List.foldl_cons, List.foldl_nil]
  have hmax : max (max 0 A.length) B.length = A.length := by omega
  rw [hmax]
  have hstep : ∀ i ∈ List.range A.length,
      (let nodesAtPosition := (([A, B].filter (fun seq => seq.length > i)).map
        (fun seq => seq.getD i 0));
       if nodesAtPosition.isEmpty then none else some (Beam.mostCommonAt nodesAtPosition)) =
      some (A.getD i 0) := by
    intro i hi
    rw [List.mem_range] at hi
    have hB : i < B.length := h ▸ hi
    simp only [List.filter, decide_eq_true_eq]
    simp [hi, hB, mostCommonAt_pair]
  rw [List.filterMap_congr hstep]
  rw [show (fun i => some (A.getD i 0)) = some ∘ (fun i => A.getD i 0) from rfl,
    List.filterMap_eq_map]
  apply List.ext_getElem
  · simp
  · intro i h₁ h₂
    simp [List.getElem?_eq_getElem h₂]

theorem mergeNodeUpd_skeleton (mid : Nat) (st : Beam.BeamSession) (nid : Nat) :
    (Beam.mergeNodeUpd mid st nid).paths = st.paths ∧
    (Beam.mergeNodeUpd mid st nid).ctr = st.ctr := by
  unfold Beam.mergeNodeUpd
  split <;> simp

theorem foldl_mergeNodeUpd_skeleton (mid : Nat) (l : List Nat) :
    ∀ st : Beam.BeamSession,
      (l.foldl (Beam.mergeNodeUpd mid) st).paths = st.paths ∧
      (l.foldl (Beam.mergeNodeUpd mid) st).ctr = st.ctr := by
  induction l with
  | nil => intro st; simp
  | cons x xs ih =>
    intro st
    rw [List.foldl_cons]
    have h₁ := mergeNodeUpd_skeleton mid st x
    have h₂ := ih (Beam.mergeNodeUpd mid st x)
    exact ⟨h₂.1.trans h₁.1, h₂.2.trans h₁.2⟩

theorem mergeMark_pair (mid aId bId : Nat) (st : Beam.BeamSession)
    (a b : Beam.BeamPath) (hab : aId ≠ bId)
    (ha : jget st.paths aId = some a) (hb : jget st.paths bId = some b) :
    jget (Beam.mergeMarkStep mid (Beam.mergeMarkStep mid st aId) bId).paths aId =
      some { a with status := Beam.PathStatus.merged, mergedIntoPathId := some mid } ∧
    jget (Beam.mergeMarkStep mid (Beam.mergeMarkStep mid st aId) bId).paths bId =
      some { b with status := Beam.PathStatus.merged, mergedIntoPathId := some mid } := by
  unfold Beam.mergeMarkStep
  simp only [ha]
  have hb₁ : jget (jset st.paths aId
      { a with status := Beam.PathStatus.merged, mergedIntoPathId := some mid }) bId =
      some b := by
    rw [jget_jset_ne _ _ _ _ (Ne.symm hab)]
    exact hb
  simp only [hb₁]
  constructor
  · rw [jget_jset_ne _ _ _ _ hab, jget_jset_self]
  · rw [jget_jset_self]

/-- C8: merging two existing, distinct, identical-length paths whose node
sequences agree at every position produces an active path carrying exactly
that shared sequence (per-position majority, ties to first occurrence,
which for two lists is the first list's entry), and marks both inputs
`merged`.  The freshness hypotheses say the uuid supply has not collided
with the two path ids, which holds for every handler-built session. -/
theorem C8_mergePaths_shared_sequence (s : Beam.BeamSession) (aId bId : Nat)
    (a b : Beam.BeamPath)
    (ha : jget s.paths aId = some a) (hb : jget s.paths bId = some b)
    (hab : aId ≠ bId) (haf : aId ≠ s.ctr) (hbf : bId ≠ s.ctr)
    (hagree : a.nodeIds = b.nodeIds) :
    ∃ s₁, Beam.mergePaths [aId, bId] s = .ok (s.ctr, s₁) ∧
      (∃ mp, jget s₁.paths s.ctr = some mp ∧ mp.nodeIds = a.nodeIds ∧
        mp.status = Beam.PathStatus.active) ∧
      (∃ a₁, jget s₁.paths aId = some a₁ ∧ a₁.status = Beam.PathStatus.merged) ∧
      (∃ b₁, jget s₁.paths bId = some b₁ ∧ b₁.status = Beam.PathStatus.merged) := by
  have hfm : [aId, bId].filterMap (jget s.paths) = [a, b] := by
    simp [List.filterMap_cons, ha, hb]
  have hseq : Beam.mergeNodeSequences ([a, b].map (·.nodeIds)) = a.nodeIds := by
    simp only [List.map_cons, List.map_nil]
    exact mergeNodeSequences_pair a.nodeIds b.nodeIds (by rw [hagree])
  have hsk := foldl_mergeNodeUpd_skeleton s.ctr a.nodeIds { s with ctr := s.ctr + 1 }
  have hmk := mergeMark_pair s.ctr aId bId
    (a.nodeIds.foldl (Beam.mergeNodeUpd s.ctr) { s with ctr := s.ctr + 1 })
    a b hab (by rw [hsk.1]; exact ha) (by rw [hsk.1]; exact hb)
  unfold Beam.mergePaths
  rw [hfm]
  simp only [List.length_cons, List.length_nil, hseq]
  norm_num
  refine ⟨?_, ?_, ?_⟩
  · exact ⟨_, jget_jset_self _ _ _, rfl, rfl⟩
  · refine ⟨{ a with status := Beam.PathStatus.merged, mergedIntoPathId := some s.ctr }, ?_, rfl⟩
    rw [jget_jset_ne _ _ _ _ haf]
    exact hmk.1
  · refine ⟨{ b with status := Beam.PathStatus.merged, mergedIntoPathId := some s.ctr }, ?_, rfl⟩
    rw [jget_jset_ne _ _ _ _ hbf]
    exact hmk.2

def c8PathA : Beam.BeamPath :=
  { id := 1, nodeIds := [10], currentScore := 1, status := .active, scoreHistory := [] }

def c8PathB : Beam.BeamPath :=
  { id := 2, nodeIds := [10], currentScore := 1, status := .active, scoreHistory := [] }

def c8Session : Beam.BeamSession :=
  { iteration := 0, nextStepNeeded := true, beamWidth := 5, currentGeneration := 1,
    nodes := [(10, { id := 10, content := "n", pathIds := [1, 2], generationNumber := 1,
                     localScore := 1 })],
    paths := [(1, c8PathA), (2, c8PathB)],
    activePaths := [1, 2], convergenceCriteria := {}, config := {},
    totalPaths := 2, statsActivePaths := 2, completedPaths := 0, prunedPaths := 0,
    mergedPaths := 0, nodesExplored := 1, averagePathLength := 1, bestScore := 1,
    bestScoreGeneration := 1, ctr := 20 }

/-! ## Claim C2: pruning in the Tree engine -/

/-- `b` is reachable from `a` in exactly `n` child-list steps of the node
table (the descendant relation `prune` recurses over). -/
inductive TreeDescN (nodes : List (Nat × Tree.TreeNode)) : Nat → Nat → Nat → Prop where
  | refl (a : Nat) : TreeDescN nodes a a 0
  | step {a b c n : Nat} (nd : Tree.TreeNode) (ha : jget nodes a = some nd)
      (hb : b ∈ nd.childrenIds) (h : TreeDescN nodes b c n) : TreeDescN nodes a c (n + 1)

/-- The child structure a node table induces. -/
def childView (nodes : List (Nat × Tree.TreeNode)) (k : Nat) : Option (List Nat) :=
  (jget nodes k).map (·.childrenIds)

theorem TreeDescN_of_childView {m m' : List (Nat × Tree.TreeNode)}
    (h : ∀ k, childView m' k = childView m k) {a b n : Nat} :
    TreeDescN m a b n → TreeDescN m' a b n := by
  intro hd
  induction hd with
  | refl a => exact .refl a
  | step nd ha hb _ ih =>
    rename_i a' bmid c' n' hstep
    have hcv := h a'
    unfold childView at hcv
    rw [ha] at hcv
    cases hx : jget m' a' with
    | none => rw [hx] at hcv; simp at hcv
    | some nd₂ =>
      rw [hx] at hcv
      simp at hcv
      exact .step nd₂ hx (hcv ▸ hb) ih

/-- The node `prune` writes back: status `pruned`, the given reason. -/
def prunedNode (node : Tree.TreeNode) (r : String) : Tree.TreeNode :=
  { node with status := Tree.TreeStatus.pruned, pruningReason := some r }

/-- The session state after `prune`'s own write, before the child recursion. -/
def pruneSelf (s : Tree.TreeSession) (a : Nat) (node : Tree.TreeNode) (r : String) :
    Tree.TreeSession :=
  { s with nodes := jset s.nodes a (prunedNode node r),
           nodesPruned := s.nodesPruned + 1 }

theorem prunedNode_idem (nk : Tree.TreeNode) (r r₂ : String) :
    prunedNode (prunedNode nk r) r₂ = prunedNode nk r₂ := rfl

theorem pruneF_succ_none {fuel a : Nat} {r : String} {s : Tree.TreeSession}
    (hj : jget s.nodes a = none) : Tree.pruneF (fuel + 1) a r s = s := by
  unfold Tree.pruneF
  rw [hj]

theorem pruneF_succ_some {fuel a : Nat} {r : String} {s : Tree.TreeSession}
    {node : Tree.TreeNode} (hj : jget s.nodes a = some node) :
    Tree.pruneF (fuel + 1) a r s =
      node.childrenIds.foldl
        (fun st cid => Tree.pruneF fuel cid ("Parent pruned: " ++ r) st)
        (pruneSelf s a node r) := by
  rw [Tree.pruneF.eq_def]
  dsimp only []
  rw [hj]
  rfl

/-- What one `pruneF` call can do to any single key: leave it alone, or
re-mark the node already there as pruned with some reason. -/
def PruneDisj (m m' : List (Nat × Tree.TreeNode)) : Prop :=
  ∀ k, jget m' k = jget m k ∨
    ∃ nk r₂, jget m k = some nk ∧ jget m' k = some (prunedNode nk r₂)

theorem PruneDisj.refl (m : List (Nat × Tree.TreeNode)) : PruneDisj m m :=
  fun _ => Or.inl rfl

theorem PruneDisj.comp {m₁ m₂ m₃ : List (Nat × Tree.TreeNode)}
    (h₁ : PruneDisj m₁ m₂) (h₂ : PruneDisj m₂ m₃) : PruneDisj m₁ m₃ := by
  intro k
  rcases h₂ k with he | ⟨nk, r₂, hn, he⟩
  · rw [he]; exact h₁ k
  · rcases h₁ k with he₁ | ⟨nk₁, r₁, hn₁, he₁⟩
    · rw [he₁] at hn
      exact Or.inr ⟨nk, r₂, hn, he⟩
    · rw [he₁] at hn
      injection hn with hn
      subst hn
      rw [prunedNode_idem] at he
      exact Or.inr ⟨nk₁, r₂, hn₁, he⟩

theorem PruneDisj.childView_eq {m m' : List (Nat × Tree.TreeNode)} (h : PruneDisj m m') :
    ∀ k, childView m' k = childView m k := by
  intro k
  rcases h k with he | ⟨nk, r₂, hn, he⟩
  · unfold childView
    rw [he]
  · unfold childView
    rw [he, hn]
    rfl

theorem PruneDisj.pruned_stays {m m' : List (Nat × Tree.TreeNode)} (h : PruneDisj m m')
    {k : Nat} {nk : Tree.TreeNode} (hk : jget m k = some nk)
    (hp : nk.status = Tree.TreeStatus.pruned) :
    ∃ nk', jget m' k = some nk' ∧ nk'.status = Tree.TreeStatus.pruned := by
  rcases h k with he | ⟨nk₂, r₂, hn, he⟩
  · exact ⟨nk, he.trans hk, hp⟩
  · exact ⟨prunedNode nk₂ r₂, he, rfl⟩

theorem PruneDisj.present {m m' : List (Nat × Tree.TreeNode)} (h : PruneDisj m m')
    {k : Nat} {nk' : Tree.TreeNode} (hk : jget m' k = some nk') :
    ∃ nk, jget m k = some nk := by
  rcases h k with he | ⟨nk₂, r₂, hn, he⟩
  · exact ⟨nk', he ▸ hk⟩
  · exact ⟨nk₂, hn⟩

/-- One `pruneF` call only re-marks existing nodes as pruned. -/
theorem pruneF_disj : ∀ (fuel a : Nat) (r : String) (s : Tree.TreeSession),
    PruneDisj s.nodes (Tree.pruneF fuel a r s).nodes := by
  intro fuel
  induction fuel with
  | zero => intro a r s k; exact Or.inl rfl
  | succ fuel ih =>
    intro a r s
    cases hj : jget s.nodes a with
    | none =>
      rw [pruneF_succ_none hj]
      exact PruneDisj.refl _
    | some node =>
      rw [pruneF_succ_some hj]
      have hfold : ∀ (cs : List Nat) (s₁ : Tree.TreeSession),
          PruneDisj s₁.nodes
            ((cs.foldl (fun st cid =>
              Tree.pruneF fuel cid ("Parent pruned: " ++ r) st) s₁)).nodes := by
        intro cs
        induction cs with
        | nil => intro s₁; exact PruneDisj.refl _
        | cons c cs ihc =>
          intro s₁
          rw [List.foldl_cons]
          exact PruneDisj.comp (ih c ("Parent pruned: " ++ r) s₁) (ihc _)
      refine PruneDisj.comp ?_ (hfold node.childrenIds (pruneSelf s a node r))
      intro k
      by_cases hk : k = a
      · subst hk
        exact Or.inr ⟨node, r, hj, jget_jset_self _ _ _⟩
      · exact Or.inl (jget_jset_ne _ _ _ _ hk)

/-- A fold of `pruneF` calls only re-marks existing nodes as pruned. -/
theorem pruneFold_disj (fuel : Nat) (r : String) :
    ∀ (cs : List Nat) (s : Tree.TreeSession),
      PruneDisj s.nodes
        ((cs.foldl (fun st cid => Tree.pruneF fuel cid r st) s)).nodes := by
  intro cs
  induction cs with
  | nil => intro s; exact PruneDisj.refl _
  | cons c cs ihc =>
    intro s
    rw [List.foldl_cons]
    exact PruneDisj.comp (pruneF_disj fuel c r s) (ihc _)

/-- If one member of the fold's worklist reaches `b`, the fold leaves `b`
pruned (given that single `pruneF` calls at recursion depth `n` do). -/
theorem pruneFold_reaches (fuel : Nat) (r₂ : String) (n : Nat)
    (H : ∀ (a : Nat) (s : Tree.TreeSession) (b : Nat), TreeDescN s.nodes a b n →
      ∀ nb, jget (Tree.pruneF fuel a r₂ s).nodes b = some nb →
        nb.status = Tree.TreeStatus.pruned) :
    ∀ (cs : List Nat) (s : Tree.TreeSession) (c : Nat), c ∈ cs →
      ∀ b, TreeDescN s.nodes c b n →
      ∀ nb,
        jget ((cs.foldl (fun st cid => Tree.pruneF fuel cid r₂ st) s)).nodes b = some nb →
        nb.status = Tree.TreeStatus.pruned := by
  intro cs
  induction cs with
  | nil => intro s c hc; cases hc
  | cons d cs ihc =>
    intro s c hc b hdesc nb hres
    rw [List.foldl_cons] at hres
    rcases List.mem_cons.mp hc with hcd | hc₂
    · subst hcd
      have hd := pruneFold_disj fuel r₂ cs (Tree.pruneF fuel c r₂ s)
      obtain ⟨nb₀, hnb₀⟩ := hd.present hres
      have hp := H c s b hdesc nb₀ hnb₀
      obtain ⟨nk', hk', hp'⟩ := hd.pruned_stays hnb₀ hp
      rw [hres] at hk'
      injection hk' with h₂
      rw [h₂]
      exact hp'
    · have hcv := (pruneF_disj fuel d r₂ s).childView_eq
      exact ihc _ c hc₂ b (TreeDescN_of_childView hcv hdesc) nb hres

/-- With enough fuel, `pruneF` marks every descendant of the pruned node. -/
theorem pruneF_marks : ∀ (steps fuel : Nat), steps < fuel →
    ∀ (a : Nat) (r : String) (s : Tree.TreeSession) (b : Nat),
      TreeDescN s.nodes a b steps →
      ∀ nb, jget (Tree.pruneF fuel a r s).nodes b = some nb →
        nb.status = Tree.TreeStatus.pruned := by
  intro steps
  induction steps with
  | zero =>
    intro fuel hlt a r s b hdesc nb hres
    obtain ⟨fuel, rfl⟩ : ∃ f, fuel = f + 1 := ⟨fuel - 1, by omega⟩
    cases hdesc
    cases hj : jget s.nodes a with
    | none =>
      rw [pruneF_succ_none hj, hj] at hres
      cases hres
    | some node =>
      rw [pruneF_succ_some hj] at hres
      have hd := pruneFold_disj fuel ("Parent pruned: " ++ r) node.childrenIds
        (pruneSelf s a node r)
      have hs₁ : jget (pruneSelf s a node r).nodes a = some (prunedNode node r) :=
        jget_jset_self _ _ _
      obtain ⟨nk', hk', hp'⟩ := hd.pruned_stays hs₁ rfl
      rw [hres] at hk'
      injection hk' with h₂
      rw [h₂]
      exact hp'
  | succ n ihn =>
    intro fuel hlt a r s b hdesc nb hres
    obtain ⟨fuel, rfl⟩ : ∃ f, fuel = f + 1 := ⟨fuel - 1, by omega⟩
    cases hdesc with
    | step nd ha hb h =>
      rename_i cmid
      cases hj : jget s.nodes a with
      | none => rw [hj] at ha; cases ha
      | some node =>
        rw [hj] at ha
        injection ha with ha
        subst ha
        rw [pruneF_succ_some hj] at hres
        have hcv : ∀ k, childView (pruneSelf s a node r).nodes k = childView s.nodes k := by
          intro k
          by_cases hk : k = a
          · subst hk
            unfold childView
            show (jget (jset s.nodes k (prunedNode node r)) k).map _ = _
            rw [jget_jset_self, hj]
            rfl
          · unfold childView
            show (jget (jset s.nodes a (prunedNode node r)) k).map _ = _
            rw [jget_jset_ne _ _ _ _ hk]
        have hH : ∀ (a₂ : Nat) (s₂ : Tree.TreeSession) (b₂ : Nat),
            TreeDescN s₂.nodes a₂ b₂ n →
            ∀ nb₂, jget (Tree.pruneF fuel a₂ ("Parent pruned: " ++ r) s₂).nodes b₂ = some nb₂ →
              nb₂.status = Tree.TreeStatus.pruned := by
          intro a₂ s₂ b₂ hd₂ nb₂ hr₂
          exact ihn fuel (by omega) a₂ ("Parent pruned: " ++ r) s₂ b₂ hd₂ nb₂ hr₂
        exact pruneFold_reaches fuel ("Parent pruned: " ++ r) n hH node.childrenIds
          (pruneSelf s a node r) cmid hb b (TreeDescN_of_childView hcv h) nb hres
/-- Decidable well-formedness of a tree session: every child of a present
node is present one level deeper, and every present key is below the id
counter (the uuid supply never collides with stored ids). -/
def treeWFb (s : Tree.TreeSession) : Bool :=
  s.nodes.all (fun kv =>
    (kv.2.childrenIds.all (fun c =>
      match jget s.nodes c with
      | some cd => cd.depth == kv.2.depth + 1
      | none => false)) && decide (kv.1 < s.ctr))

theorem jget_self_mem {κ α : Type} [DecidableEq κ] {m : List (κ × α)} {k : κ} {v : α}
    (h : jget m k = some v) : (k, v) ∈ m := by
  induction m with
  | nil => simp [jget] at h
  | cons p rest ih =>
    obtain ⟨k₂, v₂⟩ := p
    by_cases h₂ : k₂ = k
    · subst h₂
      simp [jget] at h
      subst h
      exact List.mem_cons_self _ _
    · simp [jget, h₂] at h
      exact List.mem_cons_of_mem _ (ih h)

theorem treeWFb_children {s : Tree.TreeSession} (h : treeWFb s = true) :
    ∀ (k : Nat) (nd : Tree.TreeNode), jget s.nodes k = some nd →
      ∀ c ∈ nd.childrenIds, ∃ cd, jget s.nodes c = some cd ∧ cd.depth = nd.depth + 1 := by
  intro k nd hk c hc
  have hmem := jget_self_mem hk
  unfold treeWFb at h
  rw [List.all_eq_true] at h
  have h₁ := h _ hmem
  simp only [Bool.and_eq_true, List.all_eq_true, decide_eq_true_eq] at h₁
  have h₃ := h₁.1 c hc
  revert h₃
  cases hj : jget s.nodes c with
  | none => intro h₃; cases h₃
  | some cd =>
    intro h₃
    dsimp only [] at h₃
    rw [beq_iff_eq] at h₃
    exact ⟨cd, rfl, h₃⟩

theorem treeWFb_idb {s : Tree.TreeSession} (h : treeWFb s = true) :
    ∀ (k : Nat) (nk : Tree.TreeNode), jget s.nodes k = some nk → k < s.ctr := by
  intro k nk hk
  have hmem := jget_self_mem hk
  unfold treeWFb at h
  rw [List.all_eq_true] at h
  have h₁ := h _ hmem
  simp only [Bool.and_eq_true, decide_eq_true_eq] at h₁
  exact h₁.2

/-- Depth of a key under a node table (`0` for a missing key). -/
def dkey (nodes : List (Nat × Tree.TreeNode)) (k : Nat) : Nat :=
  ((jget nodes k).map (·.depth)).getD 0

/-- In a well-formed session a descendant chain of length `n` yields `n + 1`
present keys of strictly increasing depth. -/
theorem descChain {s : Tree.TreeSession}
    (hwf : ∀ (k : Nat) (nd : Tree.TreeNode), jget s.nodes k = some nd →
      ∀ c ∈ nd.childrenIds, ∃ cd, jget s.nodes c = some cd ∧ cd.depth = nd.depth + 1) :
    ∀ {a b n : Nat}, TreeDescN s.nodes a b n →
      ∀ na, jget s.nodes a = some na →
      ∃ ks : List Nat, ks.length = n + 1 ∧
        (∀ k ∈ ks, k ∈ jkeys s.nodes ∧ na.depth ≤ dkey s.nodes k) ∧
        ks.Pairwise (fun x y => dkey s.nodes x < dkey s.nodes y) := by
  intro a b n hd
  induction hd with
  | refl a =>
    intro na ha
    refine ⟨[a], rfl, ?_, List.pairwise_singleton _ _⟩
    intro k hk
    rw [List.mem_singleton] at hk
    subst hk
    refine ⟨jget_mem_keys _ _ _ ha, ?_⟩
    unfold dkey
    rw [ha]
    exact Nat.le_refl _
  | step nd ha hb h ih =>
    rename_i a₂ cmid b₂ n₂
    intro na ha₂
    rw [ha] at ha₂
    injection ha₂ with hna
    subst hna
    obtain ⟨cd, hcd, hdep⟩ := hwf _ _ ha _ hb
    obtain ⟨ks, hlen, hmem, hpw⟩ := ih cd hcd
    have hdka : dkey s.nodes a₂ = nd.depth := by
      unfold dkey
      rw [ha]
      rfl
    refine ⟨a₂ :: ks, by simp [hlen], ?_, ?_⟩
    · intro k hk
      rcases List.mem_cons.mp hk with hk | hk
      · subst hk
        exact ⟨jget_mem_keys _ _ _ ha, by omega⟩
      · obtain ⟨h₁, h₂⟩ := hmem k hk
        exact ⟨h₁, by omega⟩
    · rw [List.pairwise_cons]
      refine ⟨?_, hpw⟩
      intro k hk
      obtain ⟨h₁, h₂⟩ := hmem k hk
      omega

theorem jkeys_length {κ α : Type} (m : List (κ × α)) : (jkeys m).length = m.length :=
  List.length_map _ _

/-- In a well-formed session, descendant chains are shorter than the fuel
`prune` supplies. -/
theorem descN_bound {s : Tree.TreeSession}
    (hwf : ∀ (k : Nat) (nd : Tree.TreeNode), jget s.nodes k = some nd →
      ∀ c ∈ nd.childrenIds, ∃ cd, jget s.nodes c = some cd ∧ cd.depth = nd.depth + 1)
    {a b n : Nat} {na : Tree.TreeNode} (ha : jget s.nodes a = some na)
    (hd : TreeDescN s.nodes a b n) : n < s.nodes.length + 1 := by
  obtain ⟨ks, hlen, hmem, hpw⟩ := descChain hwf hd na ha
  have hnd : ks.Nodup := by
    refine List.Pairwise.imp ?_ hpw
    intro x y hxy he
    rw [he] at hxy
    omega
  have hsub : ks ⊆ jkeys s.nodes := fun k hk => (hmem k hk).1
  have hle := (hnd.subperm hsub).length_le
  rw [hlen, jkeys_length] at hle
  omega

/-- Per-key status view of a node table. -/
def StatusAt (m : List (Nat × Tree.TreeNode)) (k : Nat) : Option Tree.TreeStatus :=
  (jget m k).map (·.status)

theorem StatusAt_eq_some {m : List (Nat × Tree.TreeNode)} {k : Nat} {st : Tree.TreeStatus} :
    StatusAt m k = some st ↔ ∃ nk, jget m k = some nk ∧ nk.status = st := by
  unfold StatusAt
  cases jget m k <;> simp

/-- Two sessions with the same statuses, same present keys, same counter
(`evaluate` / `selectNext` only write score fields). -/
def SameShape (s s' : Tree.TreeSession) : Prop :=
  (∀ k, StatusAt s'.nodes k = StatusAt s.nodes k) ∧ s'.ctr = s.ctr ∧
  (∀ k nk, jget s'.nodes k = some nk → ∃ nk₀, jget s.nodes k = some nk₀)

theorem SameShape.rfl (s : Tree.TreeSession) : SameShape s s :=
  ⟨fun _ => Eq.refl _, Eq.refl _, fun _ nk hk => ⟨nk, hk⟩⟩

theorem SameShape.chain {s s₁ s₂ : Tree.TreeSession}
    (h₁ : SameShape s s₁) (h₂ : SameShape s₁ s₂) : SameShape s s₂ := by
  obtain ⟨a₁, b₁, c₁⟩ := h₁
  obtain ⟨a₂, b₂, c₂⟩ := h₂
  refine ⟨fun k => (a₂ k).trans (a₁ k), b₂.trans b₁, ?_⟩
  intro k nk hk
  obtain ⟨nk₁, hk₁⟩ := c₂ k nk hk
  exact c₁ k nk₁ hk₁

theorem except_bind_error {ε α β : Type} (e : ε) (f : α → Except ε β) :
    (Except.error e >>= f) = Except.error e := rfl

theorem except_bind_ok {ε α β : Type} (a : α) (f : α → Except ε β) :
    (Except.ok a >>= f) = f a := rfl

theorem evaluate_c2 {nid : Nat} {s : Tree.TreeSession} {rng : List ℚ}
    {q : ℚ} {s' : Tree.TreeSession} {rng' : List ℚ}
    (h : Tree.evaluate nid s rng = .ok (q, s', rng')) : SameShape s s' := by
  unfold Tree.evaluate at h
  cases hj : jget s.nodes nid with
  | none => rw [hj] at h; cases h
  | some node =>
    rw [hj] at h
    dsimp only [] at h
    simp only [Except.ok.injEq, Prod.mk.injEq] at h
    obtain ⟨h₁, h₂, h₃⟩ := h
    subst h₂
    refine ⟨?_, Eq.refl _, ?_⟩
    · intro k
      by_cases hk : k = nid
      · subst hk
        unfold StatusAt
        show (jget (jset s.nodes k _) k).map _ = _
        rw [jget_jset_self, hj]
        rfl
      · unfold StatusAt
        show (jget (jset s.nodes nid _) k).map _ = _
        rw [jget_jset_ne _ _ _ _ hk]
    · intro k nk hknk
      by_cases hk : k = nid
      · subst hk
        exact ⟨node, hj⟩
      · show ∃ nk₀, jget s.nodes k = some nk₀
        rw [show jget s.nodes k = jget (jset s.nodes nid _) k from
          (jget_jset_ne _ _ _ _ hk).symm]
        exact ⟨nk, hknk⟩

theorem foldl_sameShape {β : Type}
    (f : (Tree.TreeSession × List ℚ) → β → Tree.TreeSession × List ℚ)
    (hf : ∀ acc b, SameShape acc.1 (f acc b).1) :
    ∀ (l : List β) (acc : Tree.TreeSession × List ℚ),
      SameShape acc.1 ((l.foldl f acc).1) := by
  intro l
  induction l with
  | nil => intro acc; exact SameShape.rfl _
  | cons x xs ih =>
    intro acc
    rw [List.foldl_cons]
    exact (hf acc x).chain (ih (f acc x))

theorem selectNext_c2 (s : Tree.TreeSession) (rng : List ℚ) :
    SameShape s ((Tree.selectNext s rng).2.1) := by
  unfold Tree.selectNext
  dsimp only []
  split
  · exact SameShape.rfl _
  · split
    · exact SameShape.rfl _
    · exact SameShape.rfl _
    · refine foldl_sameShape _ ?_ _ _
      intro acc nid
      dsimp only []
      split
      · split
        · split
          · rename_i node hscore v st r heq
            exact evaluate_c2 heq
          · exact SameShape.rfl _
        · exact SameShape.rfl _
      · exact SameShape.rfl _

theorem pruneF_ctr : ∀ (fuel a : Nat) (r : String) (s : Tree.TreeSession),
    (Tree.pruneF fuel a r s).ctr = s.ctr := by
  intro fuel
  induction fuel with
  | zero => intro a r s; rfl
  | succ fuel ih =>
    have hfold : ∀ (cs : List Nat) (r₂ : String) (s₁ : Tree.TreeSession),
        ((cs.foldl (fun st cid => Tree.pruneF fuel cid r₂ st) s₁)).ctr = s₁.ctr := by
      intro cs r₂
      induction cs with
      | nil => intro s₁; rfl
      | cons c cs ihc =>
        intro s₁
        rw [List.foldl_cons, ihc, ih]
    intro a r s
    cases hj : jget s.nodes a with
    | none => rw [pruneF_succ_none hj]
    | some node =>
      rw [pruneF_succ_some hj, hfold]
      rfl

/-- Invariant carried through one `runIteration` relative to the entry
session `s₀`: statuses pruned at entry stay pruned, the id counter never
decreases, and present keys stay below it. -/
def C2Inv (s₀ s : Tree.TreeSession) : Prop :=
  (∀ k, StatusAt s₀.nodes k = some Tree.TreeStatus.pruned →
    StatusAt s.nodes k = some Tree.TreeStatus.pruned) ∧
  s₀.ctr ≤ s.ctr ∧
  (∀ k nk, jget s.nodes k = some nk → k < s.ctr)

theorem C2Inv_shape {s₀ s s' : Tree.TreeSession} (h : C2Inv s₀ s) (hs : SameShape s s') :
    C2Inv s₀ s' := by
  obtain ⟨hp, hc, hb⟩ := h
  obtain ⟨h₁, h₂, h₃⟩ := hs
  refine ⟨fun k hk => by rw [h₁ k]; exact hp k hk, by omega, ?_⟩
  intro k nk hknk
  obtain ⟨nk₀, h₀⟩ := h₃ k nk hknk
  have := hb k nk₀ h₀
  omega

theorem C2Inv_prune {s₀ st : Tree.TreeSession} (h : C2Inv s₀ st) (cid : Nat) (rs : String) :
    C2Inv s₀ (Tree.prune cid rs st) := by
  obtain ⟨hp, hc, hb⟩ := h
  have hd : PruneDisj st.nodes (Tree.prune cid rs st).nodes :=
    pruneF_disj (st.nodes.length + 1) cid rs st
  have hctr : (Tree.prune cid rs st).ctr = st.ctr := pruneF_ctr _ _ _ _
  refine ⟨?_, by omega, ?_⟩
  · intro k hk
    obtain ⟨nk, hnk, hpk⟩ := StatusAt_eq_some.mp (hp k hk)
    obtain ⟨nk', hk', hp'⟩ := hd.pruned_stays hnk hpk
    exact StatusAt_eq_some.mpr ⟨nk', hk', hp'⟩
  · intro k nk hknk
    obtain ⟨nk₀, h₀⟩ := hd.present hknk
    have := hb k nk₀ h₀
    omega

theorem isSolution_c2 (cid : Nat) (s : Tree.TreeSession) (rng : List ℚ) :
    (∀ k, k ≠ cid → StatusAt ((Tree.isSolution cid s rng).2.1).nodes k = StatusAt s.nodes k) ∧
    ((Tree.isSolution cid s rng).2.1).ctr = s.ctr ∧
    (∀ k nk, jget ((Tree.isSolution cid s rng).2.1).nodes k = some nk →
      ∃ nk₀, jget s.nodes k = some nk₀) := by
  unfold Tree.isSolution
  cases hj : jget s.nodes cid with
  | none => exact ⟨fun k _ => Eq.refl _, Eq.refl _, fun k nk hk => ⟨nk, hk⟩⟩
  | some node =>
    dsimp only []
    cases hsc : node.score with
    | some sc =>
      dsimp only []
      split
      · cases hj₁ : jget s.nodes cid with
        | some n₁ =>
          dsimp only []
          refine ⟨?_, Eq.refl _, ?_⟩
          · intro k hk
            unfold StatusAt
            show (jget (jset s.nodes cid _) k).map _ = _
            rw [jget_jset_ne _ _ _ _ hk]
          · intro k nk hknk
            by_cases hk : k = cid
            · subst hk
              exact ⟨node, hj⟩
            · show ∃ nk₀, jget s.nodes k = some nk₀
              rw [show jget s.nodes k = jget (jset s.nodes cid _) k from
                (jget_jset_ne _ _ _ _ hk).symm]
              exact ⟨nk, hknk⟩
        | none => exact ⟨fun k _ => Eq.refl _, Eq.refl _, fun k nk hk => ⟨nk, hk⟩⟩
      · exact ⟨fun k _ => Eq.refl _, Eq.refl _, fun k nk hk => ⟨nk, hk⟩⟩
    | none =>
      cases he : Tree.evaluate cid s rng with
      | ok v =>
        obtain ⟨q, s₂, r₂⟩ := v
        obtain ⟨hst, hctr, hpres⟩ := evaluate_c2 he
        dsimp only []
        split
        · cases hj₂ : jget s₂.nodes cid with
          | some n₁ =>
            dsimp only []
            refine ⟨?_, hctr, ?_⟩
            · intro k hk
              unfold StatusAt
              show (jget (jset s₂.nodes cid _) k).map _ = _
              rw [jget_jset_ne _ _ _ _ hk]
              exact hst k
            · intro k nk hknk
              by_cases hk : k = cid
              · subst hk
                exact ⟨node, hj⟩
              · rw [jget_jset_ne _ _ _ _ hk] at hknk
                exact hpres k nk hknk
          | none => exact ⟨fun k _ => hst k, hctr, hpres⟩
        · exact ⟨fun k _ => hst k, hctr, hpres⟩
      | error e =>
        dsimp only []
        rw [if_neg (by norm_num : ¬((0 : ℚ) > 4/5))]
        exact ⟨fun k _ => Eq.refl _, Eq.refl _, fun k nk hk => ⟨nk, hk⟩⟩

theorem C2Inv_isSolution {s₀ st : Tree.TreeSession} (h : C2Inv s₀ st)
    (hid₀ : ∀ k nk, jget s₀.nodes k = some nk → k < s₀.ctr)
    {cid : Nat} (hcid : s₀.ctr ≤ cid) (rng : List ℚ) :
    C2Inv s₀ ((Tree.isSolution cid st rng).2.1) := by
  obtain ⟨hst, hctr, hpres⟩ := isSolution_c2 cid st rng
  obtain ⟨hp, hc, hb⟩ := h
  refine ⟨?_, by omega, ?_⟩
  · intro k hk
    have hkc : k ≠ cid := by
      obtain ⟨nk, hnk, _⟩ := StatusAt_eq_some.mp hk
      have := hid₀ k nk hnk
      omega
    rw [hst k hkc]
    exact hp k hk
  · intro k nk hknk
    obtain ⟨nk₀, h₀⟩ := hpres k nk hknk
    have := hb k nk₀ h₀
    omega

theorem createNode_c2 {content : String} {pid : Nat} {s : Tree.TreeSession}
    {cid : Nat} {s' : Tree.TreeSession}
    (h : Tree.createNode content pid s = .ok (cid, s')) :
    cid = s.ctr ∧ s'.ctr = s.ctr + 1 ∧
    (∀ k, k ≠ s.ctr → StatusAt s'.nodes k = StatusAt s.nodes k) ∧
    (∀ k nk, jget s'.nodes k = some nk →
      k = s.ctr ∨ ∃ nk₀, jget s.nodes k = some nk₀) := by
  unfold Tree.createNode at h
  cases hj : jget s.nodes pid with
  | none => rw [hj] at h; cases h
  | some parentNode =>
    rw [hj] at h
    dsimp only [] at h
    split_ifs at h
    simp only [Except.ok.injEq, Prod.mk.injEq] at h
    obtain ⟨hcid, hs⟩ := h
    subst hs
    refine ⟨hcid.symm, Eq.refl _, ?_, ?_⟩
    · intro k hk
      by_cases hp : k = pid
      · subst hp
        unfold StatusAt
        show (jget (jset (jset s.nodes s.ctr _) k _) k).map _ = _
        rw [jget_jset_self, hj]
        rfl
      · unfold StatusAt
        show (jget (jset (jset s.nodes s.ctr _) pid _) k).map _ = _
        rw [jget_jset_ne _ _ _ _ hp, jget_jset_ne _ _ _ _ hk]
    · intro k nk hknk
      by_cases hc : k = s.ctr
      · exact Or.inl hc
      · by_cases hp : k = pid
        · subst hp
          exact Or.inr ⟨parentNode, hj⟩
        · dsimp only [] at hknk
          rw [jget_jset_ne _ _ _ _ hp, jget_jset_ne _ _ _ _ hc] at hknk
          exact Or.inr ⟨nk, hknk⟩

theorem expandLoop_c2 : ∀ (c i : Nat) (content : String) (nid : Nat)
    (s : Tree.TreeSession) {cids : List Nat} {s' : Tree.TreeSession},
    Tree.expandLoop content nid i c s = .ok (cids, s') →
    s.ctr ≤ s'.ctr ∧
    (∀ k, k < s.ctr → StatusAt s'.nodes k = StatusAt s.nodes k) ∧
    (∀ cd ∈ cids, s.ctr ≤ cd) ∧
    (∀ k nk, jget s'.nodes k = some nk →
      (s.ctr ≤ k ∧ k < s'.ctr) ∨ ∃ nk₀, jget s.nodes k = some nk₀) := by
  intro c
  induction c with
  | zero =>
    intro i content nid s cids s' h
    unfold Tree.expandLoop at h
    simp only [Except.ok.injEq, Prod.mk.injEq] at h
    obtain ⟨h₁, h₂⟩ := h
    subst h₁
    subst h₂
    exact ⟨Nat.le_refl _, fun k _ => Eq.refl _, by simp,
      fun k nk hk => Or.inr ⟨nk, hk⟩⟩
  | succ c ihc =>
    intro i content nid s cids s' h
    unfold Tree.expandLoop at h
    cases h₁ : Tree.createNode (content ++ " -> Branch " ++ toString (i + 1)) nid s with
    | error e =>
      rw [h₁, except_bind_error] at h
      cases h
    | ok v =>
      obtain ⟨cid₁, s₁⟩ := v
      rw [h₁, except_bind_ok] at h
      dsimp only [] at h
      cases h₂ : Tree.expandLoop content nid (i + 1) c s₁ with
      | error e =>
        rw [h₂, except_bind_error] at h
        cases h
      | ok w =>
        obtain ⟨rest, s₂⟩ := w
        rw [h₂, except_bind_ok] at h
        dsimp only [] at h
        simp only [Except.ok.injEq, Prod.mk.injEq] at h
        obtain ⟨hcs, hs⟩ := h
        subst hcs
        subst hs
        obtain ⟨hcid, hctr, hstat, hpres⟩ := createNode_c2 h₁
        obtain ⟨ictr, istat, icids, ipres⟩ := ihc _ _ _ _ h₂
        refine ⟨by omega, ?_, ?_, ?_⟩
        · intro k hk
          rw [istat k (by omega), hstat k (by omega)]
        · intro cd hcd
          rcases List.mem_cons.mp hcd with hcd | hcd
          · subst hcd
            omega
          · have := icids cd hcd
            omega
        · intro k nk hknk
          rcases ipres k nk hknk with ⟨hk₁, hk₂⟩ | ⟨nk₁, hnk₁⟩
          · exact Or.inl ⟨by omega, hk₂⟩
          · rcases hpres k nk₁ hnk₁ with hk₁ | hsk
            · exact Or.inl ⟨by omega, by omega⟩
            · exact Or.inr hsk

theorem expand_c2 {nid : Nat} {s : Tree.TreeSession} {cs : List Nat}
    {s' : Tree.TreeSession}
    (hid : ∀ k nk, jget s.nodes k = some nk → k < s.ctr)
    (h : Tree.expand nid s = .ok (cs, s')) :
    s.ctr ≤ s'.ctr ∧
    (∀ k, StatusAt s.nodes k = some Tree.TreeStatus.pruned →
      StatusAt s'.nodes k = some Tree.TreeStatus.pruned) ∧
    (∀ cd ∈ cs, s.ctr ≤ cd) ∧
    (∀ k nk, jget s'.nodes k = some nk → k < s'.ctr) := by
  unfold Tree.expand at h
  cases hj : jget s.nodes nid with
  | none => rw [hj] at h; cases h
  | some node =>
    rw [hj] at h
    dsimp only [] at h
    split at h
    · simp only [Except.ok.injEq, Prod.mk.injEq] at h
      obtain ⟨h₁, h₂⟩ := h
      subst h₁
      subst h₂
      exact ⟨Nat.le_refl _, fun k hk => hk, by simp, hid⟩
    · rename_i hactive
      rw [not_not] at hactive
      cases h₁ : Tree.expandLoop node.content nid 0
          (min 3 (s.config.maxBranchingFactor - node.childrenIds.length)) s with
      | error e =>
        rw [h₁, except_bind_error] at h
        cases h
      | ok v =>
        obtain ⟨children, s₁⟩ := v
        rw [h₁, except_bind_ok] at h
        dsimp only [] at h
        obtain ⟨lctr, lstat, lcids, lpres⟩ := expandLoop_c2 _ _ _ _ _ h₁
        cases hj₁ : jget s₁.nodes nid with
        | some n₁ =>
          rw [hj₁] at h
          dsimp only [] at h
          simp only [Except.ok.injEq, Prod.mk.injEq] at h
          obtain ⟨h₂, h₃⟩ := h
          subst h₂
          subst h₃
          have hnidp : StatusAt s.nodes nid = some Tree.TreeStatus.active :=
            StatusAt_eq_some.mpr ⟨node, hj, hactive⟩
          refine ⟨lctr, ?_, lcids, ?_⟩
          · intro k hk
            have hknid : k ≠ nid := by
              intro hkn
              subst hkn
              rw [hk] at hnidp
              cases hnidp
            unfold StatusAt
            show (jget (jset s₁.nodes nid _) k).map _ = _
            rw [jget_jset_ne _ _ _ _ hknid]
            obtain ⟨nk, hnk, hpk⟩ := StatusAt_eq_some.mp hk
            have hkb := hid k nk hnk
            have := lstat k hkb
            unfold StatusAt at this
            rw [this]
            exact hk
          · intro k nk hknk
            show k < s₁.ctr
            by_cases hk : k = nid
            · subst hk
              have := hid _ _ hj
              omega
            · dsimp only [] at hknk
              rw [jget_jset_ne _ _ _ _ hk] at hknk
              rcases lpres k nk hknk with ⟨hk₁, hk₂⟩ | ⟨nk₀, hnk₀⟩
              · exact hk₂
              · have := hid k nk₀ hnk₀
                omega
        | none =>
          rw [hj₁] at h
          dsimp only [] at h
          simp only [Except.ok.injEq, Prod.mk.injEq] at h
          obtain ⟨h₂, h₃⟩ := h
          subst h₂
          subst h₃
          refine ⟨lctr, ?_, lcids, ?_⟩
          · intro k hk
            obtain ⟨nk, hnk, hpk⟩ := StatusAt_eq_some.mp hk
            have hkb := hid k nk hnk
            show StatusAt s₁.nodes k = _
            rw [lstat k hkb]
            exact hk
          · intro k nk hknk
            show k < s₁.ctr
            rcases lpres k nk hknk with ⟨hk₁, hk₂⟩ | ⟨nk₀, hnk₀⟩
            · exact hk₂
            · have := hid k nk₀ hnk₀
              omega

theorem except_bind_eq_ok {ε α β : Type} {x : Except ε α} {f : α → Except ε β} {b : β}
    (h : (x >>= f) = .ok b) : ∃ a, x = .ok a ∧ f a = .ok b := by
  cases x with
  | error e => rw [except_bind_error] at h; cases h
  | ok a => rw [except_bind_ok] at h; exact ⟨a, rfl, h⟩

/-- `expand` on a node that is not `active` (in particular a pruned node)
returns no children and the session unchanged. -/
theorem expand_pruned_noop {s : Tree.TreeSession} {k : Nat} {nk : Tree.TreeNode}
    (hk : jget s.nodes k = some nk) (hp : nk.status = Tree.TreeStatus.pruned) :
    Tree.expand k s = .ok ([], s) := by
  unfold Tree.expand
  rw [hk]
  simp [hp]

theorem runChildren_c2 (s₀ : Tree.TreeSession)
    (hid₀ : ∀ k nk, jget s₀.nodes k = some nk → k < s₀.ctr) :
    ∀ (cs : List Nat) (st : Tree.TreeSession) (r : List ℚ)
      {out : Tree.TreeSession × List ℚ},
      (cs.foldlM (fun (acc : Tree.TreeSession × List ℚ) cid => do
        let (score, st, r) ← Tree.evaluate cid acc.1 acc.2
        let st₁ :=
          if st.config.pruningThreshold ≠ 0 ∧ score < st.config.pruningThreshold then
            Tree.prune cid ("Score " ++ toString score ++ " below threshold") st
          else st
        let r₂ := Tree.isSolution cid st₁ r
        pure (r₂.2.1, r₂.2.2)) (st, r)) = .ok out →
      C2Inv s₀ st → (∀ c ∈ cs, s₀.ctr ≤ c) → C2Inv s₀ out.1 := by
  intro cs
  induction cs with
  | nil =>
    intro st r out h hinv hcs
    rw [List.foldlM_nil] at h
    simp only [pure, Except.pure, Except.ok.injEq] at h
    rw [← h]
    exact hinv
  | cons c cs ihc =>
    intro st r out h hinv hcs
    rw [List.foldlM_cons] at h
    dsimp only [] at h
    obtain ⟨b₁, hstep, h⟩ := except_bind_eq_ok h
    obtain ⟨ve, he, hstep₂⟩ := except_bind_eq_ok hstep
    obtain ⟨q, stE, rE⟩ := ve
    dsimp only [] at hstep₂
    simp only [pure, Except.pure, Except.ok.injEq] at hstep₂
    subst hstep₂
    have hinvE : C2Inv s₀ stE := C2Inv_shape hinv (evaluate_c2 he)
    have hinv₁ : C2Inv s₀
        (if stE.config.pruningThreshold ≠ 0 ∧ q < stE.config.pruningThreshold then
          Tree.prune c ("Score " ++ toString q ++ " below threshold") stE
        else stE) := by
      split
      · exact C2Inv_prune hinvE c _
      · exact hinvE
    have hcbound : s₀.ctr ≤ c := hcs c (List.mem_cons_self _ _)
    have hinv₂ := C2Inv_isSolution hinv₁ hid₀ hcbound rE
    exact ihc _ _ h hinv₂ (fun d hd => hcs d (List.mem_cons_of_mem _ hd))

/-- `runIteration` never changes a pruned node's status back. -/
theorem runIteration_c2 {s : Tree.TreeSession}
    (hid : ∀ k nk, jget s.nodes k = some nk → k < s.ctr)
    {rng : List ℚ} {s' : Tree.TreeSession} {rng' : List ℚ}
    (h : Tree.runIteration s rng = .ok (s', rng')) :
    ∀ k, StatusAt s.nodes k = some Tree.TreeStatus.pruned →
      StatusAt s'.nodes k = some Tree.TreeStatus.pruned := by
  unfold Tree.runIteration at h
  rcases hsel : Tree.selectNext s rng with ⟨sel, s₁, rng₁⟩
  rw [hsel] at h
  have hshape : SameShape s s₁ := by
    have h₂ := selectNext_c2 s rng
    rw [hsel] at h₂
    exact h₂
  dsimp only [] at h
  cases sel with
  | none =>
    dsimp only [] at h
    simp only [pure, Except.pure, Except.ok.injEq, Prod.mk.injEq] at h
    obtain ⟨h₁, h₂⟩ := h
    subst h₁
    intro k hk
    show StatusAt s₁.nodes k = _
    rw [hshape.1 k]
    exact hk
  | some nodeId =>
    dsimp only [] at h
    obtain ⟨ve, hexp, h⟩ := except_bind_eq_ok h
    obtain ⟨children, s₂⟩ := ve
    dsimp only [] at h
    obtain ⟨vf, hfold, h⟩ := except_bind_eq_ok h
    obtain ⟨s₃, rng₂⟩ := vf
    dsimp only [] at h
    simp only [pure, Except.pure, Except.ok.injEq, Prod.mk.injEq] at h
    obtain ⟨h₁, h₂⟩ := h
    have hinv₀ : C2Inv s s := ⟨fun k hk => hk, Nat.le_refl _, hid⟩
    have hinv₁ : C2Inv s s₁ := C2Inv_shape hinv₀ hshape
    have hid₁ : ∀ k nk, jget s₁.nodes k = some nk → k < s₁.ctr := hinv₁.2.2
    obtain ⟨ectr, eprune, echil, eidb⟩ := expand_c2 hid₁ hexp
    have hinv₂ : C2Inv s s₂ := by
      refine ⟨fun k hk => eprune k (hinv₁.1 k hk), ?_, eidb⟩
      have := hinv₁.2.1
      omega
    have hbound : ∀ c ∈ children, s.ctr ≤ c := by
      intro c hc
      have h₃ := echil c hc
      have h₄ := hinv₁.2.1
      omega
    have hinv₃ : C2Inv s s₃ := runChildren_c2 s hid children s₂ rng₁ hfold hinv₂ hbound
    intro k hk
    have h₃ := hinv₃.1 k hk
    subst h₁
    split
    · exact h₃
    · exact h₃

/-- The amended C2 property of a session: `prune` marks the target node and
its whole current descendant subtree as pruned, `expand` on a pruned node is
a no-op returning the session unchanged, and `runIteration` never changes a
status that was pruned at entry. -/
def C2Prop (s : Tree.TreeSession) : Prop :=
  (∀ (a : Nat) (r : String) (na : Tree.TreeNode), jget s.nodes a = some na →
    ∀ (b n : Nat), TreeDescN s.nodes a b n →
      ∀ nb, jget (Tree.prune a r s).nodes b = some nb →
        nb.status = Tree.TreeStatus.pruned) ∧
  (∀ (k : Nat) (nk : Tree.TreeNode), jget s.nodes k = some nk →
    nk.status = Tree.TreeStatus.pruned → Tree.expand k s = .ok ([], s)) ∧
  (∀ (rng : List ℚ) (s' : Tree.TreeSession) (rng' : List ℚ),
    Tree.runIteration s rng = .ok (s', rng') →
    ∀ k, StatusAt s.nodes k = some Tree.TreeStatus.pruned →
      StatusAt s'.nodes k = some Tree.TreeStatus.pruned)

/-- **C2** (amended): in a well-formed Tree-of-Thought session (children of
present nodes are present one level deeper and present keys are below the id
counter), (a) `prune` marks the pruned node and every node of its current
descendant subtree `pruned`; (b) `expand` on a pruned node is a no-op and
returns the session unchanged; (c) `runIteration` never reverses a status
that was `pruned` when the iteration started. The original claim's stronger
reading is false: as the counterexample shows, a direct `isSolution` call
flips a pruned node with stored score above 0.8 to `solution`, and a direct
`createNode` call attaches a fresh `active` child below a pruned node, so
`pruned` is not irreversible against those two operations and descendants
added after the prune are not pruned. -/
theorem C2_pruned_status_evolution (s : Tree.TreeSession) (hwf : treeWFb s = true) :
    C2Prop s := by
  refine ⟨?_, ?_, ?_⟩
  · intro a r na ha b n hd nb hnb
    exact pruneF_marks n (s.nodes.length + 1)
      (descN_bound (treeWFb_children hwf) ha hd) a r s b hd nb hnb
  · intro k nk hk hp
    exact expand_pruned_noop hk hp
  · intro rng s' rng' h k hk
    exact runIteration_c2 (treeWFb_idb hwf) h k hk

def c2wChild : Tree.TreeNode :=
  { id := 1, content := "explored branch", parentId := some 0, childrenIds := [],
    depth := 1, status := .pruned, pruningReason := some "below threshold" }

def c2wRoot : Tree.TreeNode :=
  { id := 0, content := "Root: Problem Statement", childrenIds := [1], depth := 0,
    status := .explored }

def c2wS : Tree.TreeSession :=
  { iteration := 1, nextStepNeeded := true, rootNodeId := 0,
    nodes := [(0, c2wRoot), (1, c2wChild)], currentNodeId := 0,
    explorationBudget := 100, config := {}, nodesCreated := 2, nodesExplored := 1,
    nodesPruned := 1, solutionsFound := 0, maxDepthReached := 1, ctr := 2 }

/-- Witness: the amended C2 theorem applied to a concrete two-node session. -/
theorem C2_pruned_status_evolution_witness : treeWFb c2wS = true ∧ C2Prop c2wS :=
  ⟨by decide, C2_pruned_status_evolution c2wS (by decide)⟩

def c2xChild : Tree.TreeNode :=
  { id := 1, content := "high scoring candidate", parentId := some 0,
    childrenIds := [], depth := 1, status := .pruned, score := some (9/10),
    pruningReason := some "pruned with its parent" }

def c2xRoot : Tree.TreeNode :=
  { id := 0, content := "Root: Problem Statement", childrenIds := [1], depth := 0,
    status := .pruned, pruningReason := some "dead branch" }

def c2xS : Tree.TreeSession :=
  { iteration := 1, nextStepNeeded := true, rootNodeId := 0,
    nodes := [(0, c2xRoot), (1, c2xChild)], currentNodeId := 0,
    explorationBudget := 100, config := {}, nodesCreated := 2, nodesExplored := 1,
    nodesPruned := 2, solutionsFound := 0, maxDepthReached := 1, ctr := 2 }

/-- **C2** counterexample: in a session where node 0 and its child node 1
are both pruned (node 1 carries stored score 0.9), a direct `isSolution`
call flips node 1 to `solution`, and a direct `createNode` call attaches a
fresh `active` node 2 that is a descendant of the pruned node 0 — so a
pruned status is not irreversible and descendants of a pruned node do not
all remain pruned. -/
theorem C2_pruned_counterexample :
    StatusAt c2xS.nodes 1 = some Tree.TreeStatus.pruned ∧
    StatusAt ((Tree.isSolution 1 c2xS []).2.1).nodes 1 = some Tree.TreeStatus.solution ∧
    ∃ s', Tree.createNode "fresh idea" 1 c2xS = .ok (2, s') ∧
      StatusAt s'.nodes 2 = some Tree.TreeStatus.active ∧
      TreeDescN s'.nodes 0 2 2 := by
  refine ⟨rfl, ?_, ?_⟩
  · unfold Tree.isSolution
    rw [show jget c2xS.nodes 1 = some c2xChild from rfl]
    dsimp only []
    rw [show c2xChild.score = some (9/10) from rfl]
    dsimp only []
    rw [if_pos (by norm_num : (9/10 : ℚ) > 4/5)]
    rw [show jget c2xS.nodes 1 = some c2xChild from rfl]
    rfl
  · refine ⟨_, rfl, rfl, ?_⟩
    refine @TreeDescN.step _ 0 1 2 1 c2xRoot rfl (by decide) ?_
    refine @TreeDescN.step _ 1 2 2 0 { c2xChild with childrenIds := [2] } rfl (by decide) ?_
    exact TreeDescN.refl 2

/-! ## Claim C3: cycle rejection in the Graph engine -/

/-- Reachability along the structure `canReach` follows: from a node's
`outgoingEdges` list through the edge table to the edge's target. -/
inductive ReachG (s : Graph.GraphSession) : Nat → Nat → Prop where
  | refl (a : Nat) : ReachG s a a
  | step {a v b : Nat} (n : Graph.GraphNode) (e : Graph.GraphEdge) (eid : Nat)
      (hn : jget s.nodes a = some n) (he : eid ∈ n.outgoingEdges)
      (hee : jget s.edges eid = some e) (ht : e.targetId = v)
      (h : ReachG s v b) : ReachG s a b

theorem canReachF_zero (s : Graph.GraphSession) (toId : Nat) (vis : List Nat)
    (fromId : Nat) : Graph.canReachF s toId 0 vis fromId = (false, vis) := by
  rw [Graph.canReachF]

theorem canReachF_succ (s : Graph.GraphSession) (toId fuel : Nat) (vis : List Nat)
    (fromId : Nat) :
    Graph.canReachF s toId (fuel + 1) vis fromId =
      if fromId = toId then (true, vis)
      else if fromId ∈ vis then (false, vis)
      else
        match jget s.nodes fromId with
        | none => (false, fromId :: vis)
        | some n => Graph.canReachList s toId fuel (fromId :: vis) n.outgoingEdges := by
  rw [Graph.canReachF]

theorem canReachList_nil (s : Graph.GraphSession) (toId fuel : Nat) (vis : List Nat) :
    Graph.canReachList s toId fuel vis [] = (false, vis) := by
  rw [Graph.canReachList]

theorem canReachList_cons (s : Graph.GraphSession) (toId fuel : Nat) (vis : List Nat)
    (eid : Nat) (rest : List Nat) :
    Graph.canReachList s toId fuel vis (eid :: rest) =
      match jget s.edges eid with
      | none => Graph.canReachList s toId fuel vis rest
      | some e =>
        let r := Graph.canReachF s toId fuel vis e.targetId
        if r.1 then (true, r.2) else Graph.canReachList s toId fuel r.2 rest := by
  rw [Graph.canReachList]

/-- The candidate ids a `canReach` run can ever visit: the start plus every
edge target. -/
def cycleCands (s : Graph.GraphSession) (startId : Nat) : List Nat :=
  startId :: s.edges.map (fun kv => kv.2.targetId)

/-- `x` is a fully-explored dead end: not the target, and all its successors
lie inside `V`. -/
def reachClosed (s : Graph.GraphSession) (toId x : Nat) (V : List Nat) : Prop :=
  x ≠ toId ∧ ∀ (n : Graph.GraphNode) (eid : Nat) (e : Graph.GraphEdge),
    jget s.nodes x = some n → eid ∈ n.outgoingEdges → jget s.edges eid = some e →
    e.targetId ∈ V

theorem reachClosed_mono {s : Graph.GraphSession} {toId x : Nat} {V V' : List Nat}
    (hsub : V ⊆ V') (h : reachClosed s toId x V) : reachClosed s toId x V' :=
  ⟨h.1, fun n eid e hn hm he => hsub (h.2 n eid e hn hm he)⟩

/-- The joint false-run invariant of the depth-first search: the visited set
grows, and a false verdict leaves the start visited with every newly visited
node a fully-explored dead end. -/
theorem canReach_false_spec (s : Graph.GraphSession) (toId : Nat) (C : List Nat)
    (hC : ∀ (eid : Nat) (e : Graph.GraphEdge), jget s.edges eid = some e →
      e.targetId ∈ C) :
    ∀ fuel : Nat,
      (∀ (vis : List Nat) (fromId : Nat) (b : Bool) (vis' : List Nat),
        Graph.canReachF s toId fuel vis fromId = (b, vis') →
        fromId ∈ C → (C.toFinset \ vis.toFinset).card < fuel →
        vis ⊆ vis' ∧ (b = false → fromId ∈ vis' ∧
          ∀ x ∈ vis', x ∉ vis → reachClosed s toId x vis')) ∧
      (∀ (vis es : List Nat) (b : Bool) (vis' : List Nat),
        Graph.canReachList s toId fuel vis es = (b, vis') →
        (∀ eid ∈ es, ∀ e, jget s.edges eid = some e → e.targetId ∈ C) →
        (C.toFinset \ vis.toFinset).card < fuel →
        vis ⊆ vis' ∧ (b = false →
          (∀ eid ∈ es, ∀ e, jget s.edges eid = some e → e.targetId ∈ vis') ∧
          ∀ x ∈ vis', x ∉ vis → reachClosed s toId x vis')) := by
  intro fuel
  induction fuel with
  | zero =>
    constructor
    · intro vis fromId b vis' h hfrom hfuel
      exact absurd hfuel (by omega)
    · intro vis es b vis' h hes hfuel
      exact absurd hfuel (by omega)
  | succ fuel ih =>
    obtain ⟨ihF, ihL⟩ := ih
    have hF : ∀ (vis : List Nat) (fromId : Nat) (b : Bool) (vis' : List Nat),
        Graph.canReachF s toId (fuel + 1) vis fromId = (b, vis') →
        fromId ∈ C → (C.toFinset \ vis.toFinset).card < fuel + 1 →
        vis ⊆ vis' ∧ (b = false → fromId ∈ vis' ∧
          ∀ x ∈ vis', x ∉ vis → reachClosed s toId x vis') := by
      intro vis fromId b vis' h hfrom hfuel
      rw [canReachF_succ] at h
      by_cases h₁ : fromId = toId
      · rw [if_pos h₁] at h
        injection h with hb hv
        subst hv
        refine ⟨fun x hx => hx, ?_⟩
        intro hbf
        rw [← hb] at hbf
        cases hbf
      · rw [if_neg h₁] at h
        by_cases h₂ : fromId ∈ vis
        · rw [if_pos h₂] at h
          injection h with hb hv
          subst hv
          exact ⟨fun x hx => hx, fun _ => ⟨h₂, fun x hx hnx => absurd hx hnx⟩⟩
        · rw [if_neg h₂] at h
          cases hn : jget s.nodes fromId with
          | none =>
            rw [hn] at h
            injection h with hb hv
            subst hv
            refine ⟨fun x hx => List.mem_cons_of_mem _ hx, ?_⟩
            intro hbf
            refine ⟨List.mem_cons_self _ _, ?_⟩
            intro x hx hnx
            rcases List.mem_cons.mp hx with hxf | hxv
            · subst hxf
              refine ⟨h₁, ?_⟩
              intro n eid e hxn hmem he
              rw [hn] at hxn
              cases hxn
            · exact absurd hxv hnx
          | some n =>
            rw [hn] at h
            have hcard : (C.toFinset \ (fromId :: vis).toFinset).card < fuel := by
              have h₃ : fromId ∈ C.toFinset \ vis.toFinset := by
                rw [Finset.mem_sdiff]
                exact ⟨List.mem_toFinset.mpr hfrom,
                  fun hc => h₂ (List.mem_toFinset.mp hc)⟩
              have h₄ : C.toFinset \ (fromId :: vis).toFinset =
                  (C.toFinset \ vis.toFinset).erase fromId := by
                rw [List.toFinset_cons]
                ext y
                simp only [Finset.mem_sdiff, Finset.mem_erase, Finset.mem_insert]
                tauto
              have h₅ : 0 < (C.toFinset \ vis.toFinset).card :=
                Finset.card_pos.mpr ⟨fromId, h₃⟩
              rw [h₄, Finset.card_erase_of_mem h₃]
              omega
            obtain ⟨hsub, hfalse⟩ := ihL (fromId :: vis) n.outgoingEdges b vis' h
              (fun eid _ e he => hC eid e he) hcard
            refine ⟨fun x hx => hsub (List.mem_cons_of_mem _ hx), ?_⟩
            intro hbf
            obtain ⟨htg, hclosed⟩ := hfalse hbf
            refine ⟨hsub (List.mem_cons_self _ _), ?_⟩
            intro x hx hnx
            by_cases hxf : x = fromId
            · subst hxf
              refine ⟨h₁, ?_⟩
              intro n₂ eid e hn₂ hmem he
              rw [hn] at hn₂
              injection hn₂ with hn₂
              subst hn₂
              exact htg eid hmem e he
            · refine hclosed x hx ?_
              intro hc
              rcases List.mem_cons.mp hc with h₃ | h₃
              · exact hxf h₃
              · exact hnx h₃
    refine ⟨hF, ?_⟩
    intro vis es
    induction es generalizing vis with
    | nil =>
      intro b vis' h hes hfuel
      rw [canReachList_nil] at h
      injection h with hb hv
      subst hv
      refine ⟨fun x hx => hx, ?_⟩
      intro hbf
      exact ⟨fun eid hm => absurd hm (List.not_mem_nil _),
        fun x hx hnx => absurd hx hnx⟩
    | cons eid rest ihes =>
      intro b vis' h hes hfuel
      rw [canReachList_cons] at h
      cases he : jget s.edges eid with
      | none =>
        rw [he] at h
        obtain ⟨hsub, hfalse⟩ := ihes vis b vis' h
          (fun eid₂ hm e he₂ => hes eid₂ (List.mem_cons_of_mem _ hm) e he₂) hfuel
        refine ⟨hsub, ?_⟩
        intro hbf
        obtain ⟨htg, hcl⟩ := hfalse hbf
        refine ⟨?_, hcl⟩
        intro eid₂ hm e he₂
        rcases List.mem_cons.mp hm with h₃ | h₃
        · subst h₃
          rw [he] at he₂
          cases he₂
        · exact htg eid₂ h₃ e he₂
      | some e =>
        rw [he] at h
        dsimp only [] at h
        rcases hr : Graph.canReachF s toId (fuel + 1) vis e.targetId with ⟨rb, rvis⟩
        rw [hr] at h
        dsimp only [] at h
        have htgtC : e.targetId ∈ C := hes eid (List.mem_cons_self _ _) e he
        obtain ⟨hsubF, hfalseF⟩ := hF vis e.targetId rb rvis hr htgtC hfuel
        cases rb with
        | true =>
          rw [if_pos rfl] at h
          injection h with hb hv
          subst hv
          refine ⟨hsubF, ?_⟩
          intro hbf
          rw [← hb] at hbf
          cases hbf
        | false =>
          rw [if_neg (by simp)] at h
          have hfuel₂ : (C.toFinset \ rvis.toFinset).card < fuel + 1 := by
            have h₃ : C.toFinset \ rvis.toFinset ⊆ C.toFinset \ vis.toFinset := by
              refine Finset.sdiff_subset_sdiff (Finset.Subset.refl _) ?_
              intro y hy
              exact List.mem_toFinset.mpr (hsubF (List.mem_toFinset.mp hy))
            have h₄ := Finset.card_le_card h₃
            omega
          obtain ⟨hsubR, hfalseR⟩ := ihes rvis b vis' h
            (fun eid₂ hm e₂ he₂ => hes eid₂ (List.mem_cons_of_mem _ hm) e₂ he₂) hfuel₂
          obtain ⟨htgt, hclF⟩ := hfalseF rfl
          refine ⟨fun x hx => hsubR (hsubF hx), ?_⟩
          intro hbf
          obtain ⟨htgR, hclR⟩ := hfalseR hbf
          refine ⟨?_, ?_⟩
          · intro eid₂ hm e₂ he₂
            rcases List.mem_cons.mp hm with h₃ | h₃
            · subst h₃
              rw [he] at he₂
              injection he₂ with he₂
              subst he₂
              exact hsubR htgt
            · exact htgR eid₂ h₃ e₂ he₂
          · intro x hx hnx
            by_cases hxr : x ∈ rvis
            · exact reachClosed_mono hsubR (hclF x hxr hnx)
            · exact hclR x hx hxr

/-- Following a reachability path out of a set of fully-explored dead ends
is impossible. -/
theorem reach_not_in_closed {s : Graph.GraphSession} {toId : Nat} {V : List Nat}
    (hcl : ∀ x ∈ V, reachClosed s toId x V) :
    ∀ {a b : Nat}, ReachG s a b → b = toId → a ∈ V → False := by
  intro a b hr
  induction hr with
  | refl a =>
    intro hb ha
    exact (hcl a ha).1 hb
  | step n e eid hn he hee ht h ih =>
    rename_i a₂ v₂ b₂
    intro hb ha
    exact ih hb (ht ▸ (hcl a₂ ha).2 n eid e hn he hee)

/-- Completeness of the cycle check: if the target already reaches the
source, `wouldCreateCycle` detects it. -/
theorem wouldCreateCycle_complete {s : Graph.GraphSession} {src tgt : Nat}
    (hreach : ReachG s tgt src) : Graph.wouldCreateCycle src tgt s = true := by
  unfold Graph.wouldCreateCycle
  rcases hres : Graph.canReachF s src (s.edges.length + 2) [] tgt with ⟨b, vis'⟩
  cases b with
  | true => rfl
  | false =>
    exfalso
    have hC : ∀ (eid : Nat) (e : Graph.GraphEdge), jget s.edges eid = some e →
        e.targetId ∈ cycleCands s tgt := by
      intro eid e he
      refine List.mem_cons_of_mem _ ?_
      exact List.mem_map.mpr ⟨(eid, e), jget_self_mem he, rfl⟩
    have hfuel : ((cycleCands s tgt).toFinset \ ([] : List Nat).toFinset).card <
        s.edges.length + 2 := by
      have h₁ := List.toFinset_card_le (cycleCands s tgt)
      have h₂ : (cycleCands s tgt).length = s.edges.length + 1 := by
        unfold cycleCands
        simp
      simp only [List.toFinset_nil, Finset.sdiff_empty]
      omega
    obtain ⟨hsub, hfalse⟩ := (canReach_false_spec s src (cycleCands s tgt) hC
      (s.edges.length + 2)).1 [] tgt false vis' hres
      (List.mem_cons_self _ _) hfuel
    obtain ⟨hin, hcl⟩ := hfalse rfl
    exact reach_not_in_closed
      (fun x hx => hcl x hx (List.not_mem_nil x)) hreach rfl hin

/-- **C3**: in a session configured with allowCycles = false, for existing
nodes where the intended target already reaches the intended source over
directed edges, `connectNodes` fails and returns the session exactly as it
was — same node table, edge table, counts and statistics (the rejection
paths return the original session object unchanged). -/
theorem C3_connectNodes_cycle_rejected (s : Graph.GraphSession)
    (srcId tgtId : Nat) (ty : Graph.GraphEdgeType) (w : ℚ)
    (hcfg : s.config.allowCycles = false)
    (hsrc : ∃ n, jget s.nodes srcId = some n)
    (htgt : ∃ n, jget s.nodes tgtId = some n)
    (hreach : ReachG s tgtId srcId) :
    ∃ msg, Graph.connectNodes srcId tgtId ty w s = (.error msg, s) := by
  obtain ⟨sn, hsn⟩ := hsrc
  obtain ⟨tn, htn⟩ := htgt
  unfold Graph.connectNodes
  rw [hsn, htn]
  dsimp only []
  by_cases hmax : s.config.maxEdges ≠ 0 ∧ s.edges.length ≥ s.config.maxEdges
  · rw [if_pos hmax]
    exact ⟨_, rfl⟩
  · rw [if_neg hmax,
      if_pos (⟨hcfg, wouldCreateCycle_complete hreach⟩ :
        s.config.allowCycles = false ∧ Graph.wouldCreateCycle srcId tgtId s = true)]
    exact ⟨_, rfl⟩

def c3NodeA : Graph.GraphNode :=
  { id := 0, content := "premise", nodeType := .hypothesis, strength := 1,
    incomingEdges := [], outgoingEdges := [10] }

def c3NodeB : Graph.GraphNode :=
  { id := 1, content := "consequence", nodeType := .conclusion, strength := 1,
    incomingEdges := [10], outgoingEdges := [] }

def c3Edge : Graph.GraphEdge :=
  { id := 10, sourceId := 0, targetId := 1, edgeType := .leadsTo, weight := 1 }

def c3S : Graph.GraphSession :=
  { iteration := 0, nextStepNeeded := true,
    nodes := [(0, c3NodeA), (1, c3NodeB)], edges := [(10, c3Edge)],
    entryNodeIds := [0], explorationPath := [],
    config := { allowCycles := false }, totalNodes := 2, totalEdges := 1,
    nodesByType := [(.hypothesis, 1), (.conclusion, 1)],
    edgesByType := [(.leadsTo, 1)], averageDegree := 1, density := 1/2,
    connectedComponents := 1, ctr := 11 }

/-- Witness: connecting the consequence back to the premise in a concrete
two-node no-cycles session is rejected without mutation. -/
theorem C3_connectNodes_cycle_rejected_witness :
    c3S.config.allowCycles = false ∧ ReachG c3S 0 1 ∧
    ∃ msg, Graph.connectNodes 1 0 Graph.GraphEdgeType.supports 1 c3S =
      (.error msg, c3S) := by
  have hreach : ReachG c3S 0 1 :=
    @ReachG.step c3S 0 1 1 c3NodeA c3Edge 10 rfl (by decide) rfl rfl (ReachG.refl 1)
  exact ⟨rfl, hreach,
    C3_connectNodes_cycle_rejected c3S 1 0 Graph.GraphEdgeType.supports 1 rfl
      ⟨c3NodeB, rfl⟩ ⟨c3NodeA, rfl⟩ hreach⟩

/-! ## Claim C6: centrality values -/

def c6xNodeA : Graph.GraphNode :=
  { id := 0, content := "source", nodeType := .hypothesis, strength := 1,
    incomingEdges := [], outgoingEdges := [30] }

def c6xNodeB : Graph.GraphNode :=
  { id := 1, content := "sink", nodeType := .conclusion, strength := 1,
    incomingEdges := [30], outgoingEdges := [] }

def c6xEdge : Graph.GraphEdge :=
  { id := 30, sourceId := 0, targetId := 1, edgeType := .supports, weight := -10 }

/-- A session with one negatively-weighted edge. -/
def c6xS : Graph.GraphSession :=
  { iteration := 0, nextStepNeeded := true,
    nodes := [(0, c6xNodeA), (1, c6xNodeB)], edges := [(30, c6xEdge)],
    entryNodeIds := [0], explorationPath := [], config := {},
    totalNodes := 2, totalEdges := 1,
    nodesByType := [(.hypothesis, 1), (.conclusion, 1)],
    edgesByType := [(.supports, 1)], averageDegree := 1, density := 1/2,
    connectedComponents := 1, ctr := 31 }

/-- The fixed point the power iteration reaches on `c6xS` after two steps. -/
def c6xFix : List (Nat × ℚ) := [(0, 3/40), (1, -(9/16))]

def c6yNodeA : Graph.GraphNode :=
  { id := 0, content := "left", nodeType := .hypothesis, strength := 1,
    incomingEdges := [41], outgoingEdges := [40] }

def c6yNodeB : Graph.GraphNode :=
  { id := 1, content := "right", nodeType := .hypothesis, strength := 1,
    incomingEdges := [40], outgoingEdges := [41] }

def c6yEdgeF : Graph.GraphEdge :=
  { id := 40, sourceId := 0, targetId := 1, edgeType := .leadsTo, weight := 0 }

def c6yEdgeB : Graph.GraphEdge :=
  { id := 41, sourceId := 1, targetId := 0, edgeType := .leadsTo, weight := 0 }

/-- A connected two-cycle with no dangling nodes whose edges carry weight 0. -/
def c6yS : Graph.GraphSession :=
  { iteration := 0, nextStepNeeded := true,
    nodes := [(0, c6yNodeA), (1, c6yNodeB)], edges := [(40, c6yEdgeF), (41, c6yEdgeB)],
    entryNodeIds := [0], explorationPath := [], config := {},
    totalNodes := 2, totalEdges := 2,
    nodesByType := [(.hypothesis, 2)],
    edgesByType := [(.leadsTo, 2)], averageDegree := 2, density := 1,
    connectedComponents := 1, ctr := 42 }

def c6yFix : List (Nat × ℚ) := [(0, 3/40), (1, 3/40)]

/-- **C6** counterexample: on `c6xS` (a negative edge weight) the returned
centrality of node 1 is -9/16 < 0, and on `c6yS` — a connected graph with
no dangling nodes whose edge weights are 0 — the returned centrality values
sum to 3/20, nowhere near 1. -/
theorem C6_centrality_counterexample :
    (jget (Graph.calculateCentrality c6xS) 1 = some (-(9/16)) ∧
      ¬(0 ≤ (-(9/16) : ℚ))) ∧
    (((Graph.calculateCentrality c6yS).map (·.2)).sum = 3/20 ∧
      ¬((3/20 : ℚ) ≥ 1/2)) := by
  have hx2 : (Graph.centStep c6xS)^[2] (Graph.centInit c6xS) = c6xFix := by
    show Graph.centStep c6xS (Graph.centStep c6xS (Graph.centInit c6xS)) = c6xFix
    norm_num [Graph.centStep, Graph.centInit, Graph.centRank, Graph.centContrib,
      Graph.damping, jget, jset, c6xS, c6xNodeA, c6xNodeB, c6xEdge, c6xFix]
  have hxfix : Graph.centStep c6xS c6xFix = c6xFix := by
    norm_num [Graph.centStep, Graph.centRank, Graph.centContrib,
      Graph.damping, jget, jset, c6xS, c6xNodeA, c6xNodeB, c6xEdge, c6xFix]
  have hxcal : Graph.calculateCentrality c6xS = c6xFix := by
    show (Graph.centStep c6xS)^[98 + 2] (Graph.centInit c6xS) = c6xFix
    rw [Function.iterate_add_apply, hx2]
    exact Function.iterate_fixed hxfix 98
  have hy1 : (Graph.centStep c6yS)^[1] (Graph.centInit c6yS) = c6yFix := by
    show Graph.centStep c6yS (Graph.centInit c6yS) = c6yFix
    norm_num [Graph.centStep, Graph.centInit, Graph.centRank, Graph.centContrib,
      Graph.damping, jget, jset, c6yS, c6yNodeA, c6yNodeB, c6yEdgeF, c6yEdgeB, c6yFix]
  have hyfix : Graph.centStep c6yS c6yFix = c6yFix := by
    norm_num [Graph.centStep, Graph.centRank, Graph.centContrib,
      Graph.damping, jget, jset, c6yS, c6yNodeA, c6yNodeB, c6yEdgeF, c6yEdgeB, c6yFix]
  have hycal : Graph.calculateCentrality c6yS = c6yFix := by
    show (Graph.centStep c6yS)^[99 + 1] (Graph.centInit c6yS) = c6yFix
    rw [Function.iterate_add_apply, hy1]
    exact Function.iterate_fixed hyfix 99
  refine ⟨⟨?_, by norm_num⟩, ⟨?_, by norm_num⟩⟩
  · rw [hxcal]
    rfl
  · rw [hycal]
    show (3/40 : ℚ) + (3/40 + 0) = 3/20
    norm_num

theorem jset_append_of_not_mem {κ α : Type} [DecidableEq κ] {m : List (κ × α)} {k : κ}
    (v : α) (h : k ∉ jkeys m) : jset m k v = m ++ [(k, v)] := by
  induction m with
  | nil => rfl
  | cons p rest ih =>
    obtain ⟨k₂, v₂⟩ := p
    rw [jkeys_cons] at h
    have h₁ : k₂ ≠ k := fun hk => h (hk ▸ List.mem_cons_self _ _)
    have h₂ : k ∉ jkeys rest := fun hk => h (List.mem_cons_of_mem _ hk)
    simp [jset, h₁, ih h₂]

theorem jget_of_mem_nodup {κ α : Type} [DecidableEq κ] {m : List (κ × α)} {k : κ} {v : α}
    (hnd : (jkeys m).Nodup) (h : (k, v) ∈ m) : jget m k = some v := by
  induction m with
  | nil => cases h
  | cons p rest ih =>
    obtain ⟨k₂, v₂⟩ := p
    rw [jkeys_cons, List.nodup_cons] at hnd
    rcases List.mem_cons.mp h with h₁ | h₁
    · injection h₁ with h₂ h₃
      subst h₂
      subst h₃
      simp [jget]
    · have hne : k₂ ≠ k := by
        intro he
        subst he
        exact hnd.1 (List.mem_map.mpr ⟨(k₂, v), h₁, rfl⟩)
      simp [jget, hne]
      exact ih hnd.2 h₁

theorem jkeys_map_pair {α : Type} (l : List (Nat × α)) (g : Nat × α → ℚ) :
    jkeys (l.map (fun kv => (kv.1, g kv))) = jkeys l := by
  unfold jkeys
  rw [List.map_map]
  rfl

/-- A left fold of `jset` writes over fresh keys in order: it appends the
per-entry values. -/
theorem foldl_jset_map {α : Type} (f : Nat × α → ℚ) :
    ∀ (l : List (Nat × α)) (acc : List (Nat × ℚ)),
      (jkeys l).Nodup → (∀ k, k ∈ jkeys l → k ∉ jkeys acc) →
      l.foldl (fun acc kv => jset acc kv.1 (f kv)) acc =
        acc ++ l.map (fun kv => (kv.1, f kv)) := by
  intro l
  induction l with
  | nil => intro acc _ _; simp
  | cons kv l ih =>
    intro acc hnd hdis
    rw [List.foldl_cons]
    rw [jkeys_cons, List.nodup_cons] at hnd
    have hk : kv.1 ∉ jkeys acc := hdis kv.1 (by rw [jkeys_cons]; exact List.mem_cons_self _ _)
    have hstep : jset acc kv.1 (f kv) = acc ++ [(kv.1, f kv)] :=
      jset_append_of_not_mem _ hk
    rw [hstep, ih (acc ++ [(kv.1, f kv)]) hnd.2]
    · simp
    · intro k hkl
      have h₁ : k ≠ kv.1 := by
        intro he
        subst he
        exact hnd.1 hkl
      have h₂ : k ∉ jkeys acc := hdis k (by rw [jkeys_cons]; exact List.mem_cons_of_mem _ hkl)
      unfold jkeys
      rw [List.map_append]
      intro hc
      rcases List.mem_append.mp hc with hc | hc
      · exact h₂ hc
      · simp at hc
        exact h₁ hc

/-- Every value a `jset` fold writes is one of the per-entry values. -/
theorem foldl_jset_values {α : Type} (f : Nat × α → ℚ) :
    ∀ (l : List (Nat × α)) (acc : List (Nat × ℚ)) (k : Nat) (q : ℚ),
      jget (l.foldl (fun acc kv => jset acc kv.1 (f kv)) acc) k = some q →
      (∃ kv, kv ∈ l ∧ q = f kv) ∨ jget acc k = some q := by
  intro l
  induction l with
  | nil => intro acc k q h; exact Or.inr h
  | cons kv l ih =>
    intro acc k q h
    rw [List.foldl_cons] at h
    rcases ih _ k q h with ⟨kv₂, hm, he⟩ | h₂
    · exact Or.inl ⟨kv₂, List.mem_cons_of_mem _ hm, he⟩
    · by_cases hk : k = kv.1
      · subst hk
        rw [jget_jset_self] at h₂
        injection h₂ with h₂
        exact Or.inl ⟨kv, List.mem_cons_self _ _, h₂.symm⟩
      · rw [jget_jset_ne _ _ _ _ hk] at h₂
        exact Or.inr h₂

theorem sum_map_add {α : Type} (l : List α) (f g : α → ℚ) :
    (l.map (fun x => f x + g x)).sum = (l.map f).sum + (l.map g).sum := by
  induction l with
  | nil => simp
  | cons x xs ih =>
    simp only [List.map_cons, List.sum_cons, ih]
    ring

theorem sum_map_const {α : Type} (l : List α) (c : ℚ) :
    (l.map (fun _ => c)).sum = (l.length : ℚ) * c := by
  induction l with
  | nil => simp
  | cons x xs ih =>
    simp only [List.map_cons, List.sum_cons, List.length_cons, ih]
    push_cast
    ring

theorem sum_map_mul_left {α : Type} (l : List α) (c : ℚ) (f : α → ℚ) :
    (l.map (fun x => c * f x)).sum = c * (l.map f).sum := by
  induction l with
  | nil => simp
  | cons x xs ih =>
    simp only [List.map_cons, List.sum_cons, ih]
    ring

/-- `centStep` rebuilds the centrality table keyed and ordered like the node
table. -/
theorem centStep_shape (s : Graph.GraphSession) (hnd : (jkeys s.nodes).Nodup)
    (cent : List (Nat × ℚ)) :
    Graph.centStep s cent =
      s.nodes.map (fun kv => (kv.1, Graph.centRank s cent kv.2)) := by
  have h := foldl_jset_map (fun kv : Nat × Graph.GraphNode => Graph.centRank s cent kv.2)
    s.nodes [] hnd (fun k _ hc => by cases hc)
  rw [List.nil_append] at h
  exact h

theorem centInit_shape (s : Graph.GraphSession) (hnd : (jkeys s.nodes).Nodup) :
    Graph.centInit s =
      s.nodes.map (fun kv => (kv.1, 1 / (s.nodes.length : ℚ))) := by
  have h := foldl_jset_map (fun _ : Nat × Graph.GraphNode => 1 / (s.nodes.length : ℚ))
    s.nodes [] hnd (fun k _ hc => by cases hc)
  rw [List.nil_append] at h
  exact h

theorem centContrib_nonneg (s : Graph.GraphSession)
    (hw : ∀ kv ∈ s.edges, 0 ≤ kv.2.weight) (cent : List (Nat × ℚ))
    (hc : ∀ k q, jget cent k = some q → 0 ≤ q) (eid : Nat) :
    0 ≤ Graph.centContrib s cent eid := by
  unfold Graph.centContrib
  cases he : jget s.edges eid with
  | none => dsimp only []; exact le_refl (0 : ℚ)
  | some e =>
    dsimp only []
    cases hn : jget s.nodes e.sourceId with
    | none => dsimp only []; exact le_refl (0 : ℚ)
    | some n =>
      dsimp only []
      have hwe : 0 ≤ e.weight := hw (eid, e) (jget_self_mem he)
      have hr : 0 ≤ (jget cent e.sourceId).getD 0 := by
        cases hq : jget cent e.sourceId with
        | none => exact le_refl 0
        | some q => exact hc _ q hq
      have hd : 0 ≤ (if n.outgoingEdges.length = 0 then (1 : ℚ)
          else (n.outgoingEdges.length : ℚ)) := by
        split
        · norm_num
        · exact Nat.cast_nonneg _
      exact div_nonneg (mul_nonneg (mul_nonneg (by norm_num [Graph.damping]) hwe) hr) hd

theorem centRank_nonneg (s : Graph.GraphSession)
    (hw : ∀ kv ∈ s.edges, 0 ≤ kv.2.weight) (cent : List (Nat × ℚ))
    (hc : ∀ k q, jget cent k = some q → 0 ≤ q) (n : Graph.GraphNode) :
    0 ≤ Graph.centRank s cent n := by
  unfold Graph.centRank
  refine add_nonneg (div_nonneg (by norm_num [Graph.damping]) (Nat.cast_nonneg _)) ?_
  refine List.sum_nonneg ?_
  intro x hx
  obtain ⟨eid, _, he⟩ := List.mem_map.mp hx
  rw [← he]
  exact centContrib_nonneg s hw cent hc eid

theorem centStep_nonneg (s : Graph.GraphSession)
    (hw : ∀ kv ∈ s.edges, 0 ≤ kv.2.weight) (cent : List (Nat × ℚ))
    (hc : ∀ k q, jget cent k = some q → 0 ≤ q) :
    ∀ k q, jget (Graph.centStep s cent) k = some q → 0 ≤ q := by
  intro k q h
  rcases foldl_jset_values (fun kv : Nat × Graph.GraphNode => Graph.centRank s cent kv.2)
    s.nodes [] k q h with ⟨kv, _, he⟩ | h₂
  · rw [he]
    exact centRank_nonneg s hw cent hc kv.2
  · cases h₂

/-- Non-negativity of the returned centrality table under non-negative edge
weights. -/
theorem calculateCentrality_nonneg (s : Graph.GraphSession)
    (hw : ∀ kv ∈ s.edges, 0 ≤ kv.2.weight) :
    ∀ k q, jget (Graph.calculateCentrality s) k = some q → 0 ≤ q := by
  have hinit : ∀ k q, jget (Graph.centInit s) k = some q → 0 ≤ q := by
    intro k q h
    rcases foldl_jset_values (fun _ : Nat × Graph.GraphNode => 1 / (s.nodes.length : ℚ))
      s.nodes [] k q h with ⟨kv, _, he⟩ | h₂
    · rw [he]
      exact div_nonneg (by norm_num) (Nat.cast_nonneg _)
    · cases h₂
  have hiter : ∀ (m : Nat) (cent : List (Nat × ℚ)),
      (∀ k q, jget cent k = some q → 0 ≤ q) →
      ∀ k q, jget ((Graph.centStep s)^[m] cent) k = some q → 0 ≤ q := by
    intro m
    induction m with
    | zero => intro cent hc; exact hc
    | succ m ih =>
      intro cent hc
      rw [Function.iterate_succ_apply]
      exact ih (Graph.centStep s cent) (centStep_nonneg s hw cent hc)
  exact hiter 100 (Graph.centInit s) hinit

/-- The per-node outgoing contributions of a weight-1 graph sum to the
damped rank of the node. -/
theorem contrib_out_sum (s : Graph.GraphSession) (hnd : (jkeys s.nodes).Nodup)
    (cent : List (Nat × ℚ)) (kv : Nat × Graph.GraphNode) (hkv : kv ∈ s.nodes)
    (hne : kv.2.outgoingEdges ≠ [])
    (hptr : ∀ eid ∈ kv.2.outgoingEdges, ∃ e, jget s.edges eid = some e ∧
      e.sourceId = kv.1 ∧ e.weight = 1) :
    (kv.2.outgoingEdges.map (Graph.centContrib s cent)).sum =
      Graph.damping * (jget cent kv.1).getD 0 := by
  have hlen : kv.2.outgoingEdges.length ≠ 0 := by
    intro h
    exact hne (List.length_eq_zero.mp h)
  have hcongr : ∀ eid ∈ kv.2.outgoingEdges,
      Graph.centContrib s cent eid =
        Graph.damping * (jget cent kv.1).getD 0 / (kv.2.outgoingEdges.length : ℚ) := by
    intro eid hm
    obtain ⟨e, he, hsrc, hw1⟩ := hptr eid hm
    unfold Graph.centContrib
    rw [he]
    dsimp only []
    rw [hsrc, jget_of_mem_nodup hnd hkv]
    dsimp only []
    rw [if_neg hlen, hw1]
    ring
  rw [List.map_congr_left hcongr, sum_map_const]
  rw [mul_comm, div_mul_cancel₀]
  exact Nat.cast_ne_zero.mpr hlen

/-- One power iteration maps a total mass `t` to `(1 - damping) + damping·t`
on a well-formed weight-1 graph with no dangling nodes. -/
theorem centStep_sum (s : Graph.GraphSession)
    (hnd : (jkeys s.nodes).Nodup)
    (hlen : 0 < s.nodes.length)
    (hin : ((s.nodes.map (fun kv => kv.2.incomingEdges)).join).Perm (jkeys s.edges))
    (hout : ((s.nodes.map (fun kv => kv.2.outgoingEdges)).join).Perm (jkeys s.edges))
    (hptr : ∀ kv ∈ s.nodes, kv.2.outgoingEdges ≠ [] ∧
      ∀ eid ∈ kv.2.outgoingEdges, ∃ e, jget s.edges eid = some e ∧
        e.sourceId = kv.1 ∧ e.weight = 1)
    (cent : List (Nat × ℚ)) (g : Nat × Graph.GraphNode → ℚ)
    (hcent : cent = s.nodes.map (fun kv => (kv.1, g kv))) :
    ((Graph.centStep s cent).map (·.2)).sum =
      (1 - Graph.damping) + Graph.damping * ((s.nodes.map g).sum) := by
  rw [centStep_shape s hnd cent, List.map_map]
  have hbody : ((fun x : Nat × ℚ => x.2) ∘ fun kv : Nat × Graph.GraphNode =>
      (kv.1, Graph.centRank s cent kv.2)) =
      fun kv : Nat × Graph.GraphNode =>
        (1 - Graph.damping) / (s.nodes.length : ℚ) +
          (kv.2.incomingEdges.map (Graph.centContrib s cent)).sum := rfl
  rw [hbody, sum_map_add, sum_map_const]
  have hlq : (s.nodes.length : ℚ) ≠ 0 := Nat.cast_ne_zero.mpr (by omega)
  have hconst : (s.nodes.length : ℚ) * ((1 - Graph.damping) / (s.nodes.length : ℚ)) =
      1 - Graph.damping := by
    rw [mul_comm, div_mul_cancel₀ _ hlq]
  rw [hconst]
  congr 1
  -- the incoming contributions regroup over the edge table, then over the
  -- outgoing lists
  have hjoin₁ : (s.nodes.map (fun kv =>
      (kv.2.incomingEdges.map (Graph.centContrib s cent)).sum)).sum =
      (((s.nodes.map (fun kv => kv.2.incomingEdges)).join).map
        (Graph.centContrib s cent)).sum := by
    rw [List.map_join, List.sum_join, List.map_map, List.map_map]
    rfl
  have hjoin₂ : (s.nodes.map (fun kv =>
      (kv.2.outgoingEdges.map (Graph.centContrib s cent)).sum)).sum =
      (((s.nodes.map (fun kv => kv.2.outgoingEdges)).join).map
        (Graph.centContrib s cent)).sum := by
    rw [List.map_join, List.sum_join, List.map_map, List.map_map]
    rfl
  have hperm : (((s.nodes.map (fun kv => kv.2.incomingEdges)).join).map
      (Graph.centContrib s cent)).sum =
      (((s.nodes.map (fun kv => kv.2.outgoingEdges)).join).map
        (Graph.centContrib s cent)).sum :=
    List.Perm.sum_eq ((hin.trans hout.symm).map _)
  rw [hjoin₁, hperm, ← hjoin₂]
  have hnode : ∀ kv ∈ s.nodes,
      (kv.2.outgoingEdges.map (Graph.centContrib s cent)).sum =
        Graph.damping * g kv := by
    intro kv hkv
    obtain ⟨hne, hp⟩ := hptr kv hkv
    rw [contrib_out_sum s hnd cent kv hkv hne hp]
    have hg : jget cent kv.1 = some (g kv) := by
      rw [hcent]
      refine jget_of_mem_nodup ?_ (List.mem_map.mpr ⟨kv, hkv, rfl⟩)
      rw [jkeys_map_pair]
      exact hnd
    rw [hg]
    rfl
  rw [List.map_congr_left hnode, sum_map_mul_left]

/-- On a well-formed weight-1 graph with no dangling nodes the centrality
mass is exactly 1 after the 100 iterations. -/
theorem calculateCentrality_sum (s : Graph.GraphSession)
    (hnd : (jkeys s.nodes).Nodup) (hlen : 0 < s.nodes.length)
    (hin : ((s.nodes.map (fun kv => kv.2.incomingEdges)).join).Perm (jkeys s.edges))
    (hout : ((s.nodes.map (fun kv => kv.2.outgoingEdges)).join).Perm (jkeys s.edges))
    (hptr : ∀ kv ∈ s.nodes, kv.2.outgoingEdges ≠ [] ∧
      ∀ eid ∈ kv.2.outgoingEdges, ∃ e, jget s.edges eid = some e ∧
        e.sourceId = kv.1 ∧ e.weight = 1) :
    ((Graph.calculateCentrality s).map (·.2)).sum = 1 := by
  have hlq : (s.nodes.length : ℚ) ≠ 0 := Nat.cast_ne_zero.mpr (by omega)
  have hiter : ∀ (m : Nat) (g : Nat × Graph.GraphNode → ℚ), (s.nodes.map g).sum = 1 →
      ∃ g₂, (Graph.centStep s)^[m] (s.nodes.map (fun kv => (kv.1, g kv))) =
        s.nodes.map (fun kv => (kv.1, g₂ kv)) ∧ (s.nodes.map g₂).sum = 1 := by
    intro m
    induction m with
    | zero => intro g hg; exact ⟨g, rfl, hg⟩
    | succ m ih =>
      intro g hg
      rw [Function.iterate_succ_apply]
      have hshape₁ := centStep_shape s hnd (s.nodes.map (fun kv => (kv.1, g kv)))
      have hsum := centStep_sum s hnd hlen hin hout hptr
        (s.nodes.map (fun kv => (kv.1, g kv))) g rfl
      rw [hg] at hsum
      have hone : (1 - Graph.damping) + Graph.damping * 1 = 1 := by
        norm_num
      rw [hone] at hsum
      rw [hshape₁] at hsum
      rw [List.map_map] at hsum
      have hsum₁ : (s.nodes.map
          (fun kv => Graph.centRank s (s.nodes.map (fun kv => (kv.1, g kv))) kv.2)).sum
          = 1 := hsum
      obtain ⟨g₂, hit, hs⟩ := ih _ hsum₁
      refine ⟨g₂, ?_, hs⟩
      rw [hshape₁]
      exact hit
  obtain ⟨g, hfin, hsum⟩ := hiter 100 (fun _ => 1 / (s.nodes.length : ℚ)) (by
    rw [sum_map_const, mul_comm, div_mul_cancel₀ _ hlq])
  show (((Graph.centStep s)^[100] (Graph.centInit s)).map (·.2)).sum = 1
  rw [centInit_shape s hnd, hfin, List.map_map]
  exact hsum

/-- Decidable well-formedness for the exact-mass statement: a nonempty node
table with distinct keys, incoming and outgoing edge-id lists that are both
rearrangements of the edge table's keys, and for every node at least one
outgoing edge, each listed outgoing edge being a present weight-1 edge whose
source is that node. -/
def centWFb (s : Graph.GraphSession) : Bool :=
  decide (0 < s.nodes.length) &&
  decide ((jkeys s.nodes).Nodup) &&
  decide (((s.nodes.map (fun kv => kv.2.incomingEdges)).join).Perm (jkeys s.edges)) &&
  decide (((s.nodes.map (fun kv => kv.2.outgoingEdges)).join).Perm (jkeys s.edges)) &&
  s.nodes.all (fun kv => !kv.2.outgoingEdges.isEmpty &&
    kv.2.outgoingEdges.all (fun eid =>
      match jget s.edges eid with
      | some e => e.sourceId == kv.1 && e.weight == 1
      | none => false))

theorem centWFb_spec {s : Graph.GraphSession} (h : centWFb s = true) :
    0 < s.nodes.length ∧ (jkeys s.nodes).Nodup ∧
    ((s.nodes.map (fun kv => kv.2.incomingEdges)).join).Perm (jkeys s.edges) ∧
    ((s.nodes.map (fun kv => kv.2.outgoingEdges)).join).Perm (jkeys s.edges) ∧
    ∀ kv ∈ s.nodes, kv.2.outgoingEdges ≠ [] ∧
      ∀ eid ∈ kv.2.outgoingEdges, ∃ e, jget s.edges eid = some e ∧
        e.sourceId = kv.1 ∧ e.weight = 1 := by
  unfold centWFb at h
  simp only [Bool.and_eq_true, decide_eq_true_eq, List.all_eq_true] at h
  obtain ⟨⟨⟨⟨h₁, h₂⟩, h₃⟩, h₄⟩, h₅⟩ := h
  refine ⟨h₁, h₂, h₃, h₄, ?_⟩
  intro kv hkv
  have h₆ := h₅ kv hkv
  constructor
  · intro hc
    rw [hc] at h₆
    simp at h₆
  · intro eid hm
    have h₈ := h₆.2 eid hm
    revert h₈
    cases he : jget s.edges eid with
    | none => intro h₈; cases h₈
    | some e =>
      intro h₈
      dsimp only [] at h₈
      rw [Bool.and_eq_true, beq_iff_eq, beq_iff_eq] at h₈
      exact ⟨e, rfl, h₈.1, h₈.2⟩

/-- The amended C6 property: centrality values are non-negative whenever all
edge weights are non-negative, and on a well-formed graph with distinct
keys, no dangling nodes, consistent edge lists and all weights equal to 1
the returned values sum to exactly 1. -/
def C6Prop (s : Graph.GraphSession) : Prop :=
  ((∀ kv ∈ s.edges, 0 ≤ kv.2.weight) →
    ∀ k q, jget (Graph.calculateCentrality s) k = some q → 0 ≤ q) ∧
  (centWFb s = true → ((Graph.calculateCentrality s).map (·.2)).sum = 1)

/-- **C6** (amended): `calculateCentrality` returns non-negative values when
every edge weight is non-negative (the code accepts arbitrary rational
weights, and a negative weight produces a negative centrality, as the
counterexample shows), and the values sum to exactly 1 — not just
approximately — for a nonempty well-formed graph whose edge lists are
consistent, whose nodes all have outgoing edges, and whose weights all equal
1; with other weights the damped redistribution loses or gains mass (on the
counterexample's weight-0 two-cycle the sum is 3/20). -/
theorem C6_centrality (s : Graph.GraphSession) : C6Prop s := by
  constructor
  · exact calculateCentrality_nonneg s
  · intro h
    obtain ⟨h₁, h₂, h₃, h₄, h₅⟩ := centWFb_spec h
    exact calculateCentrality_sum s h₂ h₁ h₃ h₄ h₅

def c6wEdgeF : Graph.GraphEdge :=
  { id := 40, sourceId := 0, targetId := 1, edgeType := .leadsTo, weight := 1 }

def c6wEdgeB : Graph.GraphEdge :=
  { id := 41, sourceId := 1, targetId := 0, edgeType := .leadsTo, weight := 1 }

/-- A connected weight-1 two-cycle with no dangling nodes. -/
def c6wS : Graph.GraphSession :=
  { iteration := 0, nextStepNeeded := true,
    nodes := [(0, c6yNodeA), (1, c6yNodeB)], edges := [(40, c6wEdgeF), (41, c6wEdgeB)],
    entryNodeIds := [0], explorationPath := [], config := {},
    totalNodes := 2, totalEdges := 2,
    nodesByType := [(.hypothesis, 2)],
    edgesByType := [(.leadsTo, 2)], averageDegree := 2, density := 1,
    connectedComponents := 1, ctr := 42 }

/-- Witness: the amended C6 theorem applied to a concrete well-formed
weight-1 two-cycle. -/
theorem C6_centrality_witness : centWFb c6wS = true ∧ C6Prop c6wS :=
  ⟨by decide, C6_centrality c6wS⟩

/-! ## Claim C7: path length vs generation count in the Beam engine -/

/-- The writes one `expandPath` loop iteration performs (new node, new
path, counter bump). -/
def expandWrite (path : Beam.BeamPath) (i : Nat) (s : Beam.BeamSession)
    (rng : List ℚ) : Beam.BeamSession :=
  { s with
    nodes := jset s.nodes s.ctr
      { id := s.ctr,
        content := "Generation " ++ toString s.currentGeneration ++ ", Branch " ++
          toString (i + 1),
        pathIds := [s.ctr + 1],
        generationNumber := s.currentGeneration,
        localScore := (popR rng).1,
        cumulativeScore := some path.currentScore },
    paths := jset s.paths (s.ctr + 1)
      { id := s.ctr + 1, nodeIds := path.nodeIds ++ [s.ctr], currentScore := 0,
        status := Beam.PathStatus.active, scoreHistory := path.scoreHistory ++ [0] },
    ctr := s.ctr + 2 }

theorem expandIter_succ (path : Beam.BeamPath) (i c : Nat) (s : Beam.BeamSession)
    (rng : List ℚ) :
    Beam.expandIter path i (c + 1) s rng =
      (s.ctr :: (Beam.expandIter path (i + 1) c (expandWrite path i s rng) (popR rng).2).1,
       (s.ctr + 1) ::
         (Beam.expandIter path (i + 1) c (expandWrite path i s rng) (popR rng).2).2.1,
       (Beam.expandIter path (i + 1) c (expandWrite path i s rng) (popR rng).2).2.2) := by
  rw [Beam.expandIter]
  rfl

/-- What the `expandPath` loop does to the path table: the counter grows,
old keys are untouched, and every new entry is an active path one node
longer than the expanded path, listed among the returned new path ids. -/
theorem expandIter_c7 (path : Beam.BeamPath) :
    ∀ (c i : Nat) (s : Beam.BeamSession) (rng : List ℚ),
      (∀ pid p, jget s.paths pid = some p → pid < s.ctr) →
      s.ctr ≤ (Beam.expandIter path i c s rng).2.2.1.ctr ∧
      (∀ pid, pid < s.ctr →
        jget (Beam.expandIter path i c s rng).2.2.1.paths pid = jget s.paths pid) ∧
      (∀ pid p, jget (Beam.expandIter path i c s rng).2.2.1.paths pid = some p →
        jget s.paths pid = some p ∨
        (s.ctr ≤ pid ∧ p.status = Beam.PathStatus.active ∧
          p.nodeIds.length = path.nodeIds.length + 1 ∧
          pid ∈ (Beam.expandIter path i c s rng).2.1)) ∧
      (∀ pid p, jget (Beam.expandIter path i c s rng).2.2.1.paths pid = some p →
        pid < (Beam.expandIter path i c s rng).2.2.1.ctr) ∧
      (Beam.expandIter path i c s rng).2.2.1.currentGeneration = s.currentGeneration ∧
      (Beam.expandIter path i c s rng).2.2.1.activePaths = s.activePaths ∧
      (Beam.expandIter path i c s rng).2.2.1.config = s.config ∧
      (0 < c → (Beam.expandIter path i c s rng).2.1 ≠ []) := by
  intro c
  induction c with
  | zero =>
    intro i s rng hkb
    exact ⟨Nat.le_refl _, fun pid _ => rfl, fun pid p h => Or.inl h, hkb,
      rfl, rfl, rfl, fun hc => absurd hc (by omega)⟩
  | succ c ih =>
    intro i s rng hkb
    rw [expandIter_succ]
    dsimp only []
    have hw : ∀ pid p, jget (expandWrite path i s rng).paths pid = some p →
        pid < (expandWrite path i s rng).ctr := by
      intro pid p h
      show pid < s.ctr + 2
      by_cases hp : pid = s.ctr + 1
      · omega
      · rw [show jget (expandWrite path i s rng).paths pid =
            jget (jset s.paths (s.ctr + 1) _) pid from rfl] at h
        rw [jget_jset_ne _ _ _ _ hp] at h
        have := hkb pid p h
        omega
    obtain ⟨ictr, iold, iclass, ikb, igen, iact, icfg, _⟩ :=
      ih (i + 1) (expandWrite path i s rng) (popR rng).2 hw
    have hwctr : (expandWrite path i s rng).ctr = s.ctr + 2 := rfl
    refine ⟨by omega, ?_, ?_, ?_, igen, iact, icfg, fun _ => by simp⟩
    · intro pid hpid
      rw [iold pid (by omega)]
      show jget (jset s.paths (s.ctr + 1) _) pid = jget s.paths pid
      exact jget_jset_ne _ _ _ _ (by omega)
    · intro pid p h
      rcases iclass pid p h with h₁ | ⟨h₁, h₂, h₃, h₄⟩
      · by_cases hp : pid = s.ctr + 1
        · subst hp
          rw [show jget (expandWrite path i s rng).paths (s.ctr + 1) =
              some { id := s.ctr + 1, nodeIds := path.nodeIds ++ [s.ctr],
                     currentScore := 0, status := Beam.PathStatus.active,
                     scoreHistory := path.scoreHistory ++ [0] } from
            jget_jset_self _ _ _] at h₁
          injection h₁ with h₁
          refine Or.inr ⟨by omega, ?_, ?_, List.mem_cons_self _ _⟩
          · rw [← h₁]
          · rw [← h₁]
            simp
        · rw [show jget (expandWrite path i s rng).paths pid =
              jget (jset s.paths (s.ctr + 1) _) pid from rfl,
            jget_jset_ne _ _ _ _ hp] at h₁
          exact Or.inl h₁
      · refine Or.inr ⟨by omega, h₂, h₃, List.mem_cons_of_mem _ h₄⟩
    · intro pid p h
      have := ikb pid p h
      omega

theorem expandPath_eq {pathId : Nat} {s : Beam.BeamSession} {path : Beam.BeamPath}
    (hp : jget s.paths pathId = some path) (rng : List ℚ) :
    Beam.expandPath pathId s rng =
      ((Beam.expandIter path 0 s.config.branchingFactor s rng).1,
       (let s₁ := (Beam.expandIter path 0 s.config.branchingFactor s rng).2.2.1
        let newPaths := (Beam.expandIter path 0 s.config.branchingFactor s rng).2.1
        let s₂ :=
          if newPaths.length > 0 then
            { s₁ with
              paths := jset s₁.paths pathId { path with status := Beam.PathStatus.completed },
              completedPaths := s₁.completedPaths + 1,
              statsActivePaths := s₁.statsActivePaths - 1 }
          else s₁
        { s₂ with activePaths := s₂.activePaths ++ newPaths,
                  totalPaths := s₂.totalPaths + newPaths.length,
                  statsActivePaths := s₂.statsActivePaths + newPaths.length }),
       (Beam.expandIter path 0 s.config.branchingFactor s rng).2.2.2) := by
  unfold Beam.expandPath
  rw [hp]

/-- What one `expandPath` call does: the expanded path is marked completed,
old entries are untouched, the new paths are active extensions by one node
and are appended to the active list. -/
theorem expandPath_c7 {pathId : Nat} {s : Beam.BeamSession} {path : Beam.BeamPath}
    (hp : jget s.paths pathId = some path) (hbf : 0 < s.config.branchingFactor)
    (hkb : ∀ pid p, jget s.paths pid = some p → pid < s.ctr) (rng : List ℚ) :
    s.ctr ≤ (Beam.expandPath pathId s rng).2.1.ctr ∧
    (Beam.expandPath pathId s rng).2.1.currentGeneration = s.currentGeneration ∧
    (Beam.expandPath pathId s rng).2.1.config = s.config ∧
    (∀ pid p₂, jget (Beam.expandPath pathId s rng).2.1.paths pid = some p₂ →
      pid < (Beam.expandPath pathId s rng).2.1.ctr) ∧
    jget (Beam.expandPath pathId s rng).2.1.paths pathId =
      some { path with status := Beam.PathStatus.completed } ∧
    (∀ pid, pid < s.ctr → pid ≠ pathId →
      jget (Beam.expandPath pathId s rng).2.1.paths pid = jget s.paths pid) ∧
    (∀ x ∈ s.activePaths, x ∈ (Beam.expandPath pathId s rng).2.1.activePaths) ∧
    (∀ pid p₂, jget (Beam.expandPath pathId s rng).2.1.paths pid = some p₂ →
      p₂.status = Beam.PathStatus.active → s.ctr ≤ pid →
      p₂.nodeIds.length = path.nodeIds.length + 1 ∧
      pid ∈ (Beam.expandPath pathId s rng).2.1.activePaths) := by
  obtain ⟨ictr, iold, iclass, ikb, igen, iact, icfg, ine⟩ :=
    expandIter_c7 path s.config.branchingFactor 0 s rng hkb
  have hne := ine hbf
  have hlen : 0 < (Beam.expandIter path 0 s.config.branchingFactor s rng).2.1.length :=
    List.length_pos.mpr hne
  rw [expandPath_eq hp rng]
  dsimp only []
  rw [if_pos hlen]
  have hplt : pathId < s.ctr := hkb pathId path hp
  refine ⟨ictr, igen, icfg, ?_, ?_, ?_, ?_, ?_⟩
  · intro pid p₂ h
    by_cases hpe : pid = pathId
    · subst hpe
      show pid < (Beam.expandIter path 0 s.config.branchingFactor s rng).2.2.1.ctr
      omega
    · rw [jget_jset_ne _ _ _ _ hpe] at h
      exact ikb pid p₂ h
  · exact jget_jset_self _ _ _
  · intro pid hpid hpe
    rw [jget_jset_ne _ _ _ _ hpe]
    exact iold pid hpid
  · intro x hx
    rw [iact]
    exact List.mem_append_left _ hx
  · intro pid p₂ h ha hge
    have hpe : pid ≠ pathId := by omega
    rw [jget_jset_ne _ _ _ _ hpe] at h
    rcases iclass pid p₂ h with h₁ | ⟨h₁, h₂, h₃, h₄⟩
    · have := hkb pid p₂ h₁
      omega
    · refine ⟨h₃, ?_⟩
      rw [iact]
      exact List.mem_append_right _ h₄

/-- The invariant of the original C7 claim, stated for a session: every
active path is listed in `activePaths` and its node list length equals the
session's generation counter. -/
def BeamInv (s : Beam.BeamSession) : Prop :=
  ∀ pid p, jget s.paths pid = some p → p.status = Beam.PathStatus.active →
    pid ∈ s.activePaths ∧ p.nodeIds.length = s.currentGeneration

/-- Decidable well-formedness: positive branching factor, and path keys and
active-path ids below the id counter. -/
def beamWFb (s : Beam.BeamSession) : Bool :=
  decide (0 < s.config.branchingFactor) &&
  s.paths.all (fun kv => decide (kv.1 < s.ctr)) &&
  s.activePaths.all (fun id => decide (id < s.ctr))

/-- The state of the `generateNextGeneration` loop with worklist `ws`:
original active paths still to process have length `g`, paths created this
generation are active, listed, and one longer. -/
def GenInv (g ctr₀ : Nat) (ws : List Nat) (st : Beam.BeamSession) : Prop :=
  st.currentGeneration = g + 1 ∧ ctr₀ ≤ st.ctr ∧ 0 < st.config.branchingFactor ∧
  (∀ pid p, jget st.paths pid = some p → pid < st.ctr) ∧
  (∀ id ∈ ws, id < ctr₀) ∧
  (∀ pid p, jget st.paths pid = some p → p.status = Beam.PathStatus.active →
    (pid < ctr₀ → pid ∈ ws ∧ p.nodeIds.length = g) ∧
    (ctr₀ ≤ pid → pid ∈ st.activePaths ∧ p.nodeIds.length = g + 1))

theorem genFold_c7 (g ctr₀ : Nat) :
    ∀ (ws : List Nat) (acc : List Nat × Beam.BeamSession × List ℚ),
      GenInv g ctr₀ ws acc.2.1 →
      GenInv g ctr₀ []
        ((ws.foldl (fun (acc : List Nat × Beam.BeamSession × List ℚ) (pathId : Nat) =>
          let (ns, st, r) := acc
          match jget st.paths pathId with
          | some path =>
            if path.status = Beam.PathStatus.active then
              let (newNodes, st₁, r₁) := Beam.expandPath pathId st r
              (ns ++ newNodes, st₁, r₁)
            else (ns, st, r)
          | none => (ns, st, r)) acc)).2.1 := by
  intro ws
  induction ws with
  | nil =>
    intro acc h
    exact h
  | cons w ws ihw =>
    intro acc h
    rw [List.foldl_cons]
    refine ihw _ ?_
    obtain ⟨hgen, hctr, hbf, hkb, hwb, hact⟩ := h
    dsimp only []
    cases hjw : jget acc.2.1.paths w with
    | none =>
      dsimp only []
      refine ⟨hgen, hctr, hbf, hkb, fun id hid => hwb id (List.mem_cons_of_mem _ hid), ?_⟩
      intro pid p hp ha
      obtain ⟨h₁, h₂⟩ := hact pid p hp ha
      refine ⟨?_, h₂⟩
      intro hlt
      obtain ⟨hm, hl⟩ := h₁ hlt
      rcases List.mem_cons.mp hm with he | hm₂
      · subst he
        rw [hjw] at hp
        cases hp
      · exact ⟨hm₂, hl⟩
    | some pw =>
      dsimp only []
      by_cases hst : pw.status = Beam.PathStatus.active
      · rw [if_pos hst]
        dsimp only []
        have hwlt : w < ctr₀ := hwb w (List.mem_cons_self _ _)
        have hlenw : pw.nodeIds.length = g := ((hact w pw hjw hst).1 hwlt).2
        obtain ⟨ectr, egen, ecfg, ekb, ecompl, eold, eact, enew⟩ :=
          expandPath_c7 hjw hbf hkb acc.2.2
        refine ⟨by rw [egen, hgen], le_trans hctr ectr, by rw [ecfg]; exact hbf, ekb,
          fun id hid => hwb id (List.mem_cons_of_mem _ hid), ?_⟩
        intro pid p hp ha
        constructor
        · intro hlt₀
          by_cases hpw : pid = w
          · subst hpw
            rw [ecompl] at hp
            injection hp with hp
            rw [← hp] at ha
            simp at ha
          · rw [eold pid (by omega) hpw] at hp
            obtain ⟨hm, hl⟩ := (hact pid p hp ha).1 hlt₀
            rcases List.mem_cons.mp hm with he | hm₂
            · exact absurd he hpw
            · exact ⟨hm₂, hl⟩
        · intro hge
          by_cases hlt : pid < acc.2.1.ctr
          · have hpw : pid ≠ w := by omega
            rw [eold pid hlt hpw] at hp
            obtain ⟨hm, hl⟩ := (hact pid p hp ha).2 hge
            exact ⟨eact pid hm, hl⟩
          · obtain ⟨hl, hm⟩ := enew pid p hp ha (by omega)
            refine ⟨hm, ?_⟩
            rw [hl, hlenw]
      · rw [if_neg hst]
        dsimp only []
        refine ⟨hgen, hctr, hbf, hkb, fun id hid => hwb id (List.mem_cons_of_mem _ hid), ?_⟩
        intro pid p hp ha
        obtain ⟨h₁, h₂⟩ := hact pid p hp ha
        refine ⟨?_, h₂⟩
        intro hlt
        obtain ⟨hm, hl⟩ := h₁ hlt
        rcases List.mem_cons.mp hm with he | hm₂
        · subst he
          rw [hjw] at hp
          injection hp with hp
          subst hp
          exact absurd ha hst
        · exact ⟨hm₂, hl⟩

/-- **C7** (amended): the length-equals-generation invariant holds for
`initializeSession` and is preserved by `generateNextGeneration` on
well-formed sessions (positive branching factor, ids below the counter) —
but `importFromSequentialFormat` violates it: importing `n ≥ 1` thoughts
builds an active path with `n` nodes while the generation counter stays 0,
as the counterexample shows. -/
theorem C7_length_generation_invariant :
    (∀ (bw : Nat) (cfg : Beam.BeamConfig), BeamInv (Beam.initializeSession bw cfg)) ∧
    (∀ (s : Beam.BeamSession) (rng : List ℚ), beamWFb s = true → BeamInv s →
      BeamInv (Beam.generateNextGeneration s rng).2.1) := by
  constructor
  · intro bw cfg pid p hp ha
    by_cases h0 : pid = 0
    · subst h0
      have he : jget (Beam.initializeSession bw cfg).paths 0 =
          some { id := 0, nodeIds := [], currentScore := 0,
                 status := Beam.PathStatus.active, scoreHistory := [0] } := rfl
      rw [he] at hp
      injection hp with hp
      subst hp
      exact ⟨List.mem_cons_self _ _, rfl⟩
    · have he : jget (Beam.initializeSession bw cfg).paths pid = none := by
        show jget [(0, _)] pid = none
        unfold jget
        rw [if_neg (fun hc => h0 hc.symm)]
        rfl
      rw [he] at hp
      cases hp
  · intro s rng hwf hinv
    simp only [beamWFb, Bool.and_eq_true, decide_eq_true_eq, List.all_eq_true] at hwf
    obtain ⟨⟨hbf, hkb₀⟩, hab⟩ := hwf
    have hkb : ∀ pid p, jget s.paths pid = some p → pid < s.ctr :=
      fun pid p hp => hkb₀ (pid, p) (jget_self_mem hp)
    have hinit : GenInv s.currentGeneration s.ctr s.activePaths
        { s with currentGeneration := s.currentGeneration + 1 } := by
      refine ⟨rfl, Nat.le_refl _, hbf, hkb, hab, ?_⟩
      intro pid p hp ha
      obtain ⟨hm, hl⟩ := hinv pid p hp ha
      refine ⟨fun _ => ⟨hm, hl⟩, ?_⟩
      intro hge
      have := hkb pid p hp
      omega
    have hfold := genFold_c7 s.currentGeneration s.ctr s.activePaths
      ([], { s with currentGeneration := s.currentGeneration + 1 }, rng) hinit
    obtain ⟨hgen, hctr, _, _, _, hact⟩ := hfold
    intro pid p hp ha
    obtain ⟨h₁, h₂⟩ := hact pid p hp ha
    by_cases hlt : pid < s.ctr
    · obtain ⟨hm, _⟩ := h₁ hlt
      cases hm
    · obtain ⟨hm, hl⟩ := h₂ (by omega)
      exact ⟨hm, hl.trans hgen.symm⟩

def c7Thought : ThoughtData :=
  { thought := "imported step", thoughtNumber := 1, totalThoughts := 1,
    nextThoughtNeeded := false }

/-- **C7** counterexample: importing a single thought yields an active path
holding one node while the session's generation counter is 0, so the
claimed invariant fails on import. -/
theorem C7_length_generation_counterexample :
    ∃ p, jget (Beam.importFromSequentialFormat [c7Thought]).paths 1 = some p ∧
      p.status = Beam.PathStatus.active ∧ p.nodeIds.length = 1 ∧
      (Beam.importFromSequentialFormat [c7Thought]).currentGeneration = 0 ∧
      ¬ BeamInv (Beam.importFromSequentialFormat [c7Thought]) := by
  refine ⟨_, rfl, rfl, rfl, rfl, ?_⟩
  intro h
  have h₁ := (h 1 _ rfl rfl).2
  have h₀ : (Beam.importFromSequentialFormat [c7Thought]).currentGeneration = 0 := rfl
  rw [h₀] at h₁
  cases h₁

/-! ## Claim C4: `backpropagate` updates exactly the leaf-to-root chain -/

/-- Specification-side walk of the parent chain, mirroring the fuel use of
`backpropF`: returns the keys the walk updates and whether the walk ended
on its own (parentless node or missing entry) rather than by fuel. -/
def ancChain (nodes : List (Nat × MCTS.MCTSNode)) : Nat → Option Nat → List Nat × Bool
  | _, none => ([], true)
  | 0, some _ => ([], false)
  | fuel + 1, some k =>
    match jget nodes k with
    | none => ([], true)
    | some n =>
      let r := ancChain nodes fuel n.parentId
      (k :: r.1, r.2)

/-- The ancestor chain of `l` as walked by `backpropagate`. -/
def mctsAncestors (s : MCTS.MCTSSession) (l : Nat) : List Nat :=
  (ancChain s.nodes (s.nodes.length + 1) (some l)).1

/-- The parent chain from `l` terminates within the fuel `backpropagate`
uses (true for every tree-shaped session). -/
def mctsChainClosed (s : MCTS.MCTSSession) (l : Nat) : Prop :=
  (ancChain s.nodes (s.nodes.length + 1) (some l)).2 = true

instance (s : MCTS.MCTSSession) (l : Nat) : Decidable (mctsChainClosed s l) := by
  unfold mctsChainClosed
  infer_instance

theorem ancChain_jset (nodes : List (Nat × MCTS.MCTSNode)) (k₀ : Nat) (x : MCTS.MCTSNode)
    (hk : jget nodes k₀ ≠ none) :
    ∀ (fuel : Nat) (cur : Option Nat), k₀ ∉ (ancChain nodes fuel cur).1 →
      ancChain (jset nodes k₀ x) fuel cur = ancChain nodes fuel cur := by
  intro fuel
  induction fuel with
  | zero =>
    intro cur _
    cases cur <;> rfl
  | succ fuel ih =>
    intro cur hmem
    cases cur with
    | none => rfl
    | some k =>
      unfold ancChain
      cases hj : jget nodes k with
      | none =>
        have hne : k₀ ≠ k := fun he => hk (he ▸ hj)
        rw [jget_jset_ne _ _ _ _ (Ne.symm hne)]
        rw [hj]
      | some n =>
        unfold ancChain at hmem
        rw [hj] at hmem
        simp only [List.mem_cons] at hmem
        push_neg at hmem
        have hne : k₀ ≠ k := hmem.1
        rw [jget_jset_ne _ _ _ _ (Ne.symm hne), hj]
        simp only []
        rw [ih n.parentId hmem.2]

theorem backpropF_spec (v : ℚ) :
    ∀ (fuel : Nat) (cur : Option Nat) (s : MCTS.MCTSSession),
      (ancChain s.nodes fuel cur).2 = true →
      (ancChain s.nodes fuel cur).1.Nodup →
      ∀ k,
        (k ∈ (ancChain s.nodes fuel cur).1 →
          ∃ n, jget s.nodes k = some n ∧
            jget (MCTS.backpropF v fuel cur s).nodes k = some (MCTS.backpropNode v n)) ∧
        (k ∉ (ancChain s.nodes fuel cur).1 →
          jget (MCTS.backpropF v fuel cur s).nodes k = jget s.nodes k) := by
  intro fuel
  induction fuel with
  | zero =>
    intro cur s hterm hnd k
    cases cur with
    | none => exact ⟨fun hm => absurd hm (by simp [ancChain]), fun _ => rfl⟩
    | some kk => exact absurd hterm (by simp [ancChain])
  | succ fuel ih =>
    intro cur s hterm hnd k
    cases cur with
    | none => exact ⟨fun hm => absurd hm (by simp [ancChain]), fun _ => rfl⟩
    | some kk =>
      unfold ancChain at hterm hnd ⊢
      cases hj : jget s.nodes kk with
      | none =>
        dsimp only [] at hterm hnd ⊢
        refine ⟨fun hm => absurd hm (by simp), fun _ => ?_⟩
        unfold MCTS.backpropF
        rw [hj]
      | some n =>
        rw [hj] at hterm hnd
        dsimp only [] at hterm hnd ⊢
        rw [List.nodup_cons] at hnd
        obtain ⟨hkk, hndr⟩ := hnd
        have hstab := ancChain_jset s.nodes kk (MCTS.backpropNode v n)
          (by rw [hj]; exact fun he => Option.noConfusion he) fuel n.parentId hkk
        have hres : MCTS.backpropF v (fuel + 1) (some kk) s =
            MCTS.backpropF v fuel n.parentId
              { s with nodes := jset s.nodes kk (MCTS.backpropNode v n) } := by
          nth_rewrite 1 [MCTS.backpropF]
          rw [hj]
        set s₁ : MCTS.MCTSSession := { s with nodes := jset s.nodes kk (MCTS.backpropNode v n) } with hs₁
        have hchain₁ : ancChain s₁.nodes fuel n.parentId = ancChain s.nodes fuel n.parentId := hstab
        have hih := ih n.parentId s₁ (by rw [hchain₁]; exact hterm) (by rw [hchain₁]; exact hndr)
        constructor
        · intro hm
          rcases List.mem_cons.mp hm with he | hr
          · subst he
            refine ⟨n, hj, ?_⟩
            rw [hres]
            have := (hih k).2 (by rw [hchain₁]; exact hkk)
            rw [this, hs₁]
            simp only []
            exact jget_jset_self _ _ _
          · have hkne : k ≠ kk := fun he => hkk (he ▸ hr)
            have := (hih k).1 (by rw [hchain₁]; exact hr)
            obtain ⟨n₁, hn₁, hn₂⟩ := this
            rw [hs₁] at hn₁
            simp only [] at hn₁
            rw [jget_jset_ne _ _ _ _ hkne] at hn₁
            refine ⟨n₁, hn₁, ?_⟩
            rw [hres]
            exact hn₂
        · intro hm
          simp only [List.mem_cons] at hm
          push_neg at hm
          have := (hih k).2 (by rw [hchain₁]; exact hm.2)
          rw [hres, this, hs₁]
          simp only []
          rw [jget_jset_ne _ _ _ _ hm.1]

/-- C4: for every session whose parent chain from a present node `l`
terminates without cycles (every tree-shaped session), `backpropagate(l, v)`
replaces each node on the chain — `l` and all its ancestors up to the
parentless root — by the same node with visit count increased by exactly 1
and total value increased by exactly `v` (with the average and outcome
buckets recomputed), and leaves every other key of the node table, and the
table's key set, untouched. -/
theorem C4_backpropagate_chain (s : MCTS.MCTSSession) (l : Nat) (v : ℚ)
    (n₀ : MCTS.MCTSNode) (hl : jget s.nodes l = some n₀)
    (hterm : mctsChainClosed s l) (hnd : (mctsAncestors s l).Nodup) :
    l ∈ mctsAncestors s l ∧
    (∀ k, k ∈ mctsAncestors s l →
      ∃ n, jget s.nodes k = some n ∧
        jget (MCTS.backpropagate l v s).nodes k = some
          { n with visits := n.visits + 1,
                   totalValue := n.totalValue + v,
                   averageValue := (n.totalValue + v) / ((n.visits + 1 : Nat) : ℚ),
                   outcomes := some (MCTS.updOutcomes v (n.outcomes.getD (0, 0, 0))) }) ∧
    (∀ k, k ∉ mctsAncestors s l →
      jget (MCTS.backpropagate l v s).nodes k = jget s.nodes k) := by
  have hspec := backpropF_spec v (s.nodes.length + 1) (some l) s hterm hnd
  refine ⟨?_, fun k hm => ?_, fun k hm => ?_⟩
  · unfold mctsAncestors ancChain
    rw [hl]
    exact List.mem_cons_self _ _
  · obtain ⟨n, hn, hres⟩ := (hspec k).1 hm
    exact ⟨n, hn, hres⟩
  · exact (hspec k).2 hm

/-- Witness for C4: a two-node chain session. -/
def c4Child : MCTS.MCTSNode :=
  { id := 1, content := "c", parentId := some 0, childrenIds := [], visits := 0,
    totalValue := 0, averageValue := 0, untriedActions := [], isTerminal := false }

def c4Root : MCTS.MCTSNode :=
  { id := 0, content := "r", childrenIds := [1], visits := 0, totalValue := 0,
    averageValue := 0, untriedActions := [], isTerminal := false }

def c4Session : MCTS.MCTSSession :=
  { iteration := 0, nextStepNeeded := true, rootNodeId := 0,
    nodes := [(0, c4Root), (1, c4Child)],
    explorationConstant := 1, simulationDepth := 10, totalSimulations := 0,
    config := {}, totalNodes := 2, maxDepth := 1, bestActionVisits := 0,
    bestActionValue := 0, ctr := 2 }

theorem C4_backpropagate_chain_witness :
    1 ∈ mctsAncestors c4Session 1 ∧
    (∀ k, k ∈ mctsAncestors c4Session 1 →
      ∃ n, jget c4Session.nodes k = some n ∧
        jget (MCTS.backpropagate 1 1 c4Session).nodes k = some
          { n with visits := n.visits + 1,
                   totalValue := n.totalValue + 1,
                   averageValue := (n.totalValue + 1) / ((n.visits + 1 : Nat) : ℚ),
                   outcomes := some (MCTS.updOutcomes 1 (n.outcomes.getD (0, 0, 0))) }) ∧
    (∀ k, k ∉ mctsAncestors c4Session 1 →
      jget (MCTS.backpropagate 1 1 c4Session).nodes k = jget c4Session.nodes k) :=
  C4_backpropagate_chain c4Session 1 1 c4Child rfl (by decide) (by decide)

/-! ## Claim C9: unvisited nodes get infinite UCB and win child selection -/

theorem calculateUCB_unvisited (sqrtO logO : ℚ → ℚ) (nodeId parentVisits : Nat)
    (s : MCTS.MCTSSession) (n : MCTS.MCTSNode)
    (hn : jget s.nodes nodeId = some n) (hv : n.visits = 0) :
    MCTS.calculateUCB sqrtO logO nodeId parentVisits s = (.inf, s) := by
  unfold MCTS.calculateUCB
  rw [hn]
  simp [hv]

theorem calculateUCB_fin_of_visited (sqrtO logO : ℚ → ℚ) (nodeId parentVisits : Nat)
    (s : MCTS.MCTSSession) (n : MCTS.MCTSNode)
    (hn : jget s.nodes nodeId = some n) (hv : n.visits ≠ 0) :
    ∃ q, (MCTS.calculateUCB sqrtO logO nodeId parentVisits s).1 = .fin q := by
  unfold MCTS.calculateUCB
  rw [hn]
  simp [hv]

theorem calculateUCB_visits_view (sqrtO logO : ℚ → ℚ) (nodeId parentVisits : Nat)
    (s : MCTS.MCTSSession) (k : Nat) :
    ((jget (MCTS.calculateUCB sqrtO logO nodeId parentVisits s).2.nodes k).map (·.visits)) =
    ((jget s.nodes k).map (·.visits)) := by
  unfold MCTS.calculateUCB
  cases hn : jget s.nodes nodeId with
  | none => simp
  | some n =>
    by_cases hv : n.visits = 0
    · simp [hv]
    · simp only [hv, if_neg, ite_false]
      by_cases hk : k = nodeId
      · subst hk
        simp [jget_jset_self, hn]
      · simp [jget_jset_ne _ _ _ _ hk]

/-- The accumulator has locked onto an unvisited node. -/
def selGood (acc : Option MCTS.MCTSNode × JsVal × MCTS.MCTSSession) : Prop :=
  acc.2.1 = JsVal.inf ∧ ∃ b, acc.1 = some b ∧ b.visits = 0

/-- Invariant of the `selectBestChild` fold: an infinite best score always
belongs to an unvisited node, and the fold never changes any node's visit
count relative to the starting session. -/
def selInv (s : MCTS.MCTSSession) (acc : Option MCTS.MCTSNode × JsVal × MCTS.MCTSSession) : Prop :=
  (acc.2.1 = JsVal.inf → ∃ b, acc.1 = some b ∧ b.visits = 0) ∧
  (∀ k, ((jget acc.2.2.nodes k).map (·.visits)) = ((jget s.nodes k).map (·.visits)))

theorem selBestStep_eq_missing (sqrtO logO : ℚ → ℚ) (pv : Nat)
    (best : Option MCTS.MCTSNode) (bestUCB : JsVal) (st : MCTS.MCTSSession) (cid : Nat)
    (hj : jget st.nodes cid = none) :
    MCTS.selBestStep sqrtO logO pv (best, bestUCB, st) cid = (best, bestUCB, st) := by
  unfold MCTS.selBestStep
  simp [hj]

theorem selBestStep_eq_found (sqrtO logO : ℚ → ℚ) (pv : Nat)
    (best : Option MCTS.MCTSNode) (bestUCB : JsVal) (st : MCTS.MCTSSession) (cid : Nat)
    (c : MCTS.MCTSNode) (ucb : JsVal) (st₁ : MCTS.MCTSSession) (c₁ : MCTS.MCTSNode)
    (hj : jget st.nodes cid = some c)
    (hU : MCTS.calculateUCB sqrtO logO cid pv st = (ucb, st₁))
    (hc₁ : jget st₁.nodes cid = some c₁) :
    MCTS.selBestStep sqrtO logO pv (best, bestUCB, st) cid =
      (if JsVal.gtJs ucb bestUCB then (some c₁, ucb, st₁) else (best, bestUCB, st₁)) := by
  unfold MCTS.selBestStep
  simp [hj, hU, hc₁]

theorem selBestStep_inv (sqrtO logO : ℚ → ℚ) (pv : Nat) (s : MCTS.MCTSSession)
    (acc : Option MCTS.MCTSNode × JsVal × MCTS.MCTSSession) (cid : Nat)
    (h : selInv s acc) :
    selInv s (MCTS.selBestStep sqrtO logO pv acc cid) ∧
    (selGood acc → selGood (MCTS.selBestStep sqrtO logO pv acc cid)) ∧
    (∀ cn, jget s.nodes cid = some cn → cn.visits = 0 →
      selGood (MCTS.selBestStep sqrtO logO pv acc cid)) := by
  obtain ⟨best, bestUCB, st⟩ := acc
  have hview := h.2
  cases hj : jget st.nodes cid with
  | none =>
    rw [selBestStep_eq_missing sqrtO logO pv best bestUCB st cid hj]
    refine ⟨h, fun hg => hg, fun cn hcn hcv => ?_⟩
    have hvw := hview cid
    rw [hj, hcn] at hvw
    simp at hvw
  | some c =>
    by_cases hv : c.visits = 0
    · have hU := calculateUCB_unvisited sqrtO logO cid pv st c hj hv
      rw [selBestStep_eq_found sqrtO logO pv best bestUCB st cid c JsVal.inf st c hj hU hj]
      cases hbu : bestUCB with
      | inf =>
        have hgood : selGood (best, JsVal.inf, st) := ⟨rfl, h.1 (by rw [hbu])⟩
        have hgt : JsVal.gtJs JsVal.inf JsVal.inf = false := rfl
        rw [if_neg (by rw [hgt]; exact Bool.false_ne_true)]
        subst hbu
        exact ⟨h, fun _ => hgood, fun _ _ _ => hgood⟩
      | ninf =>
        have hgt : JsVal.gtJs JsVal.inf JsVal.ninf = true := rfl
        rw [if_pos hgt]
        exact ⟨⟨fun _ => ⟨c, rfl, hv⟩, hview⟩, fun _ => ⟨rfl, c, rfl, hv⟩,
          fun _ _ _ => ⟨rfl, c, rfl, hv⟩⟩
      | fin p =>
        have hgt : JsVal.gtJs JsVal.inf (JsVal.fin p) = true := rfl
        rw [if_pos hgt]
        exact ⟨⟨fun _ => ⟨c, rfl, hv⟩, hview⟩, fun _ => ⟨rfl, c, rfl, hv⟩,
          fun _ _ _ => ⟨rfl, c, rfl, hv⟩⟩
    · obtain ⟨q, hq⟩ := calculateUCB_fin_of_visited sqrtO logO cid pv st c hj hv
      rcases hU : MCTS.calculateUCB sqrtO logO cid pv st with ⟨ucb, st₁⟩
      rw [hU] at hq
      simp only at hq
      subst hq
      have hview₁ : ∀ k, ((jget st₁.nodes k).map (·.visits)) =
          ((jget s.nodes k).map (·.visits)) := by
        intro k
        have hvv := calculateUCB_visits_view sqrtO logO cid pv st k
        rw [hU] at hvv
        simp only at hvv
        rw [hvv]
        exact hview k
      have hc₁ : ∃ c₁, jget st₁.nodes cid = some c₁ ∧ c₁.visits = c.visits := by
        have h₁ := calculateUCB_visits_view sqrtO logO cid pv st cid
        rw [hU] at h₁
        simp only at h₁
        rw [hj] at h₁
        cases hx : jget st₁.nodes cid with
        | none => rw [hx] at h₁; simp at h₁
        | some c₁ =>
          rw [hx] at h₁
          simp at h₁
          exact ⟨c₁, rfl, h₁⟩
      obtain ⟨c₁, hc₁e, hc₁v⟩ := hc₁
      rw [selBestStep_eq_found sqrtO logO pv best bestUCB st cid c (JsVal.fin q) st₁ c₁ hj hU hc₁e]
      have hnotin : ∀ cn, jget s.nodes cid = some cn → cn.visits = 0 → False := by
        intro cn hcn hcv
        have hvw := hview cid
        rw [hj, hcn] at hvw
        simp at hvw
        exact hv (hvw ▸ hcv)
      cases hbu : bestUCB with
      | inf =>
        have hgood : selGood (best, JsVal.inf, st) := ⟨rfl, h.1 (by rw [hbu])⟩
        have hgt : JsVal.gtJs (JsVal.fin q) JsVal.inf = false := rfl
        rw [if_neg (by rw [hgt]; exact Bool.false_ne_true)]
        exact ⟨⟨fun _ => hgood.2, hview₁⟩, fun _ => ⟨rfl, hgood.2⟩,
          fun cn hcn hcv => absurd (hnotin cn hcn hcv) not_false⟩
      | ninf =>
        have hgt : JsVal.gtJs (JsVal.fin q) JsVal.ninf = true := rfl
        rw [if_pos hgt]
        exact ⟨⟨fun hf => (by cases hf), hview₁⟩, fun hg => (by cases hg.1),
          fun cn hcn hcv => absurd (hnotin cn hcn hcv) not_false⟩
      | fin p =>
        by_cases hgt : JsVal.gtJs (JsVal.fin q) (JsVal.fin p) = true
        · rw [if_pos hgt]
          exact ⟨⟨fun hf => (by cases hf), hview₁⟩, fun hg => (by cases hg.1),
            fun cn hcn hcv => absurd (hnotin cn hcn hcv) not_false⟩
        · rw [if_neg hgt]
          exact ⟨⟨fun hf => (by cases hf), hview₁⟩, fun hg => (by cases hg.1),
            fun cn hcn hcv => absurd (hnotin cn hcn hcv) not_false⟩

theorem foldl_selBest_good (sqrtO logO : ℚ → ℚ) (pv : Nat) (s : MCTS.MCTSSession)
    (l : List Nat) :
    ∀ acc, selInv s acc →
      (selGood acc ∨ ∃ cid ∈ l, ∃ cn, jget s.nodes cid = some cn ∧ cn.visits = 0) →
      selGood (l.foldl (MCTS.selBestStep sqrtO logO pv) acc) := by
  induction l with
  | nil =>
    intro acc hinv hg
    rcases hg with hg | ⟨cid, hmem, _⟩
    · exact hg
    · simp at hmem
  | cons x xs ih =>
    intro acc hinv hg
    rw [List.foldl_cons]
    have hstep := selBestStep_inv sqrtO logO pv s acc x hinv
    rcases hg with hg | ⟨cid, hmem, cn, hcn, hcv⟩
    · exact ih _ hstep.1 (Or.inl (hstep.2.1 hg))
    · rcases List.mem_cons.mp hmem with hx | hxs
      · subst hx
        exact ih _ hstep.1 (Or.inl (hstep.2.2 cn hcn hcv))
      · exact ih _ hstep.1 (Or.inr ⟨cid, hxs, cn, hcn, hcv⟩)

/-- C9: `calculateUCB` on a node present in the session with zero visits
returns `Infinity` regardless of the configured UCB variant, RAVE setting
and `sqrt`/`log` behaviour (the oracles), before touching the session; and
whenever some listed child of a node is present and unvisited,
`selectBestChild` returns a node with zero visits — an unvisited child is
always chosen over any sibling whose score is finite. -/
theorem C9_unvisited_ucb_selection (sqrtO logO : ℚ → ℚ) (s : MCTS.MCTSSession) :
    (∀ nodeId parentVisits n, jget s.nodes nodeId = some n → n.visits = 0 →
      MCTS.calculateUCB sqrtO logO nodeId parentVisits s = (.inf, s)) ∧
    (∀ node : MCTS.MCTSNode,
      (∃ cid ∈ node.childrenIds, ∃ cn, jget s.nodes cid = some cn ∧ cn.visits = 0) →
      ∃ chosen s₁, MCTS.selectBestChild sqrtO logO node s = (some chosen, s₁) ∧
        chosen.visits = 0) := by
  constructor
  · intro nodeId parentVisits n hn hv
    exact calculateUCB_unvisited sqrtO logO nodeId parentVisits s n hn hv
  · intro node hex
    have hinv : selInv s (none, JsVal.ninf, s) :=
      ⟨fun hf => (by cases hf), fun k => rfl⟩
    have hgood := foldl_selBest_good sqrtO logO node.visits s node.childrenIds
      (none, JsVal.ninf, s) hinv (Or.inr hex)
    obtain ⟨hf, b, hb, hbv⟩ := hgood
    simp only [MCTS.selectBestChild]
    rw [hb]
    exact ⟨b, _, rfl, hbv⟩

/-- Concrete chain session for the C9 witness: a visited root with a
single unvisited child. -/
def c9Child : MCTS.MCTSNode :=
  { id := 1, content := "c", parentId := some 0, childrenIds := [], visits := 0,
    totalValue := 0, averageValue := 0, untriedActions := ["continue"],
    isTerminal := false, action := some "action1", depth := 1 }

def c9Root : MCTS.MCTSNode :=
  { id := 0, content := "r", childrenIds := [1], visits := 3, totalValue := 0,
    averageValue := 0, untriedActions := [], isTerminal := false }

def c9Session : MCTS.MCTSSession :=
  { iteration := 0, nextStepNeeded := true, rootNodeId := 0,
    nodes := [(0, c9Root), (1, c9Child)],
    explorationConstant := 1, simulationDepth := 10, totalSimulations := 0,
    config := {}, totalNodes := 2, maxDepth := 1, bestActionVisits := 0,
    bestActionValue := 0, ctr := 2 }

/-- Witness for C9 at the concrete session (with the identity as both
oracles). -/
theorem C9_unvisited_ucb_selection_witness :
    MCTS.calculateUCB (fun q => q) (fun q => q) 1 3 c9Session = (.inf, c9Session) ∧
    (∃ chosen s₁, MCTS.selectBestChild (fun q => q) (fun q => q) c9Root c9Session =
      (some chosen, s₁) ∧ chosen.visits = 0) :=
  ⟨(C9_unvisited_ucb_selection (fun q => q) (fun q => q) c9Session).1 1 3 c9Child rfl rfl,
   (C9_unvisited_ucb_selection (fun q => q) (fun q => q) c9Session).2 c9Root
     ⟨1, by simp [c9Root], c9Child, rfl, rfl⟩⟩

/-- Witness for C8 at a concrete session holding two identical paths. -/
theorem C8_mergePaths_shared_sequence_witness :
    ∃ s₁, Beam.mergePaths [1, 2] c8Session = .ok (c8Session.ctr, s₁) ∧
      (∃ mp, jget s₁.paths c8Session.ctr = some mp ∧ mp.nodeIds = c8PathA.nodeIds ∧
        mp.status = Beam.PathStatus.active) ∧
      (∃ a₁, jget s₁.paths 1 = some a₁ ∧ a₁.status = Beam.PathStatus.merged) ∧
      (∃ b₁, jget s₁.paths 2 = some b₁ ∧ b₁.status = Beam.PathStatus.merged) :=
  C8_mergePaths_shared_sequence c8Session 1 2 c8PathA c8PathB (by decide) (by decide)
    (by decide) (by decide) (by decide) (by decide)

/-! ## Claim C1: import/export round-trips -/

/-- The node-creation step of the `Beam.importFromSequentialFormat` fold. -/
def beamImportStep (pathId : Nat) (acc : Beam.BeamSession × List Nat)
    (p : Nat × ThoughtData) : Beam.BeamSession × List Nat :=
  let (st, nodeIds) := acc
  let nodeId := st.ctr
  let node : Beam.BeamNode :=
    { id := nodeId, content := p.2.thought, pathIds := [pathId],
      generationNumber := p.1, localScore := 1/2 }
  ({ st with nodes := jset st.nodes nodeId node, ctr := st.ctr + 1 }, nodeIds ++ [nodeId])

theorem beamImportStep_paths (pathId : Nat) (l : List (Nat × ThoughtData)) :
    ∀ acc : Beam.BeamSession × List Nat,
      (l.foldl (beamImportStep pathId) acc).1.paths = acc.1.paths := by
  induction l with
  | nil => intro acc; rfl
  | cons h t ih => intro acc; rw [List.foldl_cons, ih]; rfl

/-- `Beam.importFromSequentialFormat` spelled with the named fold step. -/
theorem beam_import_eq (ts : List ThoughtData) :
    Beam.importFromSequentialFormat ts =
      { (ts.enum.foldl (beamImportStep 1) ({ Beam.initializeSession with ctr := 2 }, [])).1 with
        paths := jset (ts.enum.foldl (beamImportStep 1)
            ({ Beam.initializeSession with ctr := 2 }, [])).1.paths 1
          { id := 1,
            nodeIds := (ts.enum.foldl (beamImportStep 1)
              ({ Beam.initializeSession with ctr := 2 }, [])).2,
            currentScore := 0, status := Beam.PathStatus.active, scoreHistory := [] },
        activePaths := [1] } := rfl

theorem beam_import_paths (ts : List ThoughtData) :
    (Beam.importFromSequentialFormat ts).paths =
      [(0, { id := 0, nodeIds := [], currentScore := 0, status := Beam.PathStatus.active,
             scoreHistory := [0] }),
       (1, { id := 1,
             nodeIds := (ts.enum.foldl (beamImportStep 1)
               ({ Beam.initializeSession with ctr := 2 }, [])).2,
             currentScore := 0, status := Beam.PathStatus.active, scoreHistory := [] })] := by
  rw [beam_import_eq]
  show jset (ts.enum.foldl (beamImportStep 1)
      ({ Beam.initializeSession with ctr := 2 }, [])).1.paths 1 _ = _
  rw [beamImportStep_paths]
  rfl

/-- After a Beam import the initial empty path (score `0`) still wins the
strict-improvement fold of `getBestPath` against the imported path
(also score `0`), so the best path has no nodes. -/
theorem beam_getBestPath_import (ts : List ThoughtData) :
    Beam.getBestPath (Beam.importFromSequentialFormat ts) =
      some { id := 0, nodeIds := [], currentScore := 0, status := Beam.PathStatus.active,
             scoreHistory := [0] } := by
  rw [Beam.getBestPath, beam_import_paths]
  norm_num [List.foldl, JsVal.gtJs]

/-- Part (iv) of the round-trip analysis: the Beam engine always exports
the empty sequence right after an import. -/
theorem beam_export_import (ts : List ThoughtData) :
    Beam.exportToSequentialFormat (Beam.importFromSequentialFormat ts) = [] := by
  rw [Beam.exportToSequentialFormat, beam_getBestPath_import]
  rfl

/-! ### C1, MCTS engine: the imported chain and its export -/

/-- Generic map fact: a key listed in `jkeys` has a binding. -/
theorem mem_jkeys_exists {κ α : Type} [DecidableEq κ] (m : List (κ × α)) (k : κ)
    (h : k ∈ jkeys m) : ∃ v, jget m k = some v := by
  induction m with
  | nil => simp [jkeys] at h
  | cons p rest ih =>
    obtain ⟨k₂, v₂⟩ := p
    by_cases h₂ : k₂ = k
    · exact ⟨v₂, by simp [jget, h₂]⟩
    · rw [jkeys_cons] at h
      rcases List.mem_cons.mp h with h₃ | h₃
      · exact absurd h₃.symm h₂
      · obtain ⟨v, hv⟩ := ih h₃
        exact ⟨v, by simp [jget, h₂, hv]⟩

/-- Keys after update-in-place, append-fresh, update-in-place. -/
theorem jkeys_triple {κ α : Type} [DecidableEq κ] (m : List (κ × α)) (c d : κ)
    (v₁ v₂ v₃ : α) (hc : c ∈ jkeys m) (hd : d ∉ jkeys m) :
    jkeys (jset (jset (jset m c v₁) d v₂) c v₃) = jkeys m ++ [d] := by
  have e₁ : jkeys (jset m c v₁) = jkeys m := jkeys_jset_mem m c v₁ hc
  have e₂ : jkeys (jset (jset m c v₁) d v₂) = jkeys m ++ [d] := by
    rw [jkeys_jset_not_mem, e₁]
    rw [e₁]; exact hd
  rw [jkeys_jset_mem, e₂]
  rw [e₂]; exact List.mem_append_left _ hc

/-- `List.filterMap` only depends on the function's values on the list. -/
theorem filterMap_congr_mem {α β : Type} (f g : α → Option β) :
    ∀ l : List α, (∀ a ∈ l, f a = g a) → l.filterMap f = l.filterMap g := by
  intro l
  induction l with
  | nil => intro _; rfl
  | cons a t ih =>
    intro h
    rw [List.filterMap_cons, List.filterMap_cons, h a (List.mem_cons_self a t),
      ih (fun b hb => h b (List.mem_cons_of_mem a hb))]

/-- `generateActionsForState` filters one value out of five distinct
action names, so it never returns the empty list. -/
theorem generateActions_ne_nil (a : String) : MCTS.generateActionsForState a ≠ [] := by
  by_cases h : a = "continue"
  · subst h; decide
  · have hmem : "continue" ∈ MCTS.generateActionsForState a := by
      rw [MCTS.generateActionsForState]
      apply List.mem_filter.mpr
      exact ⟨List.mem_cons_self _ _, by simp [Ne.symm h]⟩
    exact List.ne_nil_of_mem hmem

/-- A root-to-leaf single-child chain of present nodes: every listed node
but the last has exactly the next id as its only child; the last is
childless. -/
def MChain (s : MCTS.MCTSSession) : Nat → List Nat → Prop
  | _, [] => False
  | k, [k₂] => k = k₂ ∧ ∃ n, jget s.nodes k = some n ∧ n.childrenIds = []
  | k, k₂ :: c :: rest =>
      k = k₂ ∧ (∃ n, jget s.nodes k = some n ∧ n.childrenIds = [c]) ∧
      MChain s c (c :: rest)

theorem MChain_present (s : MCTS.MCTSSession) :
    ∀ (ch : List Nat) (k : Nat), MChain s k ch → ∀ j ∈ ch, ∃ n, jget s.nodes j = some n := by
  intro ch
  induction ch with
  | nil => intro k h; simp only [MChain] at h
  | cons a tail ih =>
    intro k h j hj
    cases tail with
    | nil =>
      simp only [MChain] at h
      obtain ⟨hk, n, hn, -⟩ := h
      rcases List.mem_singleton.mp hj with rfl
      exact ⟨n, hk ▸ hn⟩
    | cons c rest =>
      simp only [MChain] at h
      obtain ⟨hk, ⟨n, hn, -⟩, htail⟩ := h
      rcases List.mem_cons.mp hj with rfl | hj₂
      · exact ⟨n, hk ▸ hn⟩
      · exact ih c htail j hj₂

/-- Replacing the leaf's empty child list by `[newId]` and adding the
fresh childless node `newId` extends a chain by one link. -/
theorem MChain_extend (st St : MCTS.MCTSSession) (cur newId : Nat)
    (hoth : ∀ k, k ≠ cur → k ≠ newId → jget St.nodes k = jget st.nodes k)
    (hcurOld : ∃ n, jget st.nodes cur = some n ∧ n.childrenIds = [])
    (hcurNew : ∃ n, jget St.nodes cur = some n ∧ n.childrenIds = [newId])
    (hnew : ∃ n, jget St.nodes newId = some n ∧ n.childrenIds = [])
    (hfresh : ∀ j n, jget st.nodes j = some n → j ≠ newId) :
    ∀ (ch : List Nat) (r : Nat), MChain st r ch → ch.getLast? = some cur →
      MChain St r (ch ++ [newId]) := by
  intro ch
  induction ch with
  | nil => intro r h _; simp only [MChain] at h
  | cons a tail ih =>
    intro r h hl
    cases tail with
    | nil =>
      simp only [MChain] at h
      obtain ⟨hk, n, hn, hnc⟩ := h
      have ha : a = cur := by
        have h₂ : ([a] : List Nat).getLast? = some a := rfl
        rw [h₂] at hl
        exact Option.some.inj hl
      have hgoal : (r = a) ∧ (∃ n, jget St.nodes r = some n ∧ n.childrenIds = [newId]) ∧
          (newId = newId) ∧ (∃ n, jget St.nodes newId = some n ∧ n.childrenIds = []) := by
        refine ⟨hk, ?_, rfl, hnew⟩
        rw [hk, ha]
        exact hcurNew
      exact hgoal
    | cons c rest =>
      simp only [MChain] at h
      obtain ⟨hk, ⟨n, hn, hnc⟩, htail⟩ := h
      have hna : jget st.nodes a = some n := hk ▸ hn
      have hane : a ≠ cur := by
        intro he
        obtain ⟨n₀, hn₀, hnc₀⟩ := hcurOld
        rw [← he, hna] at hn₀
        rw [Option.some.inj hn₀] at hnc
        rw [hnc₀] at hnc
        exact List.noConfusion hnc
      have hanew : a ≠ newId := hfresh a n hna
      have hl₂ : (c :: rest).getLast? = some cur := by
        rw [List.getLast?_cons_cons] at hl
        exact hl
      simp only [List.cons_append, MChain]
      refine ⟨hk, ⟨n, ?_, hnc⟩, ?_⟩
      · rw [hk, hoth a hane hanew]
        exact hna
      · have hext := ih c htail hl₂
        simpa using hext

/-- The action string picked by `expandNode` for draw `u`. -/
def mctsAction (u : ℚ) (n : MCTS.MCTSNode) : String :=
  n.untriedActions.getD (u * (n.untriedActions.length : ℚ)).floor.toNat ""

/-- `expandNode` on a present node with untried actions: full
characterisation of the updated node table. -/
theorem expandNode_chain (u : ℚ) (cur : Nat) (st : MCTS.MCTSSession) (n : MCTS.MCTSNode)
    (hn : jget st.nodes cur = some n) (hua : n.untriedActions ≠ [])
    (hcne : cur ≠ st.ctr) (hf : st.ctr ∉ jkeys st.nodes) :
    ∃ st₁,
      MCTS.expandNode u cur st = .ok (st.ctr, st₁) ∧
      st₁.ctr = st.ctr + 1 ∧
      st₁.rootNodeId = st.rootNodeId ∧
      (∃ child, jget st₁.nodes st.ctr = some child ∧ child.childrenIds = [] ∧
        child.untriedActions = MCTS.generateActionsForState (mctsAction u n)) ∧
      (∃ n₂, jget st₁.nodes cur = some n₂ ∧
        n₂.childrenIds = n.childrenIds ++ [st.ctr] ∧ n₂.content = n.content) ∧
      (∀ k, k ≠ cur → k ≠ st.ctr → jget st₁.nodes k = jget st.nodes k) ∧
      jkeys st₁.nodes = jkeys st.nodes ++ [st.ctr] := by
  have hmem : cur ∈ jkeys st.nodes := jget_mem_keys _ _ _ hn
  rw [MCTS.expandNode, hn]
  dsimp only []
  rw [if_neg (fun hh : n.untriedActions.length = 0 => hua (List.length_eq_zero.mp hh))]
  rw [jget_jset_ne _ _ _ _ hcne, jget_jset_self]
  dsimp only []
  refine ⟨_, rfl, rfl, rfl,
    ⟨_, (jget_jset_ne _ _ _ _ (Ne.symm hcne)).trans (jget_jset_self _ _ _), rfl, rfl⟩,
    ⟨_, jget_jset_self _ _ _, rfl, rfl⟩, ?_, ?_⟩
  · intro k hk1 hk2
    rw [jget_jset_ne _ _ _ _ hk1, jget_jset_ne _ _ _ _ hk2, jget_jset_ne _ _ _ _ hk1]
  · exact jkeys_triple st.nodes cur st.ctr _ _ _ hmem hf

/-- The export walk follows a single-child chain exactly. -/
theorem getBestPathF_chain (s : MCTS.MCTSSession) :
    ∀ (ch : List Nat) (k : Nat) (fuel : Nat), MChain s k ch → ch.length ≤ fuel →
      MCTS.getBestPathF s fuel (some k) = ch := by
  intro ch
  induction ch with
  | nil => intro k fuel h _; simp only [MChain] at h
  | cons a tail ih =>
    intro k fuel h hlen
    cases fuel with
    | zero => simp at hlen
    | succ f =>
      cases tail with
      | nil =>
        simp only [MChain] at h
        obtain ⟨hk, n, hn, hnc⟩ := h
        subst hk
        rw [MCTS.getBestPathF, hn]
        dsimp only []
        rw [hnc]
        simp
      | cons c rest =>
        simp only [MChain] at h
        obtain ⟨hk, ⟨n, hn, hnc⟩, htail⟩ := h
        subst hk
        obtain ⟨nc, hnc₂⟩ :=
          MChain_present s (c :: rest) c htail c (List.mem_cons_self c rest)
        have hb : MCTS.bestChildByVisits s [c] = some c := by
          rw [MCTS.bestChildByVisits, List.foldl_cons, List.foldl_nil]
          dsimp only []
          rw [hnc₂]
          dsimp only []
          rw [if_pos (by omega : ((nc.visits : Int) > (-1 : Int)))]
        have hlen₂ : (c :: rest).length ≤ f := by
          simp only [List.length_cons] at hlen ⊢
          omega
        rw [MCTS.getBestPathF, hn]
        dsimp only []
        rw [hnc]
        rw [if_neg (by simp : ¬(([c] : List Nat).length = 0)), hb]
        dsimp only []
        rw [ih c f htail hlen₂]

/-- The contents along a chain of node ids. -/
def chainTexts (s : MCTS.MCTSSession) (ch : List Nat) : List String :=
  ch.filterMap (fun k => (jget s.nodes k).map (fun n => n.content))

/-- Invariant of the MCTS import fold: the session is a single chain from
the root to the current node, which is childless with untried actions
left; ids are bounded by the counter and the chain spells the imported
texts. -/
def MInv (st : MCTS.MCTSSession) (cur : Nat) (ch : List Nat) (texts : List String) : Prop :=
  MChain st st.rootNodeId ch ∧
  ch.getLast? = some cur ∧
  (∃ n, jget st.nodes cur = some n ∧ n.untriedActions ≠ [] ∧ n.childrenIds = []) ∧
  (∀ k n, jget st.nodes k = some n → k < st.ctr) ∧
  ch.length ≤ st.nodes.length ∧
  chainTexts st ch = texts

/-- One `expandNode` plus content overwrite preserves the invariant,
appending the fresh id and the new text. -/
theorem mcts_step_inv (st : MCTS.MCTSSession) (cur : Nat) (ch : List Nat)
    (texts : List String) (u : ℚ) (t : String) (hinv : MInv st cur ch texts) :
    ∃ st₁ child,
      MCTS.expandNode u cur st = .ok (st.ctr, st₁) ∧
      jget st₁.nodes st.ctr = some child ∧
      MInv { st₁ with nodes := jset st₁.nodes st.ctr { child with content := t } }
        st.ctr (ch ++ [st.ctr]) (texts ++ [t]) := by
  obtain ⟨hch, hlast, ⟨n, hn, hua, hnc⟩, hkb, hlen, htexts⟩ := hinv
  have hcur : cur < st.ctr := hkb cur n hn
  have hcne : cur ≠ st.ctr := Nat.ne_of_lt hcur
  have hf : st.ctr ∉ jkeys st.nodes := by
    intro hmem
    obtain ⟨v, hv⟩ := mem_jkeys_exists st.nodes st.ctr hmem
    exact absurd (hkb _ _ hv) (lt_irrefl st.ctr)
  obtain ⟨st₁, hE, hctr, hroot, ⟨child, hchild, hcc, hcua⟩,
    ⟨n₂, hn₂, hn₂c, hn₂cont⟩, hoth, hkeys⟩ :=
    expandNode_chain u cur st n hn hua hcne hf
  refine ⟨st₁, child, hE, hchild, ?_⟩
  have hSTc : jget (jset st₁.nodes st.ctr { child with content := t }) st.ctr =
      some { child with content := t } := jget_jset_self _ _ _
  have hSTcur : jget (jset st₁.nodes st.ctr { child with content := t }) cur = some n₂ := by
    rw [jget_jset_ne _ _ _ _ hcne]
    exact hn₂
  have hSToth : ∀ k, k ≠ cur → k ≠ st.ctr →
      jget (jset st₁.nodes st.ctr { child with content := t }) k = jget st.nodes k := by
    intro k h1 h2
    rw [jget_jset_ne _ _ _ _ h2, hoth k h1 h2]
  have hSTkeys : jkeys (jset st₁.nodes st.ctr { child with content := t }) =
      jkeys st.nodes ++ [st.ctr] := by
    rw [jkeys_jset_mem, hkeys]
    rw [hkeys]
    exact List.mem_append_right _ (List.mem_singleton.mpr rfl)
  have hSTlen : (jset st₁.nodes st.ctr { child with content := t }).length =
      st.nodes.length + 1 := by
    calc (jset st₁.nodes st.ctr { child with content := t }).length
        = (jkeys (jset st₁.nodes st.ctr { child with content := t })).length :=
          (jkeys_length _).symm
      _ = (jkeys st.nodes).length + 1 := by
          rw [hSTkeys, List.length_append, List.length_singleton]
      _ = st.nodes.length + 1 := by rw [jkeys_length]
  have hpresfresh : ∀ j nj, jget st.nodes j = some nj → j ≠ st.ctr :=
    fun j nj hj => Nat.ne_of_lt (hkb j nj hj)
  refine ⟨?_, ?_, ?_, ?_, ?_, ?_⟩
  · show MChain _ ({ st₁ with nodes := _ } : MCTS.MCTSSession).rootNodeId (ch ++ [st.ctr])
    have hrooteq : ({ st₁ with nodes := jset st₁.nodes st.ctr { child with content := t } } :
        MCTS.MCTSSession).rootNodeId = st.rootNodeId := hroot
    rw [hrooteq]
    refine MChain_extend st _ cur st.ctr hSToth ⟨n, hn, hnc⟩
      ⟨n₂, hSTcur, ?_⟩ ⟨{ child with content := t }, hSTc, hcc⟩ hpresfresh ch
      st.rootNodeId hch hlast
    rw [hn₂c, hnc]
    rfl
  · rw [List.getLast?_concat]
  · refine ⟨{ child with content := t }, hSTc, ?_, hcc⟩
    show child.untriedActions ≠ []
    rw [hcua]
    exact generateActions_ne_nil _
  · intro k nk hk
    show k < st₁.ctr
    rw [hctr]
    by_cases h1 : k = cur
    · omega
    · by_cases h2 : k = st.ctr
      · omega
      · rw [hSToth k h1 h2] at hk
        have := hkb k nk hk
        omega
  · show (ch ++ [st.ctr]).length ≤ (jset st₁.nodes st.ctr { child with content := t }).length
    rw [hSTlen, List.length_append, List.length_singleton]
    omega
  · show chainTexts _ (ch ++ [st.ctr]) = texts ++ [t]
    rw [chainTexts]
    dsimp only []
    rw [List.filterMap_append]
    have h₁ : ch.filterMap (fun k =>
        (jget (jset st₁.nodes st.ctr { child with content := t }) k).map
          (fun nd => nd.content)) = chainTexts st ch := by
      rw [chainTexts]
      apply filterMap_congr_mem
      intro j hj
      obtain ⟨nj, hnj⟩ := MChain_present st ch st.rootNodeId hch j hj
      by_cases h1 : j = cur
      · subst h1
        rw [hSTcur, hn]
        simp [hn₂cont]
      · rw [hSToth j h1 (hpresfresh j nj hnj)]
    have h₂ : ([st.ctr] : List Nat).filterMap (fun k =>
        (jget (jset st₁.nodes st.ctr { child with content := t }) k).map
          (fun nd => nd.content)) = [t] := by
      simp [List.filterMap_cons, hSTc]
    rw [h₁, htexts, h₂]

/-- The fold step of `MCTS.importFromSequentialFormat`. -/
def mctsImportStep (acc : MCTS.MCTSSession × Nat × List ℚ) (p : Nat × ThoughtData) :
    Except String (MCTS.MCTSSession × Nat × List ℚ) := do
  let (st, currentNodeId, r₀) := acc
  if p.1 = 0 then
    match jget st.nodes currentNodeId with
    | some rootNode =>
      let rootNode₁ := { rootNode with content := p.2.thought }
      pure ({ st with nodes := jset st.nodes currentNodeId rootNode₁ }, currentNodeId, r₀)
    | none => pure acc
  else
    match jget st.nodes currentNodeId with
    | some _ => do
      let (u, r₁) := popR r₀
      let (childId, st₁) ← MCTS.expandNode u currentNodeId st
      match jget st₁.nodes childId with
      | some child =>
        let child₁ := { child with content := p.2.thought }
        pure ({ st₁ with nodes := jset st₁.nodes childId child₁ }, childId, r₁)
      | none => pure (st₁, childId, r₁)
    | none => pure acc

/-- `MCTS.importFromSequentialFormat` spelled with the named fold step. -/
theorem mcts_import_eq (ts : List ThoughtData) (rng : List ℚ) :
    MCTS.importFromSequentialFormat ts rng =
      (do
        let r ← ts.enum.foldlM mctsImportStep
          (MCTS.initializeSession, MCTS.initializeSession.rootNodeId, rng)
        pure (r.1, r.2.2)) := rfl

/-- The invariant survives a whole tail of nonzero-indexed fold steps. -/
theorem mcts_import_fold (l : List (Nat × ThoughtData)) :
    ∀ (st : MCTS.MCTSSession) (cur : Nat) (r : List ℚ) (ch : List Nat) (texts : List String),
      (∀ p ∈ l, p.1 ≠ 0) → MInv st cur ch texts →
      ∃ st' cur' r' ch',
        l.foldlM mctsImportStep (st, cur, r) = Except.ok (st', cur', r') ∧
        MInv st' cur' ch' (texts ++ l.map (fun p => p.2.thought)) := by
  induction l with
  | nil =>
    intro st cur r ch texts _ hinv
    exact ⟨st, cur, r, ch, rfl, by simpa using hinv⟩
  | cons p tail ih =>
    intro st cur r ch texts hnz hinv
    obtain ⟨st₁, child, hE, hchild, hinv₁⟩ :=
      mcts_step_inv st cur ch texts (popR r).1 p.2.thought hinv
    obtain ⟨n, hn, -, -⟩ := hinv.2.2.1
    have hne := hnz p (List.mem_cons_self p tail)
    have hstep : mctsImportStep (st, cur, r) p =
        Except.ok
          ({ st₁ with nodes := jset st₁.nodes st.ctr { child with content := p.2.thought } },
            st.ctr, (popR r).2) := by
      rw [mctsImportStep]
      dsimp only []
      rw [if_neg hne, hn]
      dsimp only []
      rw [hE, except_bind_ok]
      dsimp only []
      rw [hchild]
      rfl
    obtain ⟨st', cur', r', ch', hfold, hinv'⟩ :=
      ih _ st.ctr (popR r).2 (ch ++ [st.ctr]) (texts ++ [p.2.thought])
        (fun q hq => hnz q (List.mem_cons_of_mem p hq)) hinv₁
    refine ⟨st', cur', r', ch', ?_, ?_⟩
    · rw [List.foldlM_cons, hstep, except_bind_ok, hfold]
    · simpa [List.append_assoc] using hinv'

/-- Indices in an `enumFrom` starting at a positive base never vanish. -/
theorem enumFrom_fst_ne_zero {α : Type} :
    ∀ (l : List α) (n : Nat), ∀ p ∈ List.enumFrom (n + 1) l, p.1 ≠ 0 := by
  intro l
  induction l with
  | nil => intro n p hp; cases hp
  | cons a t ih =>
    intro n p hp
    rcases List.mem_cons.mp hp with rfl | hp₂
    · exact Nat.succ_ne_zero n
    · exact ih (n + 1) p hp₂

theorem enumFrom_map_thought :
    ∀ (l : List ThoughtData) (n : Nat),
      (List.enumFrom n l).map (fun p => p.2.thought) = l.map (fun td => td.thought) := by
  intro l
  induction l with
  | nil => intro n; rfl
  | cons a t ih =>
    intro n
    rw [show List.enumFrom n (a :: t) = (n, a) :: List.enumFrom (n + 1) t from rfl]
    rw [List.map_cons, List.map_cons, ih (n + 1)]

/-- Projecting `thought` out of the MCTS export recovers the chain
contents. -/
theorem mcts_export_filterMap (s : MCTS.MCTSSession) (tt : Nat) :
    ∀ (l : List Nat) (i : Nat),
      ((List.enumFrom i l).filterMap (fun p =>
        match jget s.nodes p.2 with
        | some node => some
            ({ thought := node.content, thoughtNumber := p.1 + 1,
               totalThoughts := tt,
               nextThoughtNeeded := decide (p.1 < tt - 1) } : ThoughtData)
        | none => none)).map (fun td => td.thought) =
      l.filterMap (fun k => (jget s.nodes k).map (fun n => n.content)) := by
  intro l
  induction l with
  | nil => intro i; rfl
  | cons k t ih =>
    intro i
    rw [show List.enumFrom i (k :: t) = (i, k) :: List.enumFrom (i + 1) t from rfl]
    rw [List.filterMap_cons, List.filterMap_cons]
    dsimp only []
    cases hk : jget s.nodes k with
    | none =>
      dsimp only []
      exact ih (i + 1)
    | some node =>
      dsimp only []
      rw [List.map_cons, ih (i + 1)]
      rfl

/-- Exporting a chain session lists the chain contents. -/
theorem mcts_export_of_chain (s : MCTS.MCTSSession) (ch : List Nat)
    (hch : MChain s s.rootNodeId ch) (hlen : ch.length ≤ s.nodes.length) :
    (MCTS.exportToSequentialFormat s).map (fun td => td.thought) = chainTexts s ch := by
  have hbp : MCTS.getBestPath s = ch := by
    rw [MCTS.getBestPath]
    exact getBestPathF_chain s ch s.rootNodeId (s.nodes.length + 1) hch (by omega)
  rw [MCTS.exportToSequentialFormat]
  rw [hbp]
  exact mcts_export_filterMap s ch.length ch 0

/-- The root node after the first import step overwrote its content. -/
def mctsRootNode (t₀ : ThoughtData) : MCTS.MCTSNode :=
  { id := 0, content := t₀.thought, childrenIds := [], visits := 0,
    totalValue := 0, averageValue := 0,
    untriedActions := MCTS.generateInitialActions, isTerminal := false, depth := 0 }

/-- The session after the first import step: the initial session with the
root content overwritten. -/
def mctsRootSession (t₀ : ThoughtData) : MCTS.MCTSSession :=
  { MCTS.initializeSession with nodes := [(0, mctsRootNode t₀)] }

/-- (i) of the round-trip analysis: for a non-empty sequence and any
randomness stream, the MCTS import succeeds and the export walks
the imported chain, reproducing every text in order. -/
theorem mcts_roundtrip (ts : List ThoughtData) (rng : List ℚ) (h : ts ≠ []) :
    ∃ s' rng', MCTS.importFromSequentialFormat ts rng = .ok (s', rng') ∧
      (MCTS.exportToSequentialFormat s').map (fun td => td.thought) =
        ts.map (fun td => td.thought) := by
  obtain ⟨t₀, rest, rfl⟩ := List.exists_cons_of_ne_nil h
  rw [mcts_import_eq]
  have h₁ : mctsImportStep (MCTS.initializeSession, MCTS.initializeSession.rootNodeId, rng)
      (0, t₀) = Except.ok (mctsRootSession t₀, 0, rng) := rfl
  have hinv₀ : MInv (mctsRootSession t₀) 0 [0] [t₀.thought] := by
    refine ⟨?_, rfl, ?_, ?_, ?_, rfl⟩
    · exact ⟨rfl, _, rfl, rfl⟩
    · exact ⟨_, rfl, by show MCTS.generateInitialActions ≠ []; decide, rfl⟩
    · intro k nk hk
      show k < 1
      by_cases h0 : (0 : Nat) = k
      · omega
      · rw [show jget (mctsRootSession t₀).nodes k = none from by
          simp [mctsRootSession, jget, h0]] at hk
        cases hk
    · exact le_refl 1
  have hnz : ∀ p ∈ List.enumFrom 1 rest, p.1 ≠ 0 := enumFrom_fst_ne_zero rest 0
  obtain ⟨st', cur', r', ch', hfold, hinv'⟩ :=
    mcts_import_fold (List.enumFrom 1 rest) (mctsRootSession t₀) 0 rng [0]
      [t₀.thought] hnz hinv₀
  obtain ⟨hch', hlast', hcur', hkb', hlen', htexts'⟩ := hinv'
  refine ⟨st', r', ?_, ?_⟩
  · rw [show ((t₀ :: rest).enum : List (Nat × ThoughtData)) =
        (0, t₀) :: List.enumFrom 1 rest from rfl]
    rw [List.foldlM_cons, h₁, except_bind_ok]
    rw [hfold, except_bind_ok]
    rfl
  · rw [mcts_export_of_chain st' ch' hch' hlen', htexts', enumFrom_map_thought]
    rfl

/-! ### C1, Tree engine: the imported chain and its export -/

/-- A root-to-leaf parent/child chain of present nodes: each node points
back to the previous one, lists exactly the next as its only child, and
the final node is a childless active leaf. -/
def ChainT (st : Tree.TreeSession) : Option Nat → List Nat → Prop
  | _, [] => False
  | par, [k] => ∃ n, jget st.nodes k = some n ∧ n.parentId = par ∧
      n.childrenIds = [] ∧ n.status = Tree.TreeStatus.active
  | par, k :: c :: rest => (∃ n, jget st.nodes k = some n ∧ n.parentId = par ∧
      n.childrenIds = [c]) ∧ ChainT st (some k) (c :: rest)

theorem ChainT_present (st : Tree.TreeSession) :
    ∀ (ch : List Nat) (par : Option Nat), ChainT st par ch →
      ∀ j ∈ ch, ∃ n, jget st.nodes j = some n := by
  intro ch
  induction ch with
  | nil => intro par h; simp only [ChainT] at h
  | cons a tail ih =>
    intro par h j hj
    cases tail with
    | nil =>
      simp only [ChainT] at h
      obtain ⟨n, hn, -⟩ := h
      rcases List.mem_singleton.mp hj with rfl
      exact ⟨n, hn⟩
    | cons c rest =>
      simp only [ChainT] at h
      obtain ⟨⟨n, hn, -⟩, htail⟩ := h
      rcases List.mem_cons.mp hj with rfl | hj₂
      · exact ⟨n, hn⟩
      · exact ih (some a) htail j hj₂

theorem getPathF_none (st : Tree.TreeSession) :
    ∀ (fuel : Nat) (acc : List Nat), Tree.getPathF st fuel none acc = acc := by
  intro fuel acc
  cases fuel with
  | zero => rfl
  | succ f => rfl

/-- The parent walk of `getPath` climbs a chain from its last node to its
head and continues above the head. -/
theorem getPathF_chain (st : Tree.TreeSession) :
    ∀ (ch : List Nat) (par : Option Nat) (lastId : Nat) (fuel : Nat) (acc : List Nat),
      ChainT st par ch → ch.getLast? = some lastId → ch.length ≤ fuel →
      Tree.getPathF st fuel (some lastId) acc =
        Tree.getPathF st (fuel - ch.length) par (ch ++ acc) := by
  intro ch
  induction ch with
  | nil => intro par lastId fuel acc h _ _; simp only [ChainT] at h
  | cons k tail ih =>
    intro par lastId fuel acc h hl hlen
    cases tail with
    | nil =>
      simp only [ChainT] at h
      obtain ⟨n, hn, hpar, -, -⟩ := h
      have hk : k = lastId := by
        have h₂ : ([k] : List Nat).getLast? = some k := rfl
        rw [h₂] at hl
        exact Option.some.inj hl
      cases fuel with
      | zero => simp at hlen
      | succ f =>
        rw [← hk, Tree.getPathF]
        rw [hn]
        dsimp only []
        rw [hpar]
        have harith : f + 1 - ([k] : List Nat).length = f := by simp
        rw [harith]
        rfl
    | cons c rest =>
      simp only [ChainT] at h
      obtain ⟨⟨n, hn, hpar, hnc⟩, htail⟩ := h
      have hl₂ : (c :: rest).getLast? = some lastId := by
        rw [List.getLast?_cons_cons] at hl; exact hl
      have hlen₂ : (c :: rest).length ≤ fuel := by
        simp only [List.length_cons] at hlen ⊢; omega
      rw [ih (some k) lastId fuel acc htail hl₂ hlen₂]
      obtain ⟨f', hf'⟩ : ∃ m, fuel - (c :: rest).length = m + 1 := by
        refine ⟨fuel - (c :: rest).length - 1, ?_⟩
        simp only [List.length_cons] at hlen ⊢
        omega
      rw [hf', Tree.getPathF]
      rw [hn]
      dsimp only []
      rw [hpar]
      have harith : f' = fuel - (k :: c :: rest).length := by
        simp only [List.length_cons] at hf' hlen ⊢
        omega
      rw [harith]
      rfl

/-- Elements of an in-place `jset` on duplicate-free keys. -/
theorem mem_jset_nodup {κ α : Type} [DecidableEq κ] :
    ∀ (m : List (κ × α)) (k : κ) (v : α), (jkeys m).Nodup → k ∈ jkeys m →
      ∀ kv ∈ jset m k v, (kv ∈ m ∧ kv.1 ≠ k) ∨ kv = (k, v) := by
  intro m
  induction m with
  | nil => intro k v _ hk; simp [jkeys] at hk
  | cons p rest ih =>
    intro k v hnd hk kv hkv
    obtain ⟨k₂, v₂⟩ := p
    rw [jkeys_cons] at hnd hk
    by_cases h₂ : k₂ = k
    · subst h₂
      rw [show jset ((k₂, v₂) :: rest) k₂ v = (k₂, v) :: rest from by simp [jset]] at hkv
      rcases List.mem_cons.mp hkv with he | ht
      · exact Or.inr he
      · left
        refine ⟨List.mem_cons_of_mem _ ht, ?_⟩
        intro heq
        have hks : kv.1 ∈ jkeys rest := List.mem_map.mpr ⟨kv, ht, rfl⟩
        rw [heq] at hks
        exact (List.nodup_cons.mp hnd).1 hks
    · rw [show jset ((k₂, v₂) :: rest) k v = (k₂, v₂) :: jset rest k v from by
        simp [jset, h₂]] at hkv
      rcases List.mem_cons.mp hkv with he | ht
      · left
        refine ⟨by rw [he]; exact List.mem_cons_self _ _, ?_⟩
        rw [he]
        exact h₂
      · have hk₂ : k ∈ jkeys rest := by
          rcases List.mem_cons.mp hk with he₂ | h₃
          · exact absurd he₂.symm h₂
          · exact h₃
        rcases ih k v (List.nodup_cons.mp hnd).2 hk₂ kv ht with ⟨hm, hne⟩ | he
        · exact Or.inl ⟨List.mem_cons_of_mem _ hm, hne⟩
        · exact Or.inr he

/-- Appending a fresh active child under the chain's leaf extends the
chain by one link. -/
theorem ChainT_snoc (st st₁ : Tree.TreeSession) (last newId : Nat)
    (hpres : ∀ k, k ≠ last → k ≠ newId → jget st₁.nodes k = jget st.nodes k)
    (hlastupd : ∀ n, jget st.nodes last = some n → n.childrenIds = [] →
        ∃ n₁, jget st₁.nodes last = some n₁ ∧ n₁.parentId = n.parentId ∧
          n₁.childrenIds = [newId])
    (hlastOld : ∃ n, jget st.nodes last = some n ∧ n.childrenIds = [])
    (hnew : ∃ n, jget st₁.nodes newId = some n ∧ n.parentId = some last ∧
        n.childrenIds = [] ∧ n.status = Tree.TreeStatus.active)
    (hfresh : ∀ j n, jget st.nodes j = some n → j ≠ newId) :
    ∀ (ch : List Nat) (par : Option Nat), ChainT st par ch → ch.getLast? = some last →
      ChainT st₁ par (ch ++ [newId]) := by
  intro ch
  induction ch with
  | nil => intro par h _; simp only [ChainT] at h
  | cons a tail ih =>
    intro par h hl
    cases tail with
    | nil =>
      simp only [ChainT] at h
      obtain ⟨n, hn, hpar, hnc, -⟩ := h
      have ha : a = last := by
        have h₂ : ([a] : List Nat).getLast? = some a := rfl
        rw [h₂] at hl
        exact Option.some.inj hl
      obtain ⟨n₁, hn₁, hp₁, hc₁⟩ := hlastupd n (ha ▸ hn) hnc
      have hgoal : (∃ m, jget st₁.nodes a = some m ∧ m.parentId = par ∧
          m.childrenIds = [newId]) ∧
          (∃ m, jget st₁.nodes newId = some m ∧ m.parentId = some a ∧
            m.childrenIds = [] ∧ m.status = Tree.TreeStatus.active) := by
        constructor
        · refine ⟨n₁, by rw [ha]; exact hn₁, ?_, hc₁⟩
          rw [hp₁, ← hpar]
        · obtain ⟨m, hm, hmp, hmc, hms⟩ := hnew
          exact ⟨m, hm, by rw [hmp, ha], hmc, hms⟩
      exact hgoal
    | cons c rest =>
      simp only [ChainT] at h
      obtain ⟨⟨n, hn, hpar, hnc⟩, htail⟩ := h
      have hane : a ≠ last := by
        intro he
        obtain ⟨n₀, hn₀, hnc₀⟩ := hlastOld
        rw [← he, hn] at hn₀
        rw [← Option.some.inj hn₀] at hnc₀
        rw [hnc] at hnc₀
        exact List.noConfusion hnc₀
      have hanew : a ≠ newId := hfresh a n hn
      have hl₂ : (c :: rest).getLast? = some last := by
        rw [List.getLast?_cons_cons] at hl; exact hl
      have hext := ih (some a) htail hl₂
      have hgoal : (∃ m, jget st₁.nodes a = some m ∧ m.parentId = par ∧
          m.childrenIds = [c]) ∧ ChainT st₁ (some a) ((c :: rest) ++ [newId]) := by
        exact ⟨⟨n, by rw [hpres a hane hanew]; exact hn, hpar, hnc⟩, hext⟩
      exact hgoal

/-- On a list without best-fold candidates the `getBestPath` fold keeps
its accumulator. -/
theorem tree_best_fold_none (s : Tree.TreeSession) :
    ∀ (l : List (Nat × Tree.TreeNode)) (acc : JsVal × Option Nat),
      (∀ kv ∈ l, ¬(kv.2.childrenIds.length = 0 ∧ kv.2.status ≠ Tree.TreeStatus.pruned)) →
      l.foldl (fun (acc : JsVal × Option Nat) kv =>
        if kv.2.childrenIds.length = 0 ∧ kv.2.status ≠ Tree.TreeStatus.pruned then
          let pid := Tree.getPath kv.1 s
          let psc := Tree.pathScore s pid
          if JsVal.gtJs (.fin psc) acc.1 then (.fin psc, some kv.1) else acc
        else acc) acc = acc := by
  intro l
  induction l with
  | nil => intro acc _; rfl
  | cons kv t ih =>
    intro acc h
    rw [List.foldl_cons]
    dsimp only []
    rw [if_neg (h kv (List.mem_cons_self kv t))]
    exact ih acc (fun q hq => h q (List.mem_cons_of_mem kv hq))

/-- With exactly one candidate leaf, the `getBestPath` fold elects it. -/
theorem tree_best_fold (s : Tree.TreeSession) (last : Nat) (lastN : Tree.TreeNode) :
    ∀ l : List (Nat × Tree.TreeNode),
      (∀ kv ∈ l, kv.2.childrenIds.length = 0 ∧ kv.2.status ≠ Tree.TreeStatus.pruned →
        kv = (last, lastN)) →
      (jkeys l).Nodup →
      (last, lastN) ∈ l →
      lastN.childrenIds.length = 0 → lastN.status ≠ Tree.TreeStatus.pruned →
      l.foldl (fun (acc : JsVal × Option Nat) kv =>
        if kv.2.childrenIds.length = 0 ∧ kv.2.status ≠ Tree.TreeStatus.pruned then
          let pid := Tree.getPath kv.1 s
          let psc := Tree.pathScore s pid
          if JsVal.gtJs (.fin psc) acc.1 then (.fin psc, some kv.1) else acc
        else acc) (JsVal.ninf, none) =
      (.fin (Tree.pathScore s (Tree.getPath last s)), some last) := by
  intro l
  induction l with
  | nil => intro _ _ hmem _ _; cases hmem
  | cons kv t ih =>
    intro hP hnd hmem hlc hls
    rw [List.foldl_cons]
    dsimp only []
    by_cases hPkv : kv.2.childrenIds.length = 0 ∧ kv.2.status ≠ Tree.TreeStatus.pruned
    · have hkv : kv = (last, lastN) := hP kv (List.mem_cons_self kv t) hPkv
      subst hkv
      rw [if_pos hPkv]
      simp only [JsVal.gtJs]
      rw [if_pos trivial]
      have hnone : ∀ q ∈ t, ¬(q.2.childrenIds.length = 0 ∧
          q.2.status ≠ Tree.TreeStatus.pruned) := by
        intro q hq hPq
        have hq2 : q = (last, lastN) := hP q (List.mem_cons_of_mem _ hq) hPq
        rw [jkeys_cons] at hnd
        have hks : last ∈ jkeys t := by
          rw [hq2] at hq
          exact List.mem_map.mpr ⟨(last, lastN), hq, rfl⟩
        exact (List.nodup_cons.mp hnd).1 hks
      exact tree_best_fold_none s t _ hnone
    · rw [if_neg hPkv]
      have hmem₂ : (last, lastN) ∈ t := by
        rcases List.mem_cons.mp hmem with he | ht
        · exact absurd (by rw [← he]; exact ⟨hlc, hls⟩) hPkv
        · exact ht
      have hnd₂ : (jkeys t).Nodup := by
        have hnd' : (kv.1 :: jkeys t).Nodup := hnd
        exact (List.nodup_cons.mp hnd').2
      exact ih (fun q hq hPq => hP q (List.mem_cons_of_mem _ hq) hPq) hnd₂ hmem₂ hlc hls

/-- `createNode` under a present shallow leaf with free branching:
characterisation of the new node table. -/
theorem createNode_chain (t : String) (last : Nat) (st : Tree.TreeSession)
    (lastN : Tree.TreeNode) (hlN : jget st.nodes last = some lastN)
    (hdep : lastN.depth < st.config.maxDepth)
    (hbr : lastN.childrenIds.length < st.config.maxBranchingFactor)
    (hcne : last ≠ st.ctr) (hf : st.ctr ∉ jkeys st.nodes) :
    ∃ st₁ nw l₁,
      Tree.createNode t last st = .ok (st.ctr, st₁) ∧
      st₁.ctr = st.ctr + 1 ∧
      st₁.config = st.config ∧
      st₁.bestPathIds = st.bestPathIds ∧
      jget st₁.nodes st.ctr = some nw ∧ nw.content = t ∧
      nw.parentId = some last ∧ nw.childrenIds = ([] : List Nat) ∧
      nw.status = Tree.TreeStatus.active ∧ nw.depth = lastN.depth + 1 ∧
      jget st₁.nodes last = some l₁ ∧ l₁.content = lastN.content ∧
      l₁.parentId = lastN.parentId ∧
      l₁.childrenIds = lastN.childrenIds ++ [st.ctr] ∧
      (∀ k, k ≠ last → k ≠ st.ctr → jget st₁.nodes k = jget st.nodes k) ∧
      jkeys st₁.nodes = jkeys st.nodes ++ [st.ctr] := by
  have hmem : last ∈ jkeys st.nodes := jget_mem_keys _ _ _ hlN
  rw [Tree.createNode, hlN]
  dsimp only []
  rw [if_neg (by omega : ¬lastN.depth ≥ st.config.maxDepth),
    if_neg (by omega : ¬lastN.childrenIds.length ≥ st.config.maxBranchingFactor)]
  refine ⟨_, _, _, rfl, rfl, rfl, rfl,
    (jget_jset_ne _ _ _ _ (Ne.symm hcne)).trans (jget_jset_self _ _ _),
    rfl, rfl, rfl, rfl, rfl, jget_jset_self _ _ _, rfl, rfl, rfl, ?_, ?_⟩
  · intro k h1 h2
    rw [jget_jset_ne _ _ _ _ h1, jget_jset_ne _ _ _ _ h2]
  · have e₁ : jkeys (jset st.nodes st.ctr
        { id := st.ctr, content := t, parentId := some last, childrenIds := [],
          depth := lastN.depth + 1, status := Tree.TreeStatus.active }) =
        jkeys st.nodes ++ [st.ctr] := jkeys_jset_not_mem _ _ _ hf
    rw [jkeys_jset_mem, e₁]
    rw [e₁]
    exact List.mem_append_left _ hmem

/-- The contents along a chain of tree node ids. -/
def treeTexts (st : Tree.TreeSession) (ch : List Nat) : List String :=
  ch.filterMap (fun k => (jget st.nodes k).map (fun n => n.content))

/-- Invariant of the Tree import fold: the session is exactly a chain
from the root, whose only leaf is the last node, with counter-fresh ids
and a clean configuration. -/
def TInv (st : Tree.TreeSession) (last : Nat) (ch : List Nat) (texts : List String) : Prop :=
  ChainT st none ch ∧
  ch.getLast? = some last ∧
  (∃ n, jget st.nodes last = some n ∧ n.childrenIds = [] ∧
    n.status = Tree.TreeStatus.active ∧ n.depth + 1 = ch.length) ∧
  (∀ kv ∈ st.nodes, kv.2.childrenIds.length = 0 → kv.1 = last) ∧
  (∀ k n, jget st.nodes k = some n → k < st.ctr) ∧
  (jkeys st.nodes).Nodup ∧
  ch.length ≤ st.nodes.length ∧
  st.config = {} ∧
  st.bestPathIds = none ∧
  treeTexts st ch = texts

/-- One `createNode` step preserves the tree import invariant. -/
theorem tree_create_inv (st : Tree.TreeSession) (last : Nat) (ch : List Nat)
    (texts : List String) (t : String) (hinv : TInv st last ch texts)
    (hd : ch.length ≤ 10) :
    ∃ st₁, Tree.createNode t last st = .ok (st.ctr, st₁) ∧
      TInv st₁ st.ctr (ch ++ [st.ctr]) (texts ++ [t]) := by
  obtain ⟨hch, hlast, ⟨lastN, hlN, hlc, hlst, hldep⟩, hleaf, hkb, hnd, hlen, hcfg,
    hbp, htexts⟩ := hinv
  have hlt : last < st.ctr := hkb last lastN hlN
  have hcne : last ≠ st.ctr := Nat.ne_of_lt hlt
  have hf : st.ctr ∉ jkeys st.nodes := by
    intro hmem
    obtain ⟨v, hv⟩ := mem_jkeys_exists st.nodes st.ctr hmem
    exact absurd (hkb _ _ hv) (lt_irrefl st.ctr)
  have hdep : lastN.depth < st.config.maxDepth := by
    rw [hcfg]
    show lastN.depth < 10
    omega
  have hbr : lastN.childrenIds.length < st.config.maxBranchingFactor := by
    rw [hcfg, hlc]
    show ([] : List Nat).length < 3
    simp
  obtain ⟨st₁, nw, l₁, hE, hctr, hcfg₁, hbp₁, hnw, hnwc, hnwp, hnwch, hnws, hnwd,
    hl₁, hl₁c, hl₁p, hl₁ch, hoth, hkeys⟩ :=
    createNode_chain t last st lastN hlN hdep hbr hcne hf
  have hnd₁ : (jkeys st₁.nodes).Nodup := by
    rw [hkeys, List.nodup_append]
    refine ⟨hnd, List.nodup_singleton _, ?_⟩
    intro x hx hx'
    rw [List.mem_singleton.mp hx'] at hx
    exact hf hx
  have hlen₁ : st₁.nodes.length = st.nodes.length + 1 := by
    calc st₁.nodes.length = (jkeys st₁.nodes).length := (jkeys_length _).symm
      _ = (jkeys st.nodes).length + 1 := by
          rw [hkeys, List.length_append, List.length_singleton]
      _ = st.nodes.length + 1 := by rw [jkeys_length]
  have hfresh : ∀ j n, jget st.nodes j = some n → j ≠ st.ctr :=
    fun j n hj => Nat.ne_of_lt (hkb j n hj)
  refine ⟨st₁, hE, ?_, ?_, ?_, ?_, ?_, hnd₁, ?_, ?_, ?_, ?_⟩
  · refine ChainT_snoc st st₁ last st.ctr hoth ?_ ⟨lastN, hlN, hlc⟩
      ⟨nw, hnw, hnwp, hnwch, hnws⟩ hfresh ch none hch hlast
    intro n hn hnc
    rw [hlN] at hn
    refine ⟨l₁, hl₁, ?_, ?_⟩
    · rw [hl₁p, Option.some.inj hn]
    · rw [hl₁ch, hlc]
      rfl
  · rw [List.getLast?_concat]
  · refine ⟨nw, hnw, hnwch, hnws, ?_⟩
    rw [hnwd, List.length_append, List.length_singleton]
    omega
  · rintro ⟨kk, kn⟩ hkv hkvc
    show kk = st.ctr
    dsimp only [] at hkvc
    have hjkv : jget st₁.nodes kk = some kn := jget_of_mem_nodup hnd₁ hkv
    by_cases h1 : kk = last
    · exfalso
      rw [h1, hl₁] at hjkv
      rw [← Option.some.inj hjkv, hl₁ch, hlc] at hkvc
      simp at hkvc
    · by_cases h2 : kk = st.ctr
      · exact h2
      · exfalso
        rw [hoth kk h1 h2] at hjkv
        have hold : (kk, kn) ∈ st.nodes := jget_self_mem hjkv
        exact h1 (hleaf (kk, kn) hold hkvc)
  · intro k n hk
    rw [hctr]
    by_cases h1 : k = last
    · omega
    · by_cases h2 : k = st.ctr
      · omega
      · rw [hoth k h1 h2] at hk
        have := hkb k n hk
        omega
  · rw [hlen₁, List.length_append, List.length_singleton]
    omega
  · rw [hcfg₁, hcfg]
  · rw [hbp₁, hbp]
  · rw [treeTexts, List.filterMap_append]
    have h₁ : ch.filterMap (fun k => (jget st₁.nodes k).map (fun n => n.content)) =
        treeTexts st ch := by
      rw [treeTexts]
      apply filterMap_congr_mem
      intro j hj
      obtain ⟨nj, hnj⟩ := ChainT_present st ch none hch j hj
      by_cases h1 : j = last
      · subst h1
        rw [hl₁, hlN]
        simp [hl₁c]
      · rw [hoth j h1 (hfresh j nj hnj)]
    have h₂ : ([st.ctr] : List Nat).filterMap
        (fun k => (jget st₁.nodes k).map (fun n => n.content)) = [t] := by
      simp [List.filterMap_cons, hnw, hnwc]
    rw [h₁, htexts, h₂]

/-- The fold step of `Tree.importFromSequentialFormat`. -/
def treeImportStep (acc : Tree.TreeSession × Nat) (t : ThoughtData) :
    Except String (Tree.TreeSession × Nat) := do
  let (st, parentId) := acc
  let (nid, st₁) ← Tree.createNode t.thought parentId st
  pure (st₁, nid)

/-- `Tree.importFromSequentialFormat` spelled with the named fold step. -/
theorem tree_import_eq (ts : List ThoughtData) :
    Tree.importFromSequentialFormat ts =
      (do
        let r ← ts.foldlM treeImportStep
          (Tree.initializeSession, Tree.initializeSession.rootNodeId)
        pure r.1) := rfl

/-- The invariant survives the whole import fold (within depth budget). -/
theorem tree_import_fold (l : List ThoughtData) :
    ∀ (st : Tree.TreeSession) (last : Nat) (ch : List Nat) (texts : List String),
      TInv st last ch texts → ch.length + l.length ≤ 11 →
      ∃ st' last' ch',
        l.foldlM treeImportStep (st, last) = Except.ok (st', last') ∧
        TInv st' last' ch' (texts ++ l.map (fun td => td.thought)) := by
  induction l with
  | nil =>
    intro st last ch texts hinv _
    exact ⟨st, last, ch, rfl, by simpa using hinv⟩
  | cons t tail ih =>
    intro st last ch texts hinv hb
    have hd : ch.length ≤ 10 := by
      simp only [List.length_cons] at hb
      omega
    obtain ⟨st₁, hE, hinv₁⟩ := tree_create_inv st last ch texts t.thought hinv hd
    have hstep : treeImportStep (st, last) t = Except.ok (st₁, st.ctr) := by
      rw [treeImportStep]
      dsimp only []
      rw [hE, except_bind_ok]
      rfl
    obtain ⟨st', last', ch', hfold, hinv'⟩ :=
      ih st₁ st.ctr (ch ++ [st.ctr]) (texts ++ [t.thought]) hinv₁
        (by simp only [List.length_append, List.length_singleton, List.length_nil,
          List.length_cons] at hb ⊢; omega)
    refine ⟨st', last', ch', ?_, ?_⟩
    · rw [List.foldlM_cons, hstep, except_bind_ok, hfold]
    · simpa [List.append_assoc] using hinv'

/-- Projecting `thought` out of the Tree export recovers the chain
contents. -/
theorem tree_export_filterMap (s : Tree.TreeSession) (tt : Nat) :
    ∀ (l : List Nat) (i : Nat),
      ((List.enumFrom i l).filterMap (fun p =>
        match jget s.nodes p.2 with
        | some node => some
            ({ thought := node.content, thoughtNumber := p.1 + 1,
               totalThoughts := tt,
               nextThoughtNeeded := decide (p.1 < tt - 1) } : ThoughtData)
        | none => none)).map (fun td => td.thought) =
      l.filterMap (fun k => (jget s.nodes k).map (fun n => n.content)) := by
  intro l
  induction l with
  | nil => intro i; rfl
  | cons k t ih =>
    intro i
    rw [show List.enumFrom i (k :: t) = (i, k) :: List.enumFrom (i + 1) t from rfl]
    rw [List.filterMap_cons, List.filterMap_cons]
    dsimp only []
    cases hk : jget s.nodes k with
    | none =>
      dsimp only []
      exact ih (i + 1)
    | some node =>
      dsimp only []
      rw [List.map_cons, ih (i + 1)]
      rfl

/-- Exporting a session satisfying the invariant lists the chain
contents. -/
theorem tree_export_of_inv (st : Tree.TreeSession) (last : Nat) (ch : List Nat)
    (texts : List String) (hinv : TInv st last ch texts) :
    (Tree.exportToSequentialFormat st).map (fun td => td.thought) = texts := by
  obtain ⟨hch, hlast, ⟨lastN, hlN, hlc, hlst, hldep⟩, hleaf, hkb, hnd, hlen, hcfg,
    hbp, htexts⟩ := hinv
  have hpath : Tree.getPath last st = ch := by
    rw [Tree.getPath]
    rw [getPathF_chain st ch none last (st.nodes.length + 1) [] hch hlast (by omega)]
    rw [getPathF_none]
    simp
  have hP : ∀ kv ∈ st.nodes, kv.2.childrenIds.length = 0 ∧
      kv.2.status ≠ Tree.TreeStatus.pruned → kv = (last, lastN) := by
    rintro ⟨kk, kn⟩ hkv ⟨h1, -⟩
    dsimp only [] at h1
    have hk1 : kk = last := hleaf (kk, kn) hkv h1
    subst hk1
    have hjk : jget st.nodes kk = some kn := jget_of_mem_nodup hnd hkv
    rw [hlN] at hjk
    rw [← Option.some.inj hjk]
  have hmem : (last, lastN) ∈ st.nodes := jget_self_mem hlN
  have hlc0 : lastN.childrenIds.length = 0 := by rw [hlc]; rfl
  have hnp : lastN.status ≠ Tree.TreeStatus.pruned := by
    rw [hlst]
    decide
  have hfold := tree_best_fold st last lastN st.nodes hP hnd hmem hlc0 hnp
  have hgb : Tree.getBestPath st = (ch, { st with bestPathIds := some ch }) := by
    rw [Tree.getBestPath]
    rw [hfold]
    dsimp only []
    rw [hpath]
  rw [Tree.exportToSequentialFormat]
  rw [hbp]
  dsimp only []
  rw [hgb]
  dsimp only []
  rw [← htexts]
  exact tree_export_filterMap st ch.length ch 0

/-- (ii) of the round-trip analysis: within the depth budget the
Tree import succeeds and the export prepends the fixed root problem
statement to the imported texts. -/
theorem tree_roundtrip (ts : List ThoughtData) (h : ts.length ≤ 10) :
    ∃ s', Tree.importFromSequentialFormat ts = .ok s' ∧
      (Tree.exportToSequentialFormat s').map (fun td => td.thought) =
        "Root: Problem Statement" :: ts.map (fun td => td.thought) := by
  have hinv₀ : TInv Tree.initializeSession 0 [0] ["Root: Problem Statement"] := by
    refine ⟨?_, rfl, ?_, ?_, ?_, ?_, ?_, rfl, rfl, rfl⟩
    · exact ⟨_, rfl, rfl, rfl, rfl⟩
    · exact ⟨_, rfl, rfl, rfl, rfl⟩
    · rintro ⟨kk, kn⟩ hkv -
      exact congrArg Prod.fst (List.mem_singleton.mp hkv)
    · intro k nk hk
      show k < 1
      by_cases h0 : (0 : Nat) = k
      · omega
      · rw [show jget Tree.initializeSession.nodes k = none from by
          simp [Tree.initializeSession, jget, h0]] at hk
        cases hk
    · decide
    · exact le_refl 1
  obtain ⟨st', last', ch', hfold, hinv'⟩ :=
    tree_import_fold ts Tree.initializeSession Tree.initializeSession.rootNodeId
      [0] ["Root: Problem Statement"] hinv₀ (by simp; omega)
  refine ⟨st', ?_, ?_⟩
  · rw [tree_import_eq, hfold, except_bind_ok]
    rfl
  · rw [tree_export_of_inv st' last' ch' _ hinv']
    rfl

/-! ### C1, Graph engine: the imported chain and its export -/

theorem jkeys_append {κ α : Type} (m m₂ : List (κ × α)) :
    jkeys (m ++ m₂) = jkeys m ++ jkeys m₂ := List.map_append _ _ _

theorem jget_append_left {κ α : Type} [DecidableEq κ] :
    ∀ (m m₂ : List (κ × α)) (k : κ) (v : α),
      jget m k = some v → jget (m ++ m₂) k = some v := by
  intro m
  induction m with
  | nil => intro m₂ k v h; simp [jget] at h
  | cons p rest ih =>
    intro m₂ k v h
    obtain ⟨k₂, v₂⟩ := p
    by_cases h₂ : k₂ = k
    · simp [jget, h₂] at h ⊢
      exact h
    · simp only [jget, if_neg h₂] at h
      simp only [List.cons_append, jget, if_neg h₂]
      exact ih m₂ k v h

theorem jget_append_right {κ α : Type} [DecidableEq κ] :
    ∀ (m m₂ : List (κ × α)) (k : κ), k ∉ jkeys m →
      jget (m ++ m₂) k = jget m₂ k := by
  intro m
  induction m with
  | nil => intro m₂ k _; rfl
  | cons p rest ih =>
    intro m₂ k h
    obtain ⟨k₂, v₂⟩ := p
    rw [jkeys_cons] at h
    have h₁ : k₂ ≠ k := fun hk => h (hk ▸ List.mem_cons_self _ _)
    have h₂ : k ∉ jkeys rest := fun hk => h (List.mem_cons_of_mem _ hk)
    simp only [List.cons_append, jget, if_neg h₁]
    exact ih m₂ k h₂

theorem jset_append_left {κ α : Type} [DecidableEq κ] :
    ∀ (m m₂ : List (κ × α)) (k : κ) (v : α), k ∈ jkeys m →
      jset (m ++ m₂) k v = jset m k v ++ m₂ := by
  intro m
  induction m with
  | nil => intro m₂ k v h; simp [jkeys] at h
  | cons p rest ih =>
    intro m₂ k v h
    obtain ⟨k₂, v₂⟩ := p
    by_cases h₂ : k₂ = k
    · simp [jset, h₂]
    · rw [jkeys_cons] at h
      have h₃ : k ∈ jkeys rest := by
        rcases List.mem_cons.mp h with he | hr
        · exact absurd he.symm h₂
        · exact hr
      simp only [List.cons_append, jset, if_neg h₂]
      exact congrArg _ (ih m₂ k v h₃)

theorem jset_append_fresh {κ α : Type} [DecidableEq κ] :
    ∀ (m : List (κ × α)) (k : κ) (v w : α), k ∉ jkeys m →
      jset (m ++ [(k, w)]) k v = m ++ [(k, v)] := by
  intro m
  induction m with
  | nil => intro k v w _; simp [jset]
  | cons p rest ih =>
    intro k v w h
    obtain ⟨k₂, v₂⟩ := p
    rw [jkeys_cons] at h
    have h₁ : k₂ ≠ k := fun hk => h (hk ▸ List.mem_cons_self _ _)
    have h₂ : k ∉ jkeys rest := fun hk => h (List.mem_cons_of_mem _ hk)
    simp only [List.cons_append, jset, if_neg h₁]
    exact congrArg _ (ih k v w h₂)

/-- Length of an in-place update. -/
theorem jset_length_mem {κ α : Type} [DecidableEq κ] (m : List (κ × α)) (k : κ) (v : α)
    (h : k ∈ jkeys m) : (jset m k v).length = m.length := by
  calc (jset m k v).length = (jkeys (jset m k v)).length := (jkeys_length _).symm
    _ = (jkeys m).length := by rw [jkeys_jset_mem _ _ _ h]
    _ = m.length := jkeys_length _

/-- The linear chain built by the Graph import: hypothesis nodes in list
order, each later one fed by a single edge from its predecessor. -/
def ChainG (st : Graph.GraphSession) :
    Option Nat → List (Nat × Graph.GraphNode) → List String → Prop
  | _, [], [] => True
  | _, [], _ :: _ => False
  | _, _ :: _, [] => False
  | p, (k, n) :: rest, tx :: txs =>
      n.content = tx ∧ n.nodeType = Graph.GraphNodeType.hypothesis ∧
      (match p with
       | none => n.incomingEdges = []
       | some prevId => ∃ eid e, n.incomingEdges = [eid] ∧
           jget st.edges eid = some e ∧ e.sourceId = prevId) ∧
      ChainG st (some k) rest txs

/-- A chain survives any session change that preserves its edge
bindings. -/
theorem ChainG_mono (st st' : Graph.GraphSession)
    (he : ∀ eid e, jget st.edges eid = some e → jget st'.edges eid = some e) :
    ∀ (l : List (Nat × Graph.GraphNode)) (p : Option Nat) (txs : List String),
      ChainG st p l txs → ChainG st' p l txs := by
  intro l
  induction l with
  | nil =>
    intro p txs h
    cases txs with
    | nil => trivial
    | cons tx txs' => simp only [ChainG] at h
  | cons kv rest ih =>
    intro p txs h
    obtain ⟨k, n⟩ := kv
    cases txs with
    | nil => simp only [ChainG] at h
    | cons tx txs' =>
      simp only [ChainG] at h ⊢
      obtain ⟨hc, hty, hinc, htail⟩ := h
      refine ⟨hc, hty, ?_, ih (some k) txs' htail⟩
      cases p with
      | none => exact hinc
      | some prevId =>
        obtain ⟨eid, e, h1, h2, h3⟩ := hinc
        exact ⟨eid, e, h1, he eid e h2, h3⟩

/-- Updating one chain node without touching its content, type or
incoming edges preserves the chain. -/
theorem ChainG_upd (st st' : Graph.GraphSession)
    (he : ∀ eid e, jget st.edges eid = some e → jget st'.edges eid = some e) :
    ∀ (l : List (Nat × Graph.GraphNode)) (p : Option Nat) (txs : List String)
      (prev : Nat) (pn₁ : Graph.GraphNode),
      prev ∈ jkeys l →
      (∀ n, jget l prev = some n → pn₁.content = n.content ∧
        pn₁.nodeType = n.nodeType ∧ pn₁.incomingEdges = n.incomingEdges) →
      ChainG st p l txs → ChainG st' p (jset l prev pn₁) txs := by
  intro l
  induction l with
  | nil => intro p txs prev pn₁ hmem _ _; simp [jkeys] at hmem
  | cons kv rest ih =>
    intro p txs prev pn₁ hmem hpn h
    obtain ⟨k, n⟩ := kv
    cases txs with
    | nil => simp only [ChainG] at h
    | cons tx txs' =>
      simp only [ChainG] at h
      obtain ⟨hc, hty, hinc, htail⟩ := h
      by_cases h₂ : k = prev
      · subst h₂
        rw [show jset ((k, n) :: rest) k pn₁ = (k, pn₁) :: rest from by simp [jset]]
        obtain ⟨e1, e2, e3⟩ := hpn n (by simp [jget])
        refine ⟨e1.trans hc, e2.trans hty, ?_, ChainG_mono st st' he rest (some k) txs' htail⟩
        cases p with
        | none => rw [e3]; exact hinc
        | some prevId =>
          obtain ⟨eid, e, g1, g2, g3⟩ := hinc
          exact ⟨eid, e, e3.trans g1, he eid e g2, g3⟩
      · rw [show jset ((k, n) :: rest) prev pn₁ = (k, n) :: jset rest prev pn₁ from by
          simp [jset, h₂]]
        have hmem₂ : prev ∈ jkeys rest := by
          rw [jkeys_cons] at hmem
          rcases List.mem_cons.mp hmem with he₂ | hr
          · exact absurd he₂.symm h₂
          · exact hr
        have hpn₂ : ∀ m, jget rest prev = some m → pn₁.content = m.content ∧
            pn₁.nodeType = m.nodeType ∧ pn₁.incomingEdges = m.incomingEdges := by
          intro m hm
          exact hpn m (by simp only [jget, if_neg h₂]; exact hm)
        refine ⟨hc, hty, ?_, ih (some k) txs' prev pn₁ hmem₂ hpn₂ htail⟩
        cases p with
        | none => exact hinc
        | some prevId =>
          obtain ⟨eid, e, g1, g2, g3⟩ := hinc
          exact ⟨eid, e, g1, he eid e g2, g3⟩

/-- Appending a fresh node fed by one edge from the chain's last node
extends the chain. -/
theorem ChainG_snoc (st' : Graph.GraphSession) (newId : Nat) (nn : Graph.GraphNode)
    (t : String) (eid : Nat) (e : Graph.GraphEdge)
    (hc : nn.content = t) (hty : nn.nodeType = Graph.GraphNodeType.hypothesis)
    (hin : nn.incomingEdges = [eid]) (he : jget st'.edges eid = some e) :
    ∀ (l : List (Nat × Graph.GraphNode)) (p : Option Nat) (txs : List String),
      ChainG st' p l txs →
      (match (jkeys l).getLast? with
       | some k => e.sourceId = k
       | none => p = some e.sourceId) →
      ChainG st' p (l ++ [(newId, nn)]) (txs ++ [t]) := by
  intro l
  induction l with
  | nil =>
    intro p txs h hsrc
    cases txs with
    | cons tx txs' => simp only [ChainG] at h
    | nil =>
      have hp : p = some e.sourceId := hsrc
      have hgoal : nn.content = t ∧ nn.nodeType = Graph.GraphNodeType.hypothesis ∧
          (∃ eid₂ e₂, nn.incomingEdges = [eid₂] ∧ jget st'.edges eid₂ = some e₂ ∧
            e₂.sourceId = e.sourceId) ∧ True := ⟨hc, hty, ⟨eid, e, hin, he, rfl⟩, trivial⟩
      rw [hp]
      exact hgoal
  | cons kv rest ih =>
    intro p txs h hsrc
    obtain ⟨k, n⟩ := kv
    cases txs with
    | nil => simp only [ChainG] at h
    | cons tx txs' =>
      simp only [ChainG] at h
      obtain ⟨h1, h2, h3, htail⟩ := h
      have hsrc₂ : (match (jkeys rest).getLast? with
          | some k₂ => e.sourceId = k₂
          | none => some k = some e.sourceId) := by
        cases rest with
        | nil =>
          cases hr : (jkeys ([] : List (Nat × Graph.GraphNode))).getLast? with
          | none =>
            have hone : (jkeys ((k, n) :: ([] : List (Nat × Graph.GraphNode)))).getLast? =
                some k := rfl
            rw [hone] at hsrc
            exact congrArg some hsrc.symm
          | some k₂ => cases hr
        | cons kv₂ rest₂ =>
          obtain ⟨k₂, n₂⟩ := kv₂
          have hsame : (jkeys ((k, n) :: (k₂, n₂) :: rest₂)).getLast? =
              (jkeys ((k₂, n₂) :: rest₂)).getLast? := by
            rw [jkeys_cons, jkeys_cons, List.getLast?_cons_cons]
          rw [hsame] at hsrc
          exact hsrc
      have hext := ih (some k) txs' htail hsrc₂
      exact ⟨h1, h2, h3, hext⟩

/-- Visiting an already-visited node is a no-op. -/
theorem visitNode_mem (s : Graph.GraphSession) (st : List Nat × List Graph.GraphNode)
    (k : Nat) (hk : k ∈ st.1) : ∀ f, Graph.visitNode s f st k = st := by
  intro f
  cases f with
  | zero => rw [Graph.visitNode]
  | succ f₁ =>
    rw [Graph.visitNode]
    rw [if_pos hk]

/-- Visiting a fresh chain node whose single incoming source is already
visited appends exactly that node. -/
theorem visitNode_step (s : Graph.GraphSession) (f : Nat) (vis : List Nat)
    (sorted : List Graph.GraphNode) (k : Nat) (n : Graph.GraphNode)
    (hk : k ∉ vis) (hn : jget s.nodes k = some n)
    (hin : n.incomingEdges = [] ∨
      ∃ eid e, n.incomingEdges = [eid] ∧ jget s.edges eid = some e ∧
        e.sourceId ∈ k :: vis) :
    Graph.visitNode s (f + 1) (vis, sorted) k = (k :: vis, sorted ++ [n]) := by
  rw [Graph.visitNode]
  rw [if_neg hk]
  rw [hn]
  dsimp only []
  rcases hin with hnil | ⟨eid, e, hone, he, hsrc⟩
  · rw [hnil, Graph.visitEdges]
  · rw [hone, Graph.visitEdges]
    rw [he]
    dsimp only []
    rw [visitNode_mem s (k :: vis, sorted) e.sourceId hsrc f]
    rw [Graph.visitEdges]

/-- The export fold over the chain tail visits every node in order. -/
theorem gvisit_fold (s : Graph.GraphSession) (f : Nat) :
    ∀ (l : List (Nat × Graph.GraphNode)) (txs : List String) (p : Nat)
      (vis : List Nat) (sorted : List Graph.GraphNode),
      ChainG s (some p) l txs →
      (∀ kv ∈ l, jget s.nodes kv.1 = some kv.2) →
      (∀ kv ∈ l, kv.1 ∉ vis) →
      (jkeys l).Nodup →
      p ∈ vis →
      l.foldl (fun st kv => Graph.visitNode s (f + 1) st kv.1) (vis, sorted) =
        ((jkeys l).reverse ++ vis, sorted ++ l.map Prod.snd) := by
  intro l
  induction l with
  | nil => intro txs p vis sorted _ _ _ _ _; simp [jkeys]
  | cons kv rest ih =>
    intro txs p vis sorted hch hget hnv hnd hp
    obtain ⟨k, n⟩ := kv
    cases txs with
    | nil => simp only [ChainG] at hch
    | cons tx txs' =>
      simp only [ChainG] at hch
      obtain ⟨hc, hty, hinc, htail⟩ := hch
      have hin : n.incomingEdges = [] ∨
          ∃ eid e, n.incomingEdges = [eid] ∧ jget s.edges eid = some e ∧
            e.sourceId ∈ k :: vis := by
        obtain ⟨eid, e, h1, h2, h3⟩ := hinc
        exact Or.inr ⟨eid, e, h1, h2, by rw [h3]; exact List.mem_cons_of_mem _ hp⟩
      rw [List.foldl_cons]
      dsimp only []
      rw [visitNode_step s f vis sorted k n (hnv (k, n) (List.mem_cons_self _ _))
        (hget (k, n) (List.mem_cons_self _ _)) hin]
      rw [jkeys_cons] at hnd
      have hget' : ∀ q ∈ rest, jget s.nodes q.1 = some q.2 :=
        fun q hq => hget q (List.mem_cons_of_mem _ hq)
      have hnv' : ∀ q ∈ rest, q.1 ∉ k :: vis := by
        intro q hq hmem
        rcases List.mem_cons.mp hmem with he | hv
        · have : q.1 ∈ jkeys rest := List.mem_map.mpr ⟨q, hq, rfl⟩
          rw [he] at this
          exact (List.nodup_cons.mp hnd).1 this
        · exact hnv q (List.mem_cons_of_mem _ hq) hv
      rw [ih txs' k (k :: vis) (sorted ++ [n]) htail hget' hnv'
        (List.nodup_cons.mp hnd).2 (List.mem_cons_self _ _)]
      rw [jkeys_cons, List.reverse_cons]
      simp

/-- Projecting `thought` out of the Graph export recovers the tagged
contents. -/
theorem graph_export_map (tt : Nat) :
    ∀ (l : List Graph.GraphNode) (i : Nat),
      ((List.enumFrom i l).map (fun p =>
        ({ thought := "[" ++ Graph.nodeTypeTag p.2.nodeType ++ "] " ++ p.2.content,
           thoughtNumber := p.1 + 1, totalThoughts := tt,
           nextThoughtNeeded := decide (p.1 < tt - 1) } : ThoughtData))).map
        (fun td => td.thought) =
      l.map (fun n => "[" ++ Graph.nodeTypeTag n.nodeType ++ "] " ++ n.content) := by
  intro l
  induction l with
  | nil => intro i; rfl
  | cons n t ih =>
    intro i
    rw [show List.enumFrom i (n :: t) = (i, n) :: List.enumFrom (i + 1) t from rfl]
    rw [List.map_cons, List.map_cons, List.map_cons, ih (i + 1)]

/-- The tagged contents of a chain are the texts prefixed with the
hypothesis tag. -/
theorem ChainG_texts (st : Graph.GraphSession) :
    ∀ (l : List (Nat × Graph.GraphNode)) (p : Option Nat) (txs : List String),
      ChainG st p l txs →
      (l.map Prod.snd).map
        (fun n => "[" ++ Graph.nodeTypeTag n.nodeType ++ "] " ++ n.content) =
        txs.map (fun tx => "[hypothesis] " ++ tx) := by
  intro l
  induction l with
  | nil =>
    intro p txs h
    cases txs with
    | nil => rfl
    | cons tx txs' => simp only [ChainG] at h
  | cons kv rest ih =>
    intro p txs h
    obtain ⟨k, n⟩ := kv
    cases txs with
    | nil => simp only [ChainG] at h
    | cons tx txs' =>
      simp only [ChainG] at h
      obtain ⟨hc, hty, -, htail⟩ := h
      rw [List.map_cons, List.map_cons, List.map_cons, ih (some k) txs' htail]
      simp [hty, hc, Graph.nodeTypeTag]

/-- `updateGraphStats` only touches the two density fields. -/
theorem updateGraphStats_skeleton (s : Graph.GraphSession) :
    (Graph.updateGraphStats s).nodes = s.nodes ∧
    (Graph.updateGraphStats s).edges = s.edges ∧
    (Graph.updateGraphStats s).entryNodeIds = s.entryNodeIds ∧
    (Graph.updateGraphStats s).config = s.config ∧
    (Graph.updateGraphStats s).ctr = s.ctr := by
  rw [Graph.updateGraphStats]
  dsimp only []
  split
  · exact ⟨rfl, rfl, rfl, rfl, rfl⟩
  · exact ⟨rfl, rfl, rfl, rfl, rfl⟩

/-- `addNode` below the node limit: the new node is appended, everything
else but the counters is untouched. -/
theorem addNode_chain (t : String) (ty : Graph.GraphNodeType) (q : ℚ)
    (st : Graph.GraphSession)
    (hmax : ¬(st.config.maxNodes ≠ 0 ∧ st.nodes.length ≥ st.config.maxNodes))
    (hf : st.ctr ∉ jkeys st.nodes)
    (hne : st.entryNodeIds.length ≠ 0) :
    ∃ st₁,
      Graph.addNode t ty q st = .ok (st.ctr, st₁) ∧
      st₁.ctr = st.ctr + 1 ∧
      st₁.entryNodeIds = st.entryNodeIds ∧
      st₁.config = st.config ∧
      st₁.edges = st.edges ∧
      st₁.nodes = st.nodes ++ [(st.ctr,
        { id := st.ctr, content := t, nodeType := ty, strength := q,
          incomingEdges := [], outgoingEdges := [] })] := by
  rw [Graph.addNode]
  dsimp only []
  rw [if_neg hmax, if_neg hne]
  exact ⟨_, rfl, rfl, rfl, rfl, rfl, jset_append_of_not_mem _ hf⟩

/-- `connectNodes` on distinct present nodes with cycles allowed and no
pruning: the edge is appended, the source gains an outgoing reference,
the target an incoming one. -/
theorem connectNodes_chain (prev tgt : Nat) (ty : Graph.GraphEdgeType) (w : ℚ)
    (st : Graph.GraphSession) (pn tn : Graph.GraphNode)
    (hpn : jget st.nodes prev = some pn) (htn : jget st.nodes tgt = some tn)
    (hprevne : prev ≠ tgt)
    (hmaxe : ¬(st.config.maxEdges ≠ 0 ∧ st.edges.length ≥ st.config.maxEdges))
    (hcyc : ¬(st.config.allowCycles = false ∧ Graph.wouldCreateCycle prev tgt st))
    (hfe : st.ctr ∉ jkeys st.edges)
    (hprune : ∀ s₅ : Graph.GraphSession, s₅.config = st.config →
      ¬(s₅.config.autoPruneWeakEdges ∧ s₅.config.edgeWeightThreshold ≠ 0 ∧
        w < s₅.config.edgeWeightThreshold)) :
    ∃ st₂ e,
      Graph.connectNodes prev tgt ty w st = (.ok st.ctr, st₂) ∧
      st₂.ctr = st.ctr + 1 ∧
      st₂.entryNodeIds = st.entryNodeIds ∧
      st₂.config = st.config ∧
      st₂.edges = st.edges ++ [(st.ctr, e)] ∧
      e.sourceId = prev ∧ e.targetId = tgt ∧
      (∃ pn₁ tn₁, st₂.nodes = jset (jset st.nodes prev pn₁) tgt tn₁ ∧
        pn₁.content = pn.content ∧ pn₁.nodeType = pn.nodeType ∧
        pn₁.incomingEdges = pn.incomingEdges ∧
        tn₁.content = tn.content ∧ tn₁.nodeType = tn.nodeType ∧
        tn₁.incomingEdges = tn.incomingEdges ++ [st.ctr]) := by
  rw [Graph.connectNodes, hpn, htn]
  dsimp only []
  rw [if_neg hmaxe, if_neg hcyc]
  rw [jget_jset_ne _ _ _ _ (Ne.symm hprevne), htn]
  dsimp only []
  rw [if_neg]
  · refine ⟨_, ⟨st.ctr, prev, tgt, ty, w⟩, rfl, ?_, ?_, ?_, ?_, rfl, rfl, ?_⟩
    · exact (updateGraphStats_skeleton _).2.2.2.2.trans rfl
    · exact (updateGraphStats_skeleton _).2.2.1.trans rfl
    · exact (updateGraphStats_skeleton _).2.2.2.1.trans rfl
    · rw [(updateGraphStats_skeleton _).2.1]
      exact jset_append_of_not_mem _ hfe
    · refine ⟨{ pn with outgoingEdges := pn.outgoingEdges ++ [st.ctr] },
        { tn with incomingEdges := tn.incomingEdges ++ [st.ctr] },
        ?_, rfl, rfl, rfl, rfl, rfl, rfl⟩
      rw [(updateGraphStats_skeleton _).1]
  · exact hprune _ ((updateGraphStats_skeleton _).2.2.2.1.trans rfl)

/-- Invariant of the Graph import fold: the node table is exactly
the imported chain, entry points at its head, ids are counter-fresh and
the configuration is the default one. -/
def GInv (st : Graph.GraphSession) (prev : Nat) (txs : List String) : Prop :=
  ChainG st none st.nodes txs ∧
  (jkeys st.nodes).getLast? = some prev ∧
  (∃ pn, jget st.nodes prev = some pn) ∧
  (∃ k₀, st.entryNodeIds = [k₀] ∧ (jkeys st.nodes).head? = some k₀) ∧
  (∀ k ∈ jkeys st.nodes, k < st.ctr) ∧
  (∀ k ∈ jkeys st.edges, k < st.ctr) ∧
  (jkeys st.nodes).Nodup ∧
  st.nodes.length = txs.length ∧
  st.edges.length + 1 = txs.length ∧
  st.config = {}

/-- One add-then-connect import step preserves the invariant. -/
theorem graph_step_inv (st : Graph.GraphSession) (prev : Nat) (txs : List String)
    (t : String) (hinv : GInv st prev txs) (hb : txs.length ≤ 99) :
    ∃ st₁ st₂ eid,
      Graph.addNode t .hypothesis (1/2) st = .ok (st.ctr, st₁) ∧
      Graph.connectNodes prev st.ctr .leadsTo (4/5) st₁ = (.ok eid, st₂) ∧
      GInv st₂ st.ctr (txs ++ [t]) := by
  obtain ⟨hch, hlast, ⟨pn, hpn⟩, ⟨k₀, hentry, hhead⟩, hkb, hkbe, hnd, hcnt, hecnt,
    hcfg⟩ := hinv
  have hf : st.ctr ∉ jkeys st.nodes := fun hm => absurd (hkb _ hm) (lt_irrefl _)
  have hprevmem : prev ∈ jkeys st.nodes := jget_mem_keys _ _ _ hpn
  have hprevlt : prev < st.ctr := hkb prev hprevmem
  have hprevne : prev ≠ st.ctr := Nat.ne_of_lt hprevlt
  have hmax : ¬(st.config.maxNodes ≠ 0 ∧ st.nodes.length ≥ st.config.maxNodes) := by
    rintro ⟨-, h2⟩
    rw [hcfg] at h2
    have h3 : st.nodes.length ≥ 100 := h2
    omega
  have hene : st.entryNodeIds.length ≠ 0 := by rw [hentry]; simp
  obtain ⟨st₁, hA, hctr₁, hent₁, hcfg₁, hedg₁, hnds₁⟩ :=
    addNode_chain t .hypothesis (1/2) st hmax hf hene
  have hpn₁ : jget st₁.nodes prev = some pn := by
    rw [hnds₁]
    exact jget_append_left _ _ _ _ hpn
  have htn₁ : jget st₁.nodes st.ctr = some
      { id := st.ctr, content := t, nodeType := .hypothesis, strength := 1/2,
        incomingEdges := [], outgoingEdges := [] } := by
    rw [hnds₁, jget_append_right _ _ _ hf]
    simp [jget]
  have hmaxe : ¬(st₁.config.maxEdges ≠ 0 ∧ st₁.edges.length ≥ st₁.config.maxEdges) := by
    rintro ⟨-, h2⟩
    rw [hedg₁, hcfg₁, hcfg] at h2
    have h3 : st.edges.length ≥ 300 := h2
    omega
  have hcyc : ¬(st₁.config.allowCycles = false ∧
      Graph.wouldCreateCycle prev st.ctr st₁) := by
    rintro ⟨h1, -⟩
    rw [hcfg₁, hcfg] at h1
    exact absurd h1 (by decide)
  have hfe₁ : st₁.ctr ∉ jkeys st₁.edges := by
    rw [hctr₁, hedg₁]
    intro hm
    have := hkbe _ hm
    omega
  have hprune : ∀ s₅ : Graph.GraphSession, s₅.config = st₁.config →
      ¬(s₅.config.autoPruneWeakEdges ∧ s₅.config.edgeWeightThreshold ≠ 0 ∧
        (4/5 : ℚ) < s₅.config.edgeWeightThreshold) := by
    rintro s₅ hcfg₅ ⟨h1, -⟩
    rw [hcfg₅, hcfg₁, hcfg] at h1
    exact absurd h1 (by decide)
  obtain ⟨st₂, e, hC, hctr₂, hent₂, hcfg₂, hedges₂, hesrc, hetgt,
    pn₁, tn₁, hn₂eq, hpc, hpt, hpi, htc, htt, hti⟩ :=
    connectNodes_chain prev st.ctr .leadsTo (4/5) st₁ pn _ hpn₁ htn₁ hprevne
      hmaxe hcyc hfe₁ hprune
  have hsplit : st₂.nodes = (jset st.nodes prev pn₁) ++ [(st.ctr, tn₁)] := by
    rw [hn₂eq, hnds₁, jset_append_left _ _ _ _ hprevmem,
      jset_append_fresh _ _ _ _ (by rw [jkeys_jset_mem _ _ _ hprevmem]; exact hf)]
  have hkeysX : jkeys (jset st.nodes prev pn₁) = jkeys st.nodes :=
    jkeys_jset_mem _ _ _ hprevmem
  have hkeys₂ : jkeys st₂.nodes = jkeys st.nodes ++ [st.ctr] := by
    rw [hsplit, jkeys_append, hkeysX]
    rfl
  have hctrtot : st₂.ctr = st.ctr + 2 := by
    rw [hctr₂, hctr₁]
  have hedold : ∀ eid e₀, jget st.edges eid = some e₀ → jget st₂.edges eid = some e₀ := by
    intro eid e₀ h
    rw [hedges₂, hedg₁]
    exact jget_append_left _ _ _ _ h
  refine ⟨st₁, st₂, st₁.ctr, hA, hC, ?_, ?_, ?_, ?_, ?_, ?_, ?_, ?_, ?_, ?_⟩
  · rw [hsplit]
    have hchX : ChainG st₂ none (jset st.nodes prev pn₁) txs := by
      refine ChainG_upd st st₂ hedold st.nodes none txs prev pn₁ hprevmem ?_ hch
      intro n hn
      rw [hpn] at hn
      rw [← Option.some.inj hn]
      exact ⟨hpc, hpt, hpi⟩
    refine ChainG_snoc st₂ st.ctr tn₁ t st₁.ctr e ?_ ?_ ?_ ?_
      (jset st.nodes prev pn₁) none txs hchX ?_
    · rw [htc]
    · rw [htt]
    · rw [hti]
      rfl
    · rw [hedges₂, jget_append_right _ _ _ hfe₁]
      simp [jget]
    · rw [hkeysX, hlast]
      exact hesrc
  · rw [hkeys₂, List.getLast?_concat]
  · refine ⟨tn₁, ?_⟩
    rw [hsplit]
    rw [jget_append_right _ _ _ (by rw [hkeysX]; exact hf)]
    simp [jget]
  · refine ⟨k₀, hent₂.trans (hent₁.trans hentry), ?_⟩
    rw [hkeys₂]
    cases hcs : jkeys st.nodes with
    | nil => rw [hcs] at hhead; cases hhead
    | cons a rest =>
      rw [hcs] at hhead
      simpa using hhead
  · intro k hk
    rw [hkeys₂] at hk
    rw [hctrtot]
    rcases List.mem_append.mp hk with h1 | h1
    · have := hkb k h1
      omega
    · rw [List.mem_singleton.mp h1]
      omega
  · intro k hk
    rw [hedges₂, hedg₁, jkeys_append] at hk
    rw [hctrtot]
    rcases List.mem_append.mp hk with h1 | h1
    · have := hkbe k h1
      omega
    · have : k = st₁.ctr := List.mem_singleton.mp h1
      rw [hctr₁] at this
      omega
  · rw [hkeys₂, List.nodup_append]
    refine ⟨hnd, List.nodup_singleton _, ?_⟩
    intro x hx hx'
    rw [List.mem_singleton.mp hx'] at hx
    exact hf hx
  · rw [hsplit, List.length_append, List.length_singleton,
      jset_length_mem _ _ _ hprevmem, List.length_append, List.length_singleton,
      hcnt]
  · rw [hedges₂, hedg₁, List.length_append, List.length_singleton,
      List.length_append, List.length_singleton]
    omega
  · rw [hcfg₂, hcfg₁, hcfg]

/-- The fold step of `Graph.importFromSequentialFormat`. -/
def graphImportStep (acc : Graph.GraphSession × Option Nat) (t : ThoughtData) :
    Except String (Graph.GraphSession × Option Nat) := do
  let (st, prevNodeId) := acc
  let (nodeId, st₁) ← Graph.addNode t.thought .hypothesis (1/2) st
  match prevNodeId with
  | some prev =>
    match Graph.connectNodes prev nodeId .leadsTo (4/5) st₁ with
    | (.ok _, st₂) => pure (st₂, some nodeId)
    | (.error e, _) => throw e
  | none => pure (st₁, some nodeId)

/-- `Graph.importFromSequentialFormat` spelled with the named fold step. -/
theorem graph_import_eq (ts : List ThoughtData) :
    Graph.importFromSequentialFormat ts =
      (do
        let r ← ts.foldlM graphImportStep (Graph.initializeSession {}, none)
        pure r.1) := rfl

/-- The invariant survives the whole import fold tail. -/
theorem graph_import_fold (l : List ThoughtData) :
    ∀ (st : Graph.GraphSession) (prev : Nat) (txs : List String),
      GInv st prev txs → txs.length + l.length ≤ 100 →
      ∃ st' prev',
        l.foldlM graphImportStep (st, some prev) = Except.ok (st', some prev') ∧
        GInv st' prev' (txs ++ l.map (fun td => td.thought)) := by
  induction l with
  | nil =>
    intro st prev txs hinv _
    exact ⟨st, prev, rfl, by simpa using hinv⟩
  | cons t tail ih =>
    intro st prev txs hinv hb
    have hb₁ : txs.length ≤ 99 := by
      simp only [List.length_cons] at hb
      omega
    obtain ⟨st₁, st₂, eid, hA, hC, hinv₂⟩ := graph_step_inv st prev txs t.thought hinv hb₁
    have hstep : graphImportStep (st, some prev) t = Except.ok (st₂, some st.ctr) := by
      rw [graphImportStep]
      dsimp only []
      rw [hA, except_bind_ok]
      dsimp only []
      rw [hC]
      rfl
    obtain ⟨st', prev', hfold, hinv'⟩ :=
      ih st₂ st.ctr (txs ++ [t.thought]) hinv₂
        (by simp only [List.length_append, List.length_singleton, List.length_nil,
              List.length_cons] at hb ⊢
            omega)
    refine ⟨st', prev', ?_, ?_⟩
    · rw [List.foldlM_cons, hstep, except_bind_ok, hfold]
    · simpa [List.append_assoc] using hinv'

/-- Exporting a session satisfying the invariant lists the tagged texts. -/
theorem graph_export_of_inv (s : Graph.GraphSession) (txs : List String) (prev : Nat)
    (hinv : GInv s prev txs) :
    (Graph.exportToSequentialFormat s).map (fun td => td.thought) =
      txs.map (fun tx => "[hypothesis] " ++ tx) := by
  obtain ⟨hch, hlast, ⟨pn, hpn⟩, ⟨k₀, hentry, hhead⟩, hkb, hkbe, hnd, hcnt, hecnt,
    hcfg⟩ := hinv
  cases hns : s.nodes with
  | nil =>
    rw [hns] at hcnt
    rw [hns] at hhead
    cases hhead
  | cons kv₀ rest =>
    obtain ⟨kk, n₀⟩ := kv₀
    have hkk : kk = k₀ := by
      rw [hns, jkeys_cons] at hhead
      exact Option.some.inj hhead
    subst hkk
    rw [hns] at hch hnd
    cases txs with
    | nil => simp only [ChainG] at hch
    | cons tx₀ txs' =>
      simp only [ChainG] at hch
      obtain ⟨hc₀, hty₀, hin₀, htail⟩ := hch
      rw [jkeys_cons] at hnd
      have hget : ∀ q ∈ (kk, n₀) :: rest, jget s.nodes q.1 = some q.2 := by
        intro q hq
        rw [← hns] at hq
        refine jget_of_mem_nodup ?_ ?_
        · rw [hns, jkeys_cons]
          exact hnd
        · rcases q with ⟨qk, qn⟩
          exact hq
      have hn₀get : jget s.nodes kk = some n₀ :=
        hget (kk, n₀) (List.mem_cons_self _ _)
      rw [Graph.exportToSequentialFormat]
      rw [hentry]
      rw [List.foldl_cons, List.foldl_nil]
      rw [visitNode_step s s.nodes.length [] [] kk n₀ (List.not_mem_nil kk) hn₀get
        (Or.inl hin₀)]
      rw [hns, List.foldl_cons]
      simp only [List.nil_append]
      dsimp only []
      simp only [visitNode_mem s ([kk], [n₀]) kk (List.mem_cons_self _ _),
        gvisit_fold s ((kk, n₀) :: rest).length rest txs' kk [kk] [n₀] htail
          (fun q hq => hget q (List.mem_cons_of_mem _ hq))
          (fun q hq hm => (List.nodup_cons.mp hnd).1
            ((List.mem_singleton.mp hm) ▸ List.mem_map.mpr ⟨q, hq, rfl⟩))
          (List.nodup_cons.mp hnd).2 (List.mem_cons_self _ _)]
      refine Eq.trans (graph_export_map _ _ 0) ?_
      rw [show ([n₀] : List Graph.GraphNode) ++ rest.map Prod.snd =
        ((kk, n₀) :: rest).map Prod.snd from rfl]
      exact ChainG_texts s ((kk, n₀) :: rest) none (tx₀ :: txs')
        ⟨hc₀, hty₀, hin₀, htail⟩

/-- The node created by the first Graph import step. -/
def graphRootNode (t : ThoughtData) : Graph.GraphNode :=
  { id := 0, content := t.thought, nodeType := .hypothesis, strength := 1/2,
    incomingEdges := [], outgoingEdges := [] }

/-- The session after importing the first thought into a fresh graph. -/
def graphRootSession (t : ThoughtData) : Graph.GraphSession :=
  { Graph.initializeSession {} with
    nodes := [(0, graphRootNode t)],
    entryNodeIds := [0],
    totalNodes := 1,
    nodesByType := [(Graph.GraphNodeType.hypothesis, 1)],
    ctr := 1 }

/-- The first Graph import step from a fresh session, evaluated. -/
theorem graph_root_step (t : ThoughtData) :
    graphImportStep (Graph.initializeSession {}, none) t =
      Except.ok (graphRootSession t, some 0) := rfl

/-- The invariant holds after the first Graph import step. -/
theorem graph_root_inv (t : ThoughtData) :
    GInv (graphRootSession t) 0 [t.thought] := by
  refine ⟨⟨rfl, rfl, rfl, trivial⟩, rfl, ⟨graphRootNode t, rfl⟩, ⟨0, rfl, rfl⟩,
    ?_, ?_, ?_, rfl, rfl, rfl⟩
  · intro k hk
    rw [List.mem_singleton.mp hk]
    exact Nat.one_pos
  · intro k hk
    exact absurd hk (List.not_mem_nil k)
  · exact List.nodup_singleton 0

/-- Graph round trip: within the default 100-node budget, import then
export reproduces the texts, each prefixed with the hypothesis tag. -/
theorem graph_roundtrip (ts : List ThoughtData) (h : ts.length ≤ 100) :
    ∃ s', Graph.importFromSequentialFormat ts = Except.ok s' ∧
      (Graph.exportToSequentialFormat s').map (fun td => td.thought) =
        ts.map (fun td => "[hypothesis] " ++ td.thought) := by
  cases ts with
  | nil => exact ⟨Graph.initializeSession {}, rfl, rfl⟩
  | cons t₀ rest =>
    obtain ⟨st', prev', hfold, hinv'⟩ :=
      graph_import_fold rest (graphRootSession t₀) 0 [t₀.thought] (graph_root_inv t₀)
        (by simp only [List.length_singleton, List.length_cons, List.length_nil] at h ⊢
            omega)
    refine ⟨st', ?_, ?_⟩
    · rw [graph_import_eq, List.foldlM_cons, graph_root_step, except_bind_ok, hfold]
      rfl
    · have hexp := graph_export_of_inv st'
        ([t₀.thought] ++ rest.map (fun td => td.thought)) prev' hinv'
      rw [hexp]
      simp only [List.map_cons, List.map_map, List.singleton_append]
      rfl

/-! ### C1: assembled round-trip statement and counterexample -/

/-- A single imported thought used in the counterexample. -/
def c1Thought : ThoughtData :=
  { thought := "alpha", thoughtNumber := 1, totalThoughts := 1, nextThoughtNeeded := false }

/-- **C1** (corrected): exporting right after importing a thought sequence
reproduces the text values exactly only for the MCTS engine (for any
nonempty sequence and any randomness stream).  The Tree engine prepends
the fixed root problem statement (within its depth budget of 10), the
Graph engine prefixes every text with the hypothesis tag (within its
100-node budget), and the Beam engine always exports the empty sequence. -/
theorem C1_roundtrip_by_engine (ts : List ThoughtData) :
    (∀ rng : List ℚ, ts ≠ [] → ∃ s' rng',
      MCTS.importFromSequentialFormat ts rng = .ok (s', rng') ∧
        (MCTS.exportToSequentialFormat s').map (fun td => td.thought) =
          ts.map (fun td => td.thought)) ∧
    (ts.length ≤ 10 → ∃ s',
      Tree.importFromSequentialFormat ts = .ok s' ∧
        (Tree.exportToSequentialFormat s').map (fun td => td.thought) =
          "Root: Problem Statement" :: ts.map (fun td => td.thought)) ∧
    (ts.length ≤ 100 → ∃ s',
      Graph.importFromSequentialFormat ts = .ok s' ∧
        (Graph.exportToSequentialFormat s').map (fun td => td.thought) =
          ts.map (fun td => "[hypothesis] " ++ td.thought)) ∧
    Beam.exportToSequentialFormat (Beam.importFromSequentialFormat ts) = [] :=
  ⟨fun rng h => mcts_roundtrip ts rng h,
   fun h => tree_roundtrip ts h,
   fun h => graph_roundtrip ts h,
   beam_export_import ts⟩

/-- **C1** counterexample: on the single thought "alpha", the Tree export
prepends the fixed root statement, the Graph export prefixes the
hypothesis tag, and the Beam export is empty, so none of those three
engines reproduces the imported text values. -/
theorem C1_roundtrip_counterexample :
    (Tree.importFromSequentialFormat [c1Thought]).map
        (fun s' => (Tree.exportToSequentialFormat s').map (fun td => td.thought)) ≠
      Except.ok ["alpha"] ∧
    (Graph.importFromSequentialFormat [c1Thought]).map
        (fun s' => (Graph.exportToSequentialFormat s').map (fun td => td.thought)) ≠
      Except.ok ["alpha"] ∧
    (Beam.exportToSequentialFormat (Beam.importFromSequentialFormat [c1Thought])).map
        (fun td => td.thought) ≠ ["alpha"] := by
  refine ⟨?_, ?_, ?_⟩
  · obtain ⟨s', himp, hexp⟩ := tree_roundtrip [c1Thought] (by decide)
    rw [himp]
    intro hc
    have h₂ := Except.ok.inj hc
    dsimp only [] at h₂
    rw [hexp] at h₂
    exact absurd h₂ (by decide)
  · obtain ⟨s', himp, hexp⟩ := graph_roundtrip [c1Thought] (by decide)
    rw [himp]
    intro hc
    have h₂ := Except.ok.inj hc
    dsimp only [] at h₂
    rw [hexp] at h₂
    exact absurd h₂ (by decide)
  · rw [beam_export_import]
    intro hc
    exact absurd hc (by decide)

end ClearThought
